import Mathlib

/-!
# Region allocator of `libjpeg/mem_region_list.c`

Shallow embedding of the address-ordered free-list / used-list allocator.

* A `struct mem_region *` is a value of `Ptr`: `NULL`, the address of one of the
  two list heads, or the address of a slot of the caller-supplied entry array.
* A `mem_addr_t` (`uint8_t *`) is a natural number below `2 ^ aw`, where `aw` is
  the pointer width of the target in bits; `NULL` is `0`.  Pointer arithmetic
  is taken modulo `2 ^ aw`.
* A `mem_size_t` (`uint32_t`) is a natural number below `2 ^ 32`; arithmetic on
  it is taken modulo `2 ^ 32`.
* The `while` loops that follow `next` pointers carry a fuel argument; a result
  `none` stands for a call that does not return (fuel exhausted, or a `NULL`
  pointer dereferenced).
* `init_lock`, `destroy_lock`, `lock`, `unlock` have empty bodies in the source
  and are omitted.
-/

namespace MemRegionList

/-! ## Data model (`mem_region.h`, `mem_region_list.h`) -/

/-- The constant `ALIGNMENT_SIZE (4u)`. -/
def ALIGNMENT_SIZE : Nat := 4

/-- Reduction of an arithmetic result to `uint32_t`. -/
def u32 (n : Nat) : Nat := n % 2 ^ 32

/-- Subtraction on `uint32_t`, for operands below `2 ^ 32`. -/
def sub32 (a b : Nat) : Nat := (a + 2 ^ 32 - b) % 2 ^ 32

/-- Values of type `struct mem_region *` formed by the program. -/
inductive Ptr where
  | null : Ptr
  | used : Ptr
  | free : Ptr
  | entry (i : Nat) : Ptr
  deriving DecidableEq, Repr

/-- The record `struct mem_region`. -/
structure mem_region where
  address : Nat
  length : Nat
  prev : Ptr
  next : Ptr
  deriving DecidableEq, Repr

/-- The record `struct mem_region_list`; `entries` is the storage the
`entries` pointer refers to. -/
structure mem_region_list where
  used : mem_region
  free : mem_region
  entries : Nat → mem_region
  entry_count : Int

/-- Read `*p`. -/
def load (l : mem_region_list) : Ptr → Option mem_region
  | .null => none
  | .used => some l.used
  | .free => some l.free
  | .entry i => some (l.entries i)

/-- Write `*p = r`. -/
def store (l : mem_region_list) (r : mem_region) : Ptr → Option mem_region_list
  | .null => none
  | .used => some { l with used := r }
  | .free => some { l with free := r }
  | .entry i => some { l with entries := fun j => if j = i then r else l.entries j }

/-- The assignment `p->next = q`. -/
def set_next (l : mem_region_list) (p q : Ptr) : Option mem_region_list :=
  (load l p).bind fun r => store l { r with next := q } p

/-- The assignment `p->prev = q`. -/
def set_prev (l : mem_region_list) (p q : Ptr) : Option mem_region_list :=
  (load l p).bind fun r => store l { r with prev := q } p

/-- The assignment `p->address = a`. -/
def set_address (l : mem_region_list) (p : Ptr) (a : Nat) : Option mem_region_list :=
  (load l p).bind fun r => store l { r with address := a } p

/-- The assignment `p->length = n`. -/
def set_length (l : mem_region_list) (p : Ptr) (n : Nat) : Option mem_region_list :=
  (load l p).bind fun r => store l { r with length := n } p

/-! ## Static helpers of `mem_region_list.c` -/

/-- Loop of `get_free_entry`: `n` slots remain to be inspected from index `i`. -/
def get_free_entry_loop (l : mem_region_list) : Nat → Nat → Ptr
  | 0, _ => .null
  | n + 1, i =>
    if (l.entries i).address = 0 then .entry i else get_free_entry_loop l n (i + 1)

/-- The function `get_free_entry`: first slot, in pool order, whose address is `NULL`. -/
def get_free_entry (l : mem_region_list) : Ptr :=
  get_free_entry_loop l l.entry_count.toNat 0

/-- Loop of `find_insert_entry`. -/
def find_insert_entry_loop (l : mem_region_list) (head : Ptr) (address : Nat) :
    Nat → Ptr → Option Ptr
  | 0, _ => none
  | fuel + 1, pentry =>
    if pentry = head then some head
    else (load l pentry).bind fun e =>
      if address < e.address then some pentry
      else find_insert_entry_loop l head address fuel e.next

/-- The function `find_insert_entry`: first member whose address exceeds `address`,
or the head. -/
def find_insert_entry (fuel : Nat) (l : mem_region_list) (head : Ptr) (address : Nat) :
    Option Ptr :=
  (load l head).bind fun h => find_insert_entry_loop l head address fuel h.next

/-- The function `insert_entry`: splice `pentry` in before `prev_entry`. -/
def insert_entry (l : mem_region_list) (prev_entry pentry : Ptr) : Option mem_region_list :=
  (load l prev_entry).bind fun a =>
  (set_next l a.prev pentry).bind fun l1 =>
  (load l1 prev_entry).bind fun a1 =>
  (set_prev l1 pentry a1.prev).bind fun l2 =>
  (set_next l2 pentry prev_entry).bind fun l3 =>
  set_prev l3 prev_entry pentry

/-- The function `remove_entry`: splice `pentry` out and leave it self-linked. -/
def remove_entry (l : mem_region_list) (pentry : Ptr) : Option mem_region_list :=
  (load l pentry).bind fun e =>
  (set_prev l e.next e.prev).bind fun l1 =>
  (load l1 pentry).bind fun e1 =>
  (set_next l1 e1.prev e1.next).bind fun l2 =>
  (set_next l2 pentry pentry).bind fun l3 =>
  set_prev l3 pentry pentry

/-- The function `release_entry`: remove, then mark the slot empty. -/
def release_entry (l : mem_region_list) (pentry : Ptr) : Option mem_region_list :=
  (remove_entry l pentry).bind fun l1 =>
  (set_address l1 pentry 0).bind fun l2 =>
  set_length l2 pentry 0

/-- Loop of `find_blank_region`. -/
def find_blank_region_loop (l : mem_region_list) (head : Ptr) (length : Nat) :
    Nat → Ptr → Option Ptr
  | 0, _ => none
  | fuel + 1, pentry =>
    if pentry = head then some .null
    else (load l pentry).bind fun e =>
      if e.length ≥ length then some pentry
      else find_blank_region_loop l head length fuel e.next

/-- The function `find_blank_region`: first member with `length` bytes or more. -/
def find_blank_region (fuel : Nat) (l : mem_region_list) (head : Ptr) (length : Nat) :
    Option Ptr :=
  (load l head).bind fun h => find_blank_region_loop l head length fuel h.next

/-- Loop of `find_region`. -/
def find_region_loop (l : mem_region_list) (head : Ptr) (address : Nat) :
    Nat → Ptr → Option Ptr
  | 0, _ => none
  | fuel + 1, pentry =>
    if pentry = head then some .null
    else (load l pentry).bind fun e =>
      if e.address = address then some pentry
      else find_region_loop l head address fuel e.next

/-- The function `find_region`: the member that starts at `address`. -/
def find_region (fuel : Nat) (l : mem_region_list) (head : Ptr) (address : Nat) :
    Option Ptr :=
  (load l head).bind fun h => find_region_loop l head address fuel h.next

/-- Inner `while` of `arrange_regions`: absorb the successors of `pentry` that
start where `pentry` ends. The argument `pnext_entry` is the local of that name. -/
def arrange_regions_inner (aw : Nat) (head pentry : Ptr) :
    Nat → mem_region_list → Ptr → Option mem_region_list
  | 0, _, _ => none
  | fuel + 1, l, pnext_entry =>
    if pnext_entry = head then some l
    else (load l pentry).bind fun e =>
      (load l pnext_entry).bind fun n =>
        if (e.address + e.length) % 2 ^ aw = n.address then
          (set_length l pentry (u32 (e.length + n.length))).bind fun l1 =>
          (release_entry l1 pnext_entry).bind fun l2 =>
          (load l2 pentry).bind fun e2 =>
            arrange_regions_inner aw head pentry fuel l2 e2.next
        else some l

/-- Outer `while` of `arrange_regions`. -/
def arrange_regions_loop (aw : Nat) (head : Ptr) :
    Nat → mem_region_list → Ptr → Option mem_region_list
  | 0, _, _ => none
  | fuel + 1, l, pentry =>
    if pentry = head then some l
    else (load l pentry).bind fun e =>
      (arrange_regions_inner aw head pentry fuel l e.next).bind fun l1 =>
      (load l1 pentry).bind fun e1 =>
        arrange_regions_loop aw head fuel l1 e1.next

/-- The function `arrange_regions`: combine continuous regions of a list. -/
def arrange_regions (aw fuel : Nat) (l : mem_region_list) (head : Ptr) :
    Option mem_region_list :=
  (load l head).bind fun h => arrange_regions_loop aw head fuel l h.next

/-! ## Public functions of `mem_region_list.c` -/

/-- The `for` loop of `mem_region_list_init` that clears `entries[0 .. entry_count)`. -/
def clear_entries (entries : Nat → mem_region) (entry_count : Int) : Nat → mem_region :=
  fun i => if (i : Int) < entry_count then ⟨0, 0, .null, .null⟩ else entries i

/-- The function `mem_region_list_init`. The arguments `list` and `entries` are
`none` for `NULL`. The result is the returned flag and the list afterwards. -/
def mem_region_list_init (fuel : Nat) (list : Option mem_region_list) (address length : Nat)
    (entries : Option (Nat → mem_region)) (entry_count : Int) :
    Option (Bool × Option mem_region_list) :=
  match list, entries with
  | none, _ => some (false, none)
  | some l, none => some (false, some l)
  | some l, some es =>
    if entry_count < 2 then some (false, some l)
    else
      let l1 : mem_region_list :=
        { used := ⟨0, 0, .used, .used⟩
          free := ⟨address, length, .free, .free⟩
          entries := clear_entries es entry_count
          entry_count := entry_count }
      let pentry := get_free_entry l1
      (set_address l1 pentry address).bind fun l2 =>
      (set_length l2 pentry length).bind fun l3 =>
      (find_insert_entry fuel l3 .free address).bind fun pos =>
      (insert_entry l3 pos pentry).bind fun l4 =>
        some (true, some l4)

/-- The function `mem_region_list_destroy`; the storage behind `entries` is
left as it is, only the bookkeeping of the list is cleared. -/
def mem_region_list_destroy (l : mem_region_list) : mem_region_list :=
  { l with
    used := { l.used with address := 0, length := 0 }
    free := { l.free with address := 0, length := 0 }
    entry_count := 0 }

/-- The function `mem_region_list_get_used`. -/
def mem_region_list_get_used (list : Option mem_region_list) : Nat :=
  match list with
  | some l => l.used.length
  | none => 0

/-- The function `mem_region_list_get_free`. -/
def mem_region_list_get_free (list : Option mem_region_list) : Nat :=
  match list with
  | some l => l.free.length
  | none => 0

/-- The rounding `((length + ALIGNMENT_SIZE - 1) / ALIGNMENT_SIZE) * ALIGNMENT_SIZE`
of `mem_region_list_assign`, in `uint32_t` arithmetic. -/
def needs_length (length : Nat) : Nat :=
  u32 (sub32 (u32 (length + ALIGNMENT_SIZE)) 1 / ALIGNMENT_SIZE * ALIGNMENT_SIZE)

/-- The function `mem_region_list_assign`; the result is the list afterwards and
the returned address (`0` for `NULL`). -/
def mem_region_list_assign (aw fuel : Nat) (l : mem_region_list) (length : Nat) :
    Option (mem_region_list × Nat) :=
  if length ≤ 0 then some (l, 0)
  else
    let pentry := get_free_entry l
    if pentry = .null then some (l, 0)
    else
      (find_blank_region fuel l .free (needs_length length)).bind fun blank_region_entry =>
      if blank_region_entry = .null then some (l, 0)
      else
        (load l blank_region_entry).bind fun b =>
        (set_address l pentry b.address).bind fun l1 =>
        (set_length l1 pentry (needs_length length)).bind fun l2 =>
        (load l2 blank_region_entry).bind fun b2 =>
        (set_address l2 blank_region_entry
            ((b2.address + needs_length length) % 2 ^ aw)).bind fun l3 =>
        (load l3 blank_region_entry).bind fun b3 =>
        (set_length l3 blank_region_entry (sub32 b3.length (needs_length length))).bind fun l4 =>
        (load l4 blank_region_entry).bind fun b4 =>
        (if b4.length ≤ 0 then release_entry l4 blank_region_entry else some l4).bind fun l5 =>
        (set_length l5 .free (sub32 l5.free.length (needs_length length))).bind fun l6 =>
        (set_length l6 .used (u32 (l6.used.length + needs_length length))).bind fun l7 =>
        (load l7 pentry).bind fun p =>
        (find_insert_entry fuel l7 .used p.address).bind fun pos =>
        (insert_entry l7 pos pentry).bind fun l8 =>
        (load l8 pentry).bind fun p8 =>
          some (l8, p8.address)

/-- The function `mem_region_list_release`. -/
def mem_region_list_release (aw fuel : Nat) (l : mem_region_list) (address : Nat) :
    Option mem_region_list :=
  (find_region fuel l .used address).bind fun pentry =>
    if pentry = .null then some l
    else
      (remove_entry l pentry).bind fun l1 =>
      (load l1 pentry).bind fun p =>
      (find_insert_entry fuel l1 .free p.address).bind fun pos =>
      (insert_entry l1 pos pentry).bind fun l2 =>
      (load l2 pentry).bind fun p2 =>
      (set_length l2 .free (u32 (l2.free.length + p2.length))).bind fun l3 =>
      (load l3 pentry).bind fun p3 =>
      (set_length l3 .used (sub32 l3.used.length p3.length)).bind fun l4 =>
      arrange_regions aw fuel l4 .free

/-! ## Walking a list (the loops of `dump_memories` in `jmem_impliments.c`) -/

/-- Members met when a list is walked from its head along `next`, as in
`dump_memories`. -/
def walk_loop (l : mem_region_list) (head : Ptr) : Nat → Ptr → Option (List Ptr)
  | 0, _ => none
  | fuel + 1, pregion =>
    if pregion = head then some []
    else (load l pregion).bind fun e =>
      (walk_loop l head fuel e.next).map fun rest => pregion :: rest

/-- Walk of the list anchored at `head`. -/
def walk (fuel : Nat) (l : mem_region_list) (head : Ptr) : Option (List Ptr) :=
  (load l head).bind fun h => walk_loop l head fuel h.next

/-- The pair `(address, length)` stored at `p`. -/
def region_at (l : mem_region_list) (p : Ptr) : Nat × Nat :=
  match load l p with
  | some r => (r.address, r.length)
  | none => (0, 0)

/-- The `(address, length)` pairs of the members of a list, in list order: what
`dump_memories` prints. -/
def regions (fuel : Nat) (l : mem_region_list) (head : Ptr) : Option (List (Nat × Nat)) :=
  (walk fuel l head).map fun ps => ps.map (region_at l)

/-! ## Field views of the store -/

/-- The field `p->next`, `NULL` when `p` is `NULL`. -/
def nextOf (l : mem_region_list) (p : Ptr) : Ptr :=
  match load l p with
  | some r => r.next
  | none => .null

/-- The field `p->prev`, `NULL` when `p` is `NULL`. -/
def prevOf (l : mem_region_list) (p : Ptr) : Ptr :=
  match load l p with
  | some r => r.prev
  | none => .null

/-- The field `p->address`. -/
def addrOf (l : mem_region_list) (p : Ptr) : Nat :=
  match load l p with
  | some r => r.address
  | none => 0

/-- The field `p->length`. -/
def lenOf (l : mem_region_list) (p : Ptr) : Nat :=
  match load l p with
  | some r => r.length
  | none => 0

/-- All fields of all records reachable through a `Ptr`, and the capacity. -/
structure View where
  next : Ptr → Ptr
  prev : Ptr → Ptr
  addr : Ptr → Nat
  len : Ptr → Nat
  count : Int

/-- The view of a list object. -/
def view (l : mem_region_list) : View :=
  ⟨nextOf l, prevOf l, addrOf l, lenOf l, l.entry_count⟩

/-- `Seg v p xs q`: following `next` from `p` visits the slots `xs` in turn and then
`q`, and the `prev` fields mirror this. -/
def Seg (v : View) : Ptr → List Nat → Ptr → Prop
  | p, [], q => v.next p = q ∧ v.prev q = p
  | p, x :: xs, q => v.next p = .entry x ∧ v.prev (.entry x) = p ∧ Seg v (.entry x) xs q

/-- Last node of the path that starts at `p` and runs through the slots `xs`. -/
def lastNode : Ptr → List Nat → Ptr
  | p, [] => p
  | _, x :: xs => lastNode (.entry x) xs

/-- First node of the path through the slots `xs` that ends at `q`. -/
def firstNode : List Nat → Ptr → Ptr
  | [], q => q
  | x :: _, _ => .entry x

/-- The two list heads. -/
def IsHead (h : Ptr) : Prop := h = .free ∨ h = .used

/-- First node of `xs`, or `dflt` when `xs` is empty: the value a search loop returns. -/
def foundNode (dflt : Ptr) : List Nat → Ptr
  | [] => dflt
  | x :: _ => .entry x

/-- The `address` and `length` fields of all records. -/
structure Data where
  addr : Ptr → Nat
  len : Ptr → Nat

/-- The data part of a view. -/
def dataOf (v : View) : Data := ⟨v.addr, v.len⟩

/-- Effect on the data of one pass of the inner loop body of `arrange_regions`:
slot `cur` absorbs slot `y`, which is then marked empty. -/
def mergeInto (d : Data) (cur y : Nat) : Data :=
  ⟨Function.update d.addr (.entry y) 0,
   Function.update (Function.update d.len (.entry cur)
     (u32 (d.len (.entry cur) + d.len (.entry y)))) (.entry y) 0⟩

/-- Effect of the inner loop of `arrange_regions` on the data and on the successors
`ys` of slot `cur`. -/
def absorb (aw cur : Nat) : Data → List Nat → Data × List Nat
  | d, [] => (d, [])
  | d, y :: ys =>
    if (d.addr (.entry cur) + d.len (.entry cur)) % 2 ^ aw = d.addr (.entry y) then
      absorb aw cur (mergeInto d cur y) ys
    else (d, y :: ys)

/-- Effect of `arrange_regions` from slot `cur` with successors `ys` on: the data
afterwards and the members left, `cur` first. -/
def coalesceFrom (aw : Nat) : Nat → Data → List Nat → Data × List Nat
  | cur, d, [] => (d, [cur])
  | cur, d, y :: ys =>
    if (d.addr (.entry cur) + d.len (.entry cur)) % 2 ^ aw = d.addr (.entry y) then
      coalesceFrom aw cur (mergeInto d cur y) ys
    else ((coalesceFrom aw y d ys).1, cur :: (coalesceFrom aw y d ys).2)

/-- Effect of `arrange_regions` on the data and the members of a list. -/
def coalesce (aw : Nat) (d : Data) : List Nat → Data × List Nat
  | [] => (d, [])
  | x :: xs => coalesceFrom aw x d xs

/-- Structural invariant: the free list holds the slots `fl`, the used list the slots
`ul`, in list order; no slot is listed twice and all lie in the pool. -/
structure Rep (v : View) (fl ul : List Nat) : Prop where
  free : Seg v .free fl .free
  used : Seg v .used ul .used
  nodup : (fl ++ ul).Nodup
  bound : ∀ i ∈ fl ++ ul, (i : Int) < v.count

/-- Data after the four field assignments of the success path of
`mem_region_list_assign`: slot `x` is the claimed entry, slot `f` the matched free
region, `n` the rounded length. -/
def carve (aw : Nat) (d : Data) (x f n : Nat) : Data :=
  let addr1 := Function.update d.addr (.entry x) (d.addr (.entry f))
  let len2 := Function.update d.len (.entry x) n
  let addr3 := Function.update addr1 (.entry f) ((addr1 (.entry f) + n) % 2 ^ aw)
  let len4 := Function.update len2 (.entry f) (sub32 (len2 (.entry f)) n)
  ⟨addr3, len4⟩

/-- Data after the conditional `release_entry` of `mem_region_list_assign`. -/
def dropEmpty (d : Data) (f : Nat) : Data :=
  if d.len (.entry f) ≤ 0 then
    ⟨Function.update d.addr (.entry f) 0, Function.update d.len (.entry f) 0⟩
  else d

/-- Data after the update of the two cached lengths in `mem_region_list_assign`. -/
def account (d : Data) (n : Nat) : Data :=
  let len6 := Function.update d.len .free (sub32 (d.len .free) n)
  ⟨d.addr, Function.update len6 .used (u32 (len6 .used + n))⟩

/-- Data after the success path of `mem_region_list_assign`. -/
def assignData (aw : Nat) (d : Data) (x f n : Nat) : Data :=
  account (dropEmpty (carve aw d x f n) f) n

/-- Data after the update of the two cached lengths in `mem_region_list_release`,
for the released slot `u`. -/
def releaseData (d : Data) (u : Nat) : Data :=
  let len3 := Function.update d.len .free (u32 (d.len .free + d.len (.entry u)))
  ⟨d.addr, Function.update len3 .used (sub32 (len3 .used) (len3 (.entry u)))⟩

/-- Order of definedness on results: whatever `o1` returns, `o2` returns too. -/
def OLe {α : Type} (o1 o2 : Option α) : Prop := ∀ r, o1 = some r → o2 = some r

/-- Abstract state of the allocator: the `(address, length)` pairs of the free list and
of the used list in list order, and the two cached lengths. -/
structure AState where
  free : List (Nat × Nat)
  used : List (Nat × Nat)
  flen : Nat
  ulen : Nat

/-- The `(address, length)` pair held by slot `i`. -/
def reg (v : View) (i : Nat) : Nat × Nat := (v.addr (.entry i), v.len (.entry i))

/-- Abstract state read off a view whose lists hold the slots `fl` and `ul`. -/
def absOf (v : View) (fl ul : List Nat) : AState :=
  ⟨fl.map (reg v), ul.map (reg v), v.len .free, v.len .used⟩

/-- Effect of the first-fit search and of the carving in `mem_region_list_assign` on
the free regions: the address handed out and the free regions afterwards. -/
def carveFree (aw n : Nat) : List (Nat × Nat) → Option (Nat × List (Nat × Nat))
  | [] => none
  | r :: rest =>
    if n ≤ r.2 then
      some (r.1, if sub32 r.2 n ≤ 0 then rest else ((r.1 + n) % 2 ^ aw, sub32 r.2 n) :: rest)
    else (carveFree aw n rest).map fun q => (q.1, r :: q.2)

/-- Effect of `find_insert_entry` followed by `insert_entry` on a region list: the
region goes in before the first member with a larger address. -/
def insertReg (r : Nat × Nat) : List (Nat × Nat) → List (Nat × Nat)
  | [] => [r]
  | q :: rest => if r.1 < q.1 then r :: q :: rest else q :: insertReg r rest

/-- Effect of `find_region` followed by `remove_entry` on a region list: the first
region that starts at `a`, and the other regions. -/
def takeReg (a : Nat) : List (Nat × Nat) → Option ((Nat × Nat) × List (Nat × Nat))
  | [] => none
  | q :: rest =>
    if q.1 = a then some (q, rest) else (takeReg a rest).map fun t => (t.1, q :: t.2)

/-- Effect of `arrange_regions` on a region list, from the region `cur` on. -/
def coalesceFromR (aw : Nat) : Nat × Nat → List (Nat × Nat) → List (Nat × Nat)
  | cur, [] => [cur]
  | cur, q :: rest =>
    if (cur.1 + cur.2) % 2 ^ aw = q.1 then coalesceFromR aw (cur.1, u32 (cur.2 + q.2)) rest
    else cur :: coalesceFromR aw q rest

/-- Effect of `arrange_regions` on a region list. -/
def coalesceR (aw : Nat) : List (Nat × Nat) → List (Nat × Nat)
  | [] => []
  | r :: rest => coalesceFromR aw r rest

/-- Effect of a call of `mem_region_list_assign` that found a pool slot, for the
rounded length `n`; `none` when no free region fits. -/
def aAssign (aw : Nat) (s : AState) (n : Nat) : Option (AState × Nat) :=
  (carveFree aw n s.free).map fun q =>
    (⟨q.2, insertReg (q.1, n) s.used, sub32 s.flen n, u32 (s.ulen + n)⟩, q.1)

/-- Effect of a call of `mem_region_list_release`. -/
def aRelease (aw : Nat) (s : AState) (a : Nat) : AState :=
  match takeReg a s.used with
  | none => s
  | some t => ⟨coalesceR aw (insertReg t.1 s.free), t.2, u32 (s.flen + t.1.2), sub32 s.ulen t.1.2⟩

/-- The `(address, length)` pair held by slot `i`, read from the data. -/
def regD (d : Data) (i : Nat) : Nat × Nat := (d.addr (.entry i), d.len (.entry i))

/-- Two regions have no byte in common. -/
def Disj (r q : Nat × Nat) : Prop :=
  r.1 + r.2 ≤ q.1 ∨ q.1 + q.2 ≤ r.1 ∨ r.2 = 0 ∨ q.2 = 0

/-- Invariant of the abstract state that holds for every request length: regions lie in
the reserved span, the cached lengths are the sums of the member lengths and add up to
the total, and no two regions overlap. -/
structure AInv (base total : Nat) (s : AState) : Prop where
  inb : ∀ r ∈ s.free ++ s.used, base ≤ r.1 ∧ r.1 + r.2 ≤ base + total
  sumf : (s.free.map Prod.snd).sum = s.flen
  sumu : (s.used.map Prod.snd).sum = s.ulen
  tot : s.flen + s.ulen = total
  disj : (s.free ++ s.used).Pairwise Disj

/-- States reached from `l0` by calls of `mem_region_list_assign` with a length of at
most `maxlen` and calls of `mem_region_list_release`, each of which returned. -/
inductive Reachable (aw maxlen : Nat) (l0 : mem_region_list) : mem_region_list → Prop
  | init : Reachable aw maxlen l0 l0
  | assign {l l1 : mem_region_list} (fuel length r : Nat) :
      Reachable aw maxlen l0 l → length ≤ maxlen →
      mem_region_list_assign aw fuel l length = some (l1, r) → Reachable aw maxlen l0 l1
  | release {l l1 : mem_region_list} (fuel address : Nat) :
      Reachable aw maxlen l0 l → address < 2 ^ aw →
      mem_region_list_release aw fuel l address = some l1 → Reachable aw maxlen l0 l1

/-- Invariant of the list object for a reserved span that does not start at
address 0: the two lists are well formed, unlisted pool slots carry the empty marker,
and the regions satisfy `AInv`. -/
def GInv (base total : Nat) (l : mem_region_list) : Prop :=
  ∃ fl ul, Rep (view l) fl ul ∧
    (∀ i : Nat, (i : Int) < (view l).count → i ∉ fl ++ ul → (view l).addr (.entry i) = 0) ∧
    AInv base total (absOf (view l) fl ul)

/-- Invariant of the list object for a reserved span that starts at address 0, the
value of the empty marker: only slot 0 is ever handed out, it is the sole member of
one of the two lists, and the cached lengths add up to the total. -/
def D2Inv (total : Nat) (l : mem_region_list) : Prop :=
  2 ≤ (view l).count ∧
  (∀ i : Nat, (i : Int) < (view l).count → (view l).addr (.entry i) = 0) ∧
  (view l).len .free + (view l).len .used = total ∧
  ((Rep (view l) [0] [] ∧ (view l).len (.entry 0) ≤ (view l).len .free) ∨
   (Rep (view l) [] [0] ∧ (view l).len (.entry 0) = 0))

/-- Entry storage used in the examples: every slot holds garbage before `init`. -/
def demoEntries : Nat → mem_region := fun _ => ⟨7, 7, .null, .null⟩

/-- List object used in the examples, before `init`. -/
def demoOld : mem_region_list := ⟨⟨9, 9, .null, .null⟩, ⟨9, 9, .null, .null⟩, demoEntries, 0⟩

/-- The list object after `mem_region_list_init(list, base, total, entries, count)`
on a 32-bit target; `demoOld` when the call fails. -/
def demoInit (base total : Nat) (count : Int) : mem_region_list :=
  match mem_region_list_init 4 (some demoOld) base total (some demoEntries) count with
  | some (true, some l) => l
  | _ => demoOld

/-- The list object after a call of `mem_region_list_assign` on a 32-bit target. -/
def demoAssign (l : mem_region_list) (length : Nat) : mem_region_list :=
  match mem_region_list_assign 32 16 l length with
  | some (l1, _) => l1
  | none => l

/-- The list object after a call of `mem_region_list_release` on a 32-bit target. -/
def demoRelease (l : mem_region_list) (address : Nat) : mem_region_list :=
  match mem_region_list_release 32 16 l address with
  | some l1 => l1
  | none => l

/-- The list object `l` is well formed and shows the abstract state `s`, which
satisfies `AInv`. -/
def Sim (base total : Nat) (l : mem_region_list) (s : AState) : Prop :=
  ∃ fl ul, Rep (view l) fl ul ∧
    (∀ i : Nat, (i : Int) < (view l).count → i ∉ fl ++ ul → (view l).addr (.entry i) = 0) ∧
    AInv base total s ∧ absOf (view l) fl ul = s

/-- Pool slot `i` is occupied by a used or free region: it is met when the free list
or the used list is walked. -/
def Occupied (l : mem_region_list) (i : Nat) : Prop :=
  ∃ fuel ps, (walk fuel l .free = some ps ∨ walk fuel l .used = some ps) ∧ Ptr.entry i ∈ ps

/-- State used in the example for C8: two allocations of 8 bytes and one zero-length
allocation (request `0xFFFFFFFF`) are made and released, then 32 bytes are assigned. -/
def demoUnsorted : mem_region_list :=
  demoAssign (demoRelease (demoRelease (demoRelease
    (demoAssign (demoAssign (demoAssign (demoInit 4096 1024 8) 8) 8) 4294967295)
    4096) 4104) 4112) 32

/-- Invariant of the abstract state over a non-empty span when every request has a
positive rounded length: on top of `AInv`, all regions have positive length, the used
regions are in address order, and consecutive free regions are in address order with a
gap between them (the free list is fully coalesced). -/
structure TInv (base total : Nat) (s : AState) : Prop where
  ainv : AInv base total s
  pos : ∀ r ∈ s.free ++ s.used, 0 < r.2
  fsep : s.free.Pairwise (fun r q => r.1 + r.2 < q.1)
  usort : s.used.Pairwise (fun r q => r.1 + r.2 ≤ q.1)

/-- Effect of a call of `mem_region_list_release` on the used regions: the first region
that starts at `a` leaves the list. -/
def removeReg (a : Nat) (us : List (Nat × Nat)) : List (Nat × Nat) :=
  match takeReg a us with
  | none => us
  | some t => t.2

/-- The regions of the free list and of the used list merged into one list in address
order: each region is put in before the first region with a larger start address. -/
def mergeRegs (fr ur : List (Nat × Nat)) : List (Nat × Nat) :=
  (fr ++ ur).foldr insertReg []

/-- `Tiles lo hi rs`: the regions `rs` tile `[lo, hi)` exactly: the first starts at `lo`,
each next one starts where the one before ends, and the last ends at `hi`. -/
def Tiles : Nat → Nat → List (Nat × Nat) → Prop
  | lo, hi, [] => lo = hi
  | lo, hi, r :: rest => r.1 = lo ∧ Tiles (lo + r.2) hi rest

/-- The list object in the middle of `release(0x1000)` after `init(0x1000, 1024, 8)` and
`assign(100)`: the region has been moved to the free list and the cached lengths are
updated, `arrange_regions` has not run yet. -/
def demoBeforeArrange : mem_region_list :=
  match (remove_entry (demoAssign (demoInit 4096 1024 8) 100) (.entry 1)).bind fun l1 =>
    (insert_entry l1 (.entry 0) (.entry 1)).bind fun l2 =>
    (set_length l2 .free (u32 (l2.free.length + 100))).bind fun l3 =>
    set_length l3 .used (sub32 l3.used.length 100) with
  | some l => l
  | none => demoOld

/-- The constant `MEM_REGION_COUNT (64)`. -/
def MEM_REGION_COUNT : Int := 64

/-- The size `16 * 1024 * 1024` that `jpeg_mem_init` reserves. -/
def mem_size : Nat := 16 * 1024 * 1024

/-- The statics of `jmem_impliments.c`: `MemRegionList` (its `entries` stand for the
array `MemRegions`) and the owner `UsedObject` (`0` for `NULL`). -/
structure glue_state where
  MemRegionList : mem_region_list
  UsedObject : Nat

/-- The function `dump_memories`: both lists are walked; what is printed is left out. -/
def dump_memories (fuel : Nat) (l : mem_region_list) : Option Unit :=
  (walk fuel l .used).bind fun _ => (walk fuel l .free).bind fun _ => some ()

/-- The function `jpeg_mem_init`. `malloc_result` is the value returned by
`malloc(mem_size)` (`0` for `NULL`); the result is the returned `long` and the statics
afterwards. -/
def jpeg_mem_init (fuel : Nat) (g : glue_state) (malloc_result cinfo : Nat) :
    Option (Nat × glue_state) :=
  if g.UsedObject ≠ 0 then some (0, g)
  else if malloc_result = 0 then some (0, g)
  else
    (mem_region_list_init fuel (some g.MemRegionList) malloc_result mem_size
      (some g.MemRegionList.entries) MEM_REGION_COUNT).bind fun r =>
    match r.2 with
    | some l => some (mem_region_list_get_free (some l), ⟨l, cinfo⟩)
    | none => none

/-- The function `jpeg_mem_term`; the call of `free` on the reserved span is left out. -/
def jpeg_mem_term (g : glue_state) (cinfo : Nat) : glue_state :=
  if g.UsedObject ≠ 0 ∧ cinfo = g.UsedObject then
    ⟨mem_region_list_destroy g.MemRegionList, 0⟩
  else g

/-- The function `jpeg_get_small`: `sizeofobject` is a `size_t` value, cast to
`mem_size_t`; the result is the returned pointer (`0` for `NULL`) and the statics
afterwards. The `printf` output is left out. -/
def jpeg_get_small (aw fuel : Nat) (g : glue_state) (cinfo sizeofobject : Nat) :
    Option (Nat × glue_state) :=
  if cinfo = g.UsedObject then
    (mem_region_list_assign aw fuel g.MemRegionList (u32 sizeofobject)).bind fun r =>
      if r.2 ≠ 0 then some (r.2, ⟨r.1, g.UsedObject⟩)
      else (dump_memories fuel r.1).bind fun _ => some (r.2, ⟨r.1, g.UsedObject⟩)
  else some (0, g)

/-- The function `jpeg_free_small`. -/
def jpeg_free_small (aw fuel : Nat) (g : glue_state) (cinfo object _sizeofobject : Nat) :
    Option glue_state :=
  if cinfo = g.UsedObject then
    (mem_region_list_release aw fuel g.MemRegionList object).bind fun l =>
      some ⟨l, g.UsedObject⟩
  else some g

/-- The function `jpeg_get_large`, which has the body of `jpeg_get_small`. -/
def jpeg_get_large (aw fuel : Nat) (g : glue_state) (cinfo sizeofobject : Nat) :
    Option (Nat × glue_state) :=
  if cinfo = g.UsedObject then
    (mem_region_list_assign aw fuel g.MemRegionList (u32 sizeofobject)).bind fun r =>
      if r.2 ≠ 0 then some (r.2, ⟨r.1, g.UsedObject⟩)
      else (dump_memories fuel r.1).bind fun _ => some (r.2, ⟨r.1, g.UsedObject⟩)
  else some (0, g)

/-- The function `jpeg_free_large`, which has the body of `jpeg_free_small`. -/
def jpeg_free_large (aw fuel : Nat) (g : glue_state) (cinfo object _sizeofobject : Nat) :
    Option glue_state :=
  if cinfo = g.UsedObject then
    (mem_region_list_release aw fuel g.MemRegionList object).bind fun l =>
      some ⟨l, g.UsedObject⟩
  else some g

/-- The statics in the examples after `jpeg_mem_init` by the context `77`, `malloc`
having returned `0x100000`. -/
def demoGlue : glue_state :=
  match jpeg_mem_init 4 ⟨demoOld, 0⟩ 1048576 77 with
  | some (_, g) => g
  | none => ⟨demoOld, 0⟩

/-- The constant `OUTPUT_BUF_SIZE (4096)`. -/
def OUTPUT_BUF_SIZE : Nat := 4096

/-- The message codes that `jdatadst_mem.c` passes to `ERREXIT`. -/
inductive J_MESSAGE_CODE where
  | JERR_BAD_STATE : J_MESSAGE_CODE
  | JERR_OUT_OF_MEMORY : J_MESSAGE_CODE
  | JERR_BUFFER_SIZE : J_MESSAGE_CODE
  | JERR_BAD_BUFFER_MODE : J_MESSAGE_CODE
  deriving DecidableEq, Repr

/-- A block of bytes in memory: its size and the byte at each offset. -/
structure mem_block where
  size : Nat
  data : Nat → Nat

/-- The record `my_mem_destination_mgr`: `next_output_byte` and `free_in_buffer` are the
fields of `pub`; pointers are addresses, `0` for `NULL`. The fields `outbuffer` and
`outsize` point to the two variables of the caller, which are kept in `dest_world`; the
three method pointers are left out. -/
structure my_mem_destination_mgr where
  next_output_byte : Nat
  free_in_buffer : Nat
  newbuffer : Nat
  newbufsize : Nat
  buffer : Nat
  bufsize : Nat
  allow_allocate_memory : Bool

/-- The memory the routines of `jdatadst_mem.c` read and write: `cinfo->dest` (`none`
for `NULL`), the code last passed to `ERREXIT`, the variables `*outbuffer` and `*outsize`
of the caller, and the blocks of the heap by start address. -/
structure dest_world where
  dest : Option my_mem_destination_mgr
  msg_code : Option J_MESSAGE_CODE
  outbuffer : Nat
  outsize : Nat
  heap : Nat → Option mem_block

/-- The call `ERREXIT(cinfo, code)` with an `error_exit` handler that returns: the code
is recorded and the routine goes on to its `return false`. -/
def ERREXIT (w : dest_world) (code : J_MESSAGE_CODE) : dest_world :=
  { w with msg_code := some code }

/-- The heap after a successful `malloc(n)` that returned `p`; `fresh` gives the
indeterminate bytes of the new block. -/
def heap_malloc (heap : Nat → Option mem_block) (p n : Nat) (fresh : Nat → Nat) :
    Nat → Option mem_block :=
  fun q => if q = p then some ⟨n, fresh⟩ else heap q

/-- The heap after `memcpy(dst, src, n)`; `none` when a block is missing or too small. -/
def heap_memcpy (heap : Nat → Option mem_block) (dst src n : Nat) :
    Option (Nat → Option mem_block) :=
  match heap dst, heap src with
  | some d, some s =>
    if n ≤ d.size ∧ n ≤ s.size then
      some fun q => if q = dst then some ⟨d.size, fun i => if i < n then s.data i else d.data i⟩
        else heap q
    else none
  | _, _ => none

/-- The heap after `free(p)`. -/
def heap_free (heap : Nat → Option mem_block) (p : Nat) : Nat → Option mem_block :=
  fun q => if q = p then none else heap q

/-- The function `empty_mem_output_buffer`; `sw` is the width of `size_t` and of
pointers, `malloc_result` the value returned by `malloc(nextsize)`. -/
def empty_mem_output_buffer (sw : Nat) (w : dest_world) (malloc_result : Nat)
    (fresh : Nat → Nat) : Option (Bool × dest_world) :=
  match w.dest with
  | none => none
  | some dest =>
    if !dest.allow_allocate_memory then some (false, ERREXIT w .JERR_BAD_STATE)
    else
      let nextsize := (dest.bufsize * 2) % 2 ^ sw
      let nextbuffer := malloc_result
      if nextbuffer = 0 then some (false, ERREXIT w .JERR_OUT_OF_MEMORY)
      else
        (heap_memcpy (heap_malloc w.heap nextbuffer nextsize fresh) nextbuffer dest.buffer
          dest.bufsize).bind fun heap2 =>
        let heap3 := if dest.newbuffer ≠ 0 then heap_free heap2 dest.newbuffer else heap2
        some (true,
          { w with
            dest := some
              { dest with
                newbuffer := nextbuffer
                newbufsize := nextsize
                next_output_byte := (nextbuffer + dest.bufsize) % 2 ^ sw
                free_in_buffer := dest.bufsize
                buffer := nextbuffer
                bufsize := nextsize }
            heap := heap3 })

/-- The function `term_mem_destination`. -/
def term_mem_destination (sw : Nat) (w : dest_world) : Option dest_world :=
  match w.dest with
  | none => none
  | some dest =>
    some { w with
      outbuffer := dest.buffer
      outsize := (dest.bufsize + 2 ^ sw - dest.free_in_buffer) % 2 ^ sw }

/-- The function `jpeg_mem_dest`. The arguments `outbuffer` and `outsize` are `none` for
`NULL` and else the value of the variable pointed to; `alloc_small_result` is the object
that `alloc_small` of the library returns, `malloc_result` the value returned by
`malloc(OUTPUT_BUF_SIZE)`. -/
def jpeg_mem_dest (w : dest_world) (outbuffer outsize : Option Nat)
    (allow_allocate_memory : Bool) (alloc_small_result : my_mem_destination_mgr)
    (malloc_result : Nat) (fresh : Nat → Nat) : Option (Bool × dest_world) :=
  match outbuffer, outsize with
  | some ob, some os =>
    if !allow_allocate_memory && (ob = 0 || os = 0) then
      some (false, ERREXIT w .JERR_BAD_BUFFER_MODE)
    else
      let d0 := match w.dest with
        | none => alloc_small_result
        | some d => d
      let d1 := { d0 with newbuffer := 0, allow_allocate_memory := allow_allocate_memory }
      if ob = 0 ∨ os = 0 then
        if malloc_result = 0 then
          some (false,
            ERREXIT { w with dest := some d1, outbuffer := ob, outsize := os }
              .JERR_OUT_OF_MEMORY)
        else
          some (true,
            { w with
              dest := some
                { d1 with
                  newbuffer := malloc_result
                  newbufsize := OUTPUT_BUF_SIZE
                  buffer := malloc_result
                  bufsize := OUTPUT_BUF_SIZE
                  next_output_byte := malloc_result
                  free_in_buffer := OUTPUT_BUF_SIZE }
              outbuffer := malloc_result
              outsize := OUTPUT_BUF_SIZE
              heap := heap_malloc w.heap malloc_result OUTPUT_BUF_SIZE fresh })
      else
        some (true,
          { w with
            dest := some
              { d1 with buffer := ob, bufsize := os, next_output_byte := ob,
                        free_in_buffer := os }
            outbuffer := ob
            outsize := os })
  | _, _ => some (false, ERREXIT w .JERR_BUFFER_SIZE)

/-- The memory in the examples: a caller buffer of 4 bytes at address 1000 that holds
`1, 2, 3, 4` and is full, with allocation allowed. -/
def demoWorld : dest_world :=
  { dest := some ⟨1004, 0, 0, 0, 1000, 4, true⟩
    msg_code := none
    outbuffer := 1000
    outsize := 4
    heap := fun q => if q = 1000 then some ⟨4, fun i => i + 1⟩ else none }

/-- The memory in the example of a large buffer, on a build with a 32-bit `size_t`: a
caller buffer of `0x80000800` bytes at address `0x10000` that is full, with allocation
allowed. -/
def demoLargeWorld : dest_world :=
  { dest := some ⟨2147551232, 0, 0, 0, 65536, 2147485696, true⟩
    msg_code := none
    outbuffer := 65536
    outsize := 2147485696
    heap := fun q => if q = 65536 then some ⟨2147485696, fun _ => 0⟩ else none }

/-! ## Lemmas on the store -/

theorem load_eq (l : mem_region_list) {p : Ptr} (hp : p ≠ .null) :
    load l p = some ⟨addrOf l p, lenOf l p, prevOf l p, nextOf l p⟩ := by
  cases p <;> simp_all [load, addrOf, lenOf, prevOf, nextOf]

theorem store_spec (l : mem_region_list) (r : mem_region) {p : Ptr} (hp : p ≠ .null) :
    ∃ l1, store l r p = some l1 ∧ l1.entry_count = l.entry_count ∧
      ∀ q, load l1 q = if q = p then some r else load l q := by
  cases p with
  | null => exact absurd rfl hp
  | used => exact ⟨_, rfl, rfl, fun q => by cases q <;> simp [load]⟩
  | free => exact ⟨_, rfl, rfl, fun q => by cases q <;> simp [load]⟩
  | entry i =>
    refine ⟨_, rfl, rfl, fun q => ?_⟩
    cases q <;> simp [load]
    split <;> rfl

theorem set_next_spec (l : mem_region_list) {p : Ptr} (q : Ptr) (hp : p ≠ .null) :
    ∃ l1, set_next l p q = some l1 ∧
      view l1 = { view l with next := Function.update (view l).next p q } := by
  obtain ⟨l1, h1, hc, hl⟩ := store_spec l ⟨addrOf l p, lenOf l p, prevOf l p, q⟩ hp
  refine ⟨l1, by simp [set_next, load_eq l hp, h1], ?_⟩
  simp only [view, hc, View.mk.injEq, and_true]
  refine ⟨?_, ?_, ?_, ?_⟩ <;> funext x <;> by_cases hx : x = p <;>
    simp [nextOf, prevOf, addrOf, lenOf, hl, hx, Function.update]

theorem set_prev_spec (l : mem_region_list) {p : Ptr} (q : Ptr) (hp : p ≠ .null) :
    ∃ l1, set_prev l p q = some l1 ∧
      view l1 = { view l with prev := Function.update (view l).prev p q } := by
  obtain ⟨l1, h1, hc, hl⟩ := store_spec l ⟨addrOf l p, lenOf l p, q, nextOf l p⟩ hp
  refine ⟨l1, by simp [set_prev, load_eq l hp, h1], ?_⟩
  simp only [view, hc, View.mk.injEq, and_true]
  refine ⟨?_, ?_, ?_, ?_⟩ <;> funext x <;> by_cases hx : x = p <;>
    simp [nextOf, prevOf, addrOf, lenOf, hl, hx, Function.update]

theorem set_address_spec (l : mem_region_list) {p : Ptr} (a : Nat) (hp : p ≠ .null) :
    ∃ l1, set_address l p a = some l1 ∧
      view l1 = { view l with addr := Function.update (view l).addr p a } := by
  obtain ⟨l1, h1, hc, hl⟩ := store_spec l ⟨a, lenOf l p, prevOf l p, nextOf l p⟩ hp
  refine ⟨l1, by simp [set_address, load_eq l hp, h1], ?_⟩
  simp only [view, hc, View.mk.injEq, and_true]
  refine ⟨?_, ?_, ?_, ?_⟩ <;> funext x <;> by_cases hx : x = p <;>
    simp [nextOf, prevOf, addrOf, lenOf, hl, hx, Function.update]

theorem set_length_spec (l : mem_region_list) {p : Ptr} (n : Nat) (hp : p ≠ .null) :
    ∃ l1, set_length l p n = some l1 ∧
      view l1 = { view l with len := Function.update (view l).len p n } := by
  obtain ⟨l1, h1, hc, hl⟩ := store_spec l ⟨addrOf l p, n, prevOf l p, nextOf l p⟩ hp
  refine ⟨l1, by simp [set_length, load_eq l hp, h1], ?_⟩
  simp only [view, hc, View.mk.injEq, and_true]
  refine ⟨?_, ?_, ?_, ?_⟩ <;> funext x <;> by_cases hx : x = p <;>
    simp [nextOf, prevOf, addrOf, lenOf, hl, hx, Function.update]

theorem load_view (l : mem_region_list) {p : Ptr} (hp : p ≠ .null) :
    load l p = some ⟨(view l).addr p, (view l).len p, (view l).prev p, (view l).next p⟩ :=
  load_eq l hp

theorem insert_entry_spec (l : mem_region_list) {a x : Ptr} (ha : a ≠ .null) (hx : x ≠ .null)
    (hp : (view l).prev a ≠ .null) :
    ∃ l1, insert_entry l a x = some l1 ∧
      view l1 = { view l with
        next := Function.update (Function.update (view l).next ((view l).prev a) x) x a
        prev := Function.update (Function.update (view l).prev x ((view l).prev a)) a x } := by
  obtain ⟨l1, h1, v1⟩ := set_next_spec l x hp
  obtain ⟨l2, h2, v2⟩ := set_prev_spec l1 ((view l).prev a) hx
  obtain ⟨l3, h3, v3⟩ := set_next_spec l2 a hx
  obtain ⟨l4, h4, v4⟩ := set_prev_spec l3 x ha
  refine ⟨l4, ?_, ?_⟩
  · simp [insert_entry, load_view l ha, h1, load_view l1 ha, v1, h2, h3, h4]
  · rw [v4, v3, v2, v1]

theorem remove_entry_spec (l : mem_region_list) {x : Ptr} (hx : x ≠ .null)
    (hn : (view l).next x ≠ .null) (hp : (view l).prev x ≠ .null) :
    ∃ l1, remove_entry l x = some l1 ∧
      view l1 = { view l with
        next := Function.update (Function.update (view l).next ((view l).prev x)
          ((view l).next x)) x x
        prev := Function.update (Function.update (view l).prev ((view l).next x)
          ((view l).prev x)) x x } := by
  obtain ⟨l1, h1, v1⟩ := set_prev_spec l ((view l).prev x) hn
  obtain ⟨l2, h2, v2⟩ := set_next_spec l1 ((view l).next x) hp
  obtain ⟨l3, h3, v3⟩ := set_next_spec l2 x hx
  obtain ⟨l4, h4, v4⟩ := set_prev_spec l3 x hx
  refine ⟨l4, ?_, ?_⟩
  · simp [remove_entry, load_view l hx, h1, load_view l1 hx, v1, Function.update_apply, h2, h3, h4]
  · rw [v4, v3, v2, v1]

theorem release_entry_spec (l : mem_region_list) {x : Ptr} (hx : x ≠ .null)
    (hn : (view l).next x ≠ .null) (hp : (view l).prev x ≠ .null) :
    ∃ l1, release_entry l x = some l1 ∧
      view l1 = { view l with
        next := Function.update (Function.update (view l).next ((view l).prev x)
          ((view l).next x)) x x
        prev := Function.update (Function.update (view l).prev ((view l).next x)
          ((view l).prev x)) x x
        addr := Function.update (view l).addr x 0
        len := Function.update (view l).len x 0 } := by
  obtain ⟨l1, h1, v1⟩ := remove_entry_spec l hx hn hp
  obtain ⟨l2, h2, v2⟩ := set_address_spec l1 0 hx
  obtain ⟨l3, h3, v3⟩ := set_length_spec l2 0 hx
  refine ⟨l3, ?_, ?_⟩
  · simp [release_entry, h1, h2, h3]
  · rw [v3, v2, v1]

theorem seg_append (v : View) (xs : List Nat) (y : Nat) (ys : List Nat) (p q : Ptr) :
    Seg v p (xs ++ y :: ys) q ↔ Seg v p xs (.entry y) ∧ Seg v (.entry y) ys q := by
  induction xs generalizing p with
  | nil => simp [Seg, and_assoc]
  | cons x xs ih => simp [Seg, ih, and_assoc]

theorem seg_next (v : View) {p q : Ptr} {xs : List Nat} (h : Seg v p xs q) :
    v.next p = firstNode xs q := by
  cases xs with
  | nil => exact h.1
  | cons x xs => exact h.1

theorem seg_prev (v : View) {p q : Ptr} {xs : List Nat} (h : Seg v p xs q) :
    v.prev q = lastNode p xs := by
  induction xs generalizing p with
  | nil => exact h.2
  | cons x xs ih => exact ih h.2.2

theorem lastNode_mem (p : Ptr) (xs : List Nat) :
    lastNode p xs = p ∨ lastNode p xs ∈ xs.map Ptr.entry := by
  induction xs generalizing p with
  | nil => exact Or.inl rfl
  | cons x xs ih =>
    rcases ih (.entry x) with h | h
    · right; simp [lastNode, h]
    · right; simp only [lastNode, List.map_cons, List.mem_cons]; exact Or.inr h

theorem firstNode_mem (xs : List Nat) (q : Ptr) :
    firstNode xs q = q ∨ firstNode xs q ∈ xs.map Ptr.entry := by
  cases xs with
  | nil => exact Or.inl rfl
  | cons x xs => right; simp [firstNode]

theorem seg_congr {v w : View} {p q : Ptr} {xs : List Nat}
    (hn : ∀ n, n = p ∨ n ∈ xs.map Ptr.entry → w.next n = v.next n)
    (hp : ∀ n, n ∈ xs.map Ptr.entry ∨ n = q → w.prev n = v.prev n)
    (h : Seg v p xs q) : Seg w p xs q := by
  induction xs generalizing p with
  | nil => exact ⟨by rw [hn p (Or.inl rfl)]; exact h.1, by rw [hp q (Or.inr rfl)]; exact h.2⟩
  | cons x xs ih =>
    refine ⟨by rw [hn p (Or.inl rfl)]; exact h.1, ?_, ?_⟩
    · rw [hp (.entry x) (Or.inl (by simp))]; exact h.2.1
    · refine ih (fun n hn1 => hn n ?_) (fun n hn1 => hp n ?_) h.2.2
      · rcases hn1 with h1 | h1
        · right; simp [h1]
        · right; simp only [List.map_cons, List.mem_cons]; exact Or.inr h1
      · rcases hn1 with h1 | h1
        · left; simp only [List.map_cons, List.mem_cons]; exact Or.inr h1
        · exact Or.inr h1

theorem seg_insert (v : View) (x : Nat) (post : List Nat) (head : Ptr)
    (hh : ∀ i, head ≠ .entry i) :
    ∀ (pre : List Nat) (p : Ptr), Seg v p (pre ++ post) head →
      (p :: (pre ++ post).map Ptr.entry).Nodup → x ∉ pre ++ post → p ≠ .entry x →
      Seg { v with
            next := Function.update (Function.update v.next (lastNode p pre) (.entry x))
              (.entry x) (firstNode post head)
            prev := Function.update (Function.update v.prev (.entry x) (lastNode p pre))
              (firstNode post head) (.entry x) }
        p (pre ++ x :: post) head := by
  intro pre
  induction pre with
  | nil =>
    intro p h hnd hx hpx
    simp only [List.nil_append, lastNode] at *
    have hxh : Ptr.entry x ≠ firstNode post head := by
      cases post with
      | nil => exact fun h => hh x h.symm
      | cons y ys => simp only [firstNode, ne_eq, Ptr.entry.injEq]; intro e; exact hx (by simp [e])
    refine ⟨by simp [Function.update_apply, hpx], ?_, ?_⟩
    · simp [Function.update_apply, hxh]
    · cases post with
      | nil => simp [Seg, firstNode, Function.update_apply]
      | cons y ys =>
        have hxy : x ≠ y := fun e => hx (by simp [e])
        have hyx : y ≠ x := fun e => hxy e.symm
        simp only [List.map_cons, List.nodup_cons, List.mem_cons, not_or] at hnd
        refine ⟨by simp [firstNode, Function.update_apply], by simp [firstNode, Function.update_apply], ?_⟩
        refine seg_congr ?_ ?_ h.2.2
        · intro n hn
          have h1 : n ≠ .entry x := by
            rcases hn with rfl | hn
            · simp [hyx]
            · intro e; subst e
              simp only [List.mem_map, Ptr.entry.injEq, exists_eq_right] at hn
              exact hx (List.mem_cons_of_mem _ hn)
          have h2 : n ≠ p := by
            rcases hn with rfl | hn
            · exact fun e => hnd.1.1 e.symm
            · intro e; subst e; exact hnd.1.2 hn
          simp [Function.update_apply, h1, h2]
        · intro n hn
          have h1 : n ≠ .entry x := by
            rcases hn with hn | rfl
            · intro e; subst e
              simp only [List.mem_map, Ptr.entry.injEq, exists_eq_right] at hn
              exact hx (List.mem_cons_of_mem _ hn)
            · exact hh x
          have h2 : n ≠ .entry y := by
            rcases hn with hn | rfl
            · intro e; subst e; exact hnd.2.1 hn
            · exact hh y
          simp [firstNode, Function.update_apply, h1, h2]
  | cons z zs ih =>
    intro p h hnd hx hpx
    simp only [List.cons_append, List.map_cons, List.nodup_cons, List.mem_cons, not_or] at hnd hx
    have hzx : z ≠ x := fun e => hx.1 e.symm
    have hl := lastNode_mem (.entry z) zs
    have hf := firstNode_mem post head
    have hpl : p ≠ lastNode (.entry z) zs := by
      rcases hl with e | e
      · rw [e]; exact hnd.1.1
      · intro e2; rw [← e2] at e; exact hnd.1.2 (by simp only [List.map_append, List.mem_append]; exact Or.inl e)
    have hzf : Ptr.entry z ≠ firstNode post head := by
      rcases hf with e | e
      · rw [e]; exact fun e2 => hh z e2.symm
      · intro e2; rw [← e2] at e; exact hnd.2.1 (by simp only [List.map_append, List.mem_append]; exact Or.inr e)
    refine ⟨?_, ?_, ?_⟩
    · simp only [lastNode, Function.update_apply, hpx, hpl, if_false]; exact h.1
    · simp only [Function.update_apply, hzf, Ptr.entry.injEq, hzx, if_false]; exact h.2.1
    · exact ih (.entry z) h.2.2 (by simp only [List.nodup_cons]; exact hnd.2) hx.2
        (by simp [hzx])

theorem seg_remove (v : View) (x : Nat) (post : List Nat) (head : Ptr)
    (hh : ∀ i, head ≠ .entry i) :
    ∀ (pre : List Nat) (p : Ptr), Seg v p (pre ++ x :: post) head →
      (p :: (pre ++ x :: post).map Ptr.entry).Nodup →
      Seg { v with
            next := Function.update (Function.update v.next (lastNode p pre)
              (firstNode post head)) (.entry x) (.entry x)
            prev := Function.update (Function.update v.prev (firstNode post head)
              (lastNode p pre)) (.entry x) (.entry x) }
        p (pre ++ post) head := by
  intro pre
  induction pre with
  | nil =>
    intro p h hnd
    simp only [List.nil_append, lastNode, List.map_cons, List.nodup_cons, List.mem_cons,
      not_or] at *
    have hpx : p ≠ .entry x := hnd.1.1
    cases post with
    | nil =>
      refine ⟨by simp [firstNode, Function.update_apply, hpx], ?_⟩
      simp [firstNode, Function.update_apply, hh x]
    | cons y ys =>
      simp only [List.map_cons, List.nodup_cons, List.mem_cons, not_or, Ptr.entry.injEq] at hnd
      have hyx : y ≠ x := fun e => hnd.2.1.1 e.symm
      refine ⟨by simp [firstNode, Function.update_apply, hpx], ?_, ?_⟩
      · simp [firstNode, Function.update_apply, hyx]
      · refine seg_congr ?_ ?_ h.2.2.2.2
        · intro n hn
          have h1 : n ≠ .entry x := by
            rcases hn with rfl | hn
            · simp [hyx]
            · intro e; subst e; exact hnd.2.1.2 hn
          have h2 : n ≠ p := by
            rcases hn with rfl | hn
            · exact fun e => hnd.1.2.1 e.symm
            · intro e; subst e; exact hnd.1.2.2 hn
          simp [Function.update_apply, h1, h2]
        · intro n hn
          have h1 : n ≠ .entry x := by
            rcases hn with hn | rfl
            · intro e; subst e; exact hnd.2.1.2 hn
            · exact hh x
          have h2 : n ≠ .entry y := by
            rcases hn with hn | rfl
            · intro e; subst e; exact hnd.2.2.1 hn
            · exact hh y
          simp [firstNode, Function.update_apply, h1, h2]
  | cons z zs ih =>
    intro p h hnd
    simp only [List.cons_append, List.map_cons, List.nodup_cons, List.mem_cons, not_or] at hnd
    have hzx : z ≠ x := by
      intro e; subst e; exact hnd.2.1 (by simp)
    have hpx : p ≠ .entry x := by
      intro e; subst e; exact hnd.1.2 (by simp)
    have hl := lastNode_mem (.entry z) zs
    have hf := firstNode_mem post head
    have hpl : p ≠ lastNode (.entry z) zs := by
      rcases hl with e | e
      · rw [e]; exact hnd.1.1
      · intro e2; rw [← e2] at e
        exact hnd.1.2 (by simp only [List.map_append, List.mem_append]; exact Or.inl e)
    have hzf : Ptr.entry z ≠ firstNode post head := by
      rcases hf with e | e
      · rw [e]; exact fun e2 => hh z e2.symm
      · intro e2; rw [← e2] at e
        exact hnd.2.1 (by simp only [List.map_append, List.map_cons, List.mem_append,
          List.mem_cons]; exact Or.inr (Or.inr e))
    refine ⟨?_, ?_, ?_⟩
    · simp only [lastNode, Function.update_apply, hpx, hpl, if_false]; exact h.1
    · simp only [Function.update_apply, hzf, Ptr.entry.injEq, hzx, if_false]; exact h.2.1
    · exact ih (.entry z) h.2.2 (by simp only [List.nodup_cons]; exact hnd.2)

theorem IsHead.ne_entry {h : Ptr} (hh : IsHead h) (i : Nat) : h ≠ .entry i := by
  rcases hh with rfl | rfl <;> simp

theorem IsHead.ne_null {h : Ptr} (hh : IsHead h) : h ≠ .null := by
  rcases hh with rfl | rfl <;> simp

theorem seg_prev_first (v : View) {p q : Ptr} (pre post : List Nat)
    (h : Seg v p (pre ++ post) q) : v.prev (firstNode post q) = lastNode p pre := by
  cases post with
  | nil => simpa [firstNode] using seg_prev v h
  | cons y ys => exact seg_prev v ((seg_append v pre y ys p q).1 h).1

theorem seg_mid (v : View) {p q : Ptr} (pre : List Nat) (x : Nat) (post : List Nat)
    (h : Seg v p (pre ++ x :: post) q) :
    v.next (.entry x) = firstNode post q ∧ v.prev (.entry x) = lastNode p pre := by
  have h1 := (seg_append v pre x post p q).1 h
  exact ⟨seg_next v h1.2, seg_prev v h1.1⟩

theorem lastNode_ne_null {p : Ptr} (hp : p ≠ .null) (xs : List Nat) : lastNode p xs ≠ .null := by
  rcases lastNode_mem p xs with h | h
  · rw [h]; exact hp
  · intro e; rw [e] at h; simp at h

theorem firstNode_ne_null {q : Ptr} (hq : q ≠ .null) (xs : List Nat) : firstNode xs q ≠ .null := by
  rcases firstNode_mem xs q with h | h
  · rw [h]; exact hq
  · intro e; rw [e] at h; simp at h

theorem seg_links {v w : View} (hn : w.next = v.next) (hp : w.prev = v.prev) {p q : Ptr}
    {xs : List Nat} (h : Seg v p xs q) : Seg w p xs q :=
  seg_congr (fun n _ => by rw [hn]) (fun n _ => by rw [hp]) h

theorem mem_map_entry {n : Ptr} {xs : List Nat} (h : n ∈ xs.map Ptr.entry) :
    ∃ i, i ∈ xs ∧ n = .entry i := by
  simp only [List.mem_map] at h
  obtain ⟨i, hi, e⟩ := h
  exact ⟨i, hi, e.symm⟩

/-- Frame: a list whose nodes are not written keeps its shape. -/
theorem seg_frame {v w : View} {h2 : Ptr} {ys : List Nat}
    (hn : ∀ n, n = h2 ∨ n ∈ ys.map Ptr.entry → w.next n = v.next n)
    (hp : ∀ n, n = h2 ∨ n ∈ ys.map Ptr.entry → w.prev n = v.prev n)
    (h : Seg v h2 ys h2) : Seg w h2 ys h2 :=
  seg_congr hn (fun n hn1 => hp n hn1.symm) h

theorem insert_entry_seg (l : mem_region_list) {h1 h2 : Ptr} (hh1 : IsHead h1) (hh2 : IsHead h2)
    (h12 : h1 ≠ h2) (pre post ys : List Nat) (x : Nat)
    (s1 : Seg (view l) h1 (pre ++ post) h1) (s2 : Seg (view l) h2 ys h2)
    (hnd : ((pre ++ post) ++ ys).Nodup) (hx : x ∉ (pre ++ post) ++ ys) :
    ∃ l1, insert_entry l (firstNode post h1) (.entry x) = some l1 ∧
      (view l1).addr = (view l).addr ∧ (view l1).len = (view l).len ∧
      (view l1).count = (view l).count ∧
      Seg (view l1) h1 (pre ++ x :: post) h1 ∧ Seg (view l1) h2 ys h2 := by
  have hpf := seg_prev_first (view l) pre post s1
  have hpn : (view l).prev (firstNode post h1) ≠ .null := by
    rw [hpf]; exact lastNode_ne_null hh1.ne_null pre
  obtain ⟨l1, e1, v1⟩ := insert_entry_spec l (firstNode_ne_null hh1.ne_null post)
    (x := .entry x) (by simp) hpn
  rw [hpf] at v1
  simp only [List.mem_append, not_or] at hx
  rw [List.nodup_append] at hnd
  refine ⟨l1, e1, by rw [v1], by rw [v1], by rw [v1], ?_, ?_⟩
  · rw [v1]
    refine seg_insert (view l) x post h1 hh1.ne_entry pre h1 s1 ?_ (by simp [hx.1]) (hh1.ne_entry x)
    simp only [List.nodup_cons, List.mem_map, not_exists, not_and]
    exact ⟨fun i _ e => hh1.ne_entry i e.symm,
      (List.nodup_map_iff (fun a b e => by simpa using e)).2 hnd.1⟩
  · rw [v1]
    refine seg_frame ?_ ?_ s2
    · intro n hn
      have a1 : n ≠ .entry x := by
        rcases hn with rfl | hn
        · exact hh2.ne_entry x
        · obtain ⟨i, hi, rfl⟩ := mem_map_entry hn
          intro e; simp only [Ptr.entry.injEq] at e; subst e; exact hx.2 hi
      have a2 : n ≠ lastNode h1 pre := by
        rcases lastNode_mem h1 pre with e | e
        · rw [e]
          rcases hn with rfl | hn
          · exact fun e2 => h12 e2.symm
          · obtain ⟨i, _, rfl⟩ := mem_map_entry hn
            exact fun e2 => hh1.ne_entry i e2.symm
        · obtain ⟨j, hj, ej⟩ := mem_map_entry e
          rw [ej]
          rcases hn with rfl | hn
          · exact hh2.ne_entry j
          · obtain ⟨i, hi, rfl⟩ := mem_map_entry hn
            intro e2; simp only [Ptr.entry.injEq] at e2; subst e2
            exact hnd.2.2 (List.mem_append_left _ hj) hi
      simp [Function.update_apply, a1, a2]
    · intro n hn
      have a1 : n ≠ .entry x := by
        rcases hn with rfl | hn
        · exact hh2.ne_entry x
        · obtain ⟨i, hi, rfl⟩ := mem_map_entry hn
          intro e; simp only [Ptr.entry.injEq] at e; subst e; exact hx.2 hi
      have a2 : n ≠ firstNode post h1 := by
        rcases firstNode_mem post h1 with e | e
        · rw [e]
          rcases hn with rfl | hn
          · exact fun e2 => h12 e2.symm
          · obtain ⟨i, _, rfl⟩ := mem_map_entry hn
            exact fun e2 => hh1.ne_entry i e2.symm
        · obtain ⟨j, hj, ej⟩ := mem_map_entry e
          rw [ej]
          rcases hn with rfl | hn
          · exact hh2.ne_entry j
          · obtain ⟨i, hi, rfl⟩ := mem_map_entry hn
            intro e2; simp only [Ptr.entry.injEq] at e2; subst e2
            exact hnd.2.2 (List.mem_append_right _ hj) hi
      simp [Function.update_apply, a1, a2]

theorem remove_links_seg (v w : View) {h1 h2 : Ptr} (hh1 : IsHead h1) (hh2 : IsHead h2)
    (h12 : h1 ≠ h2) (pre post ys : List Nat) (x : Nat)
    (s1 : Seg v h1 (pre ++ x :: post) h1) (s2 : Seg v h2 ys h2)
    (hnd : ((pre ++ x :: post) ++ ys).Nodup)
    (hn : w.next = Function.update (Function.update v.next (v.prev (.entry x))
      (v.next (.entry x))) (.entry x) (.entry x))
    (hp : w.prev = Function.update (Function.update v.prev (v.next (.entry x))
      (v.prev (.entry x))) (.entry x) (.entry x)) :
    Seg w h1 (pre ++ post) h1 ∧ Seg w h2 ys h2 := by
  obtain ⟨m1, m2⟩ := seg_mid v pre x post s1
  rw [m1, m2] at hn hp
  rw [List.nodup_append] at hnd
  have hnd1 : (h1 :: (pre ++ x :: post).map Ptr.entry).Nodup := by
    simp only [List.nodup_cons, List.mem_map, not_exists, not_and]
    exact ⟨fun i _ e => hh1.ne_entry i e.symm,
      (List.nodup_map_iff (fun a b e => by simpa using e)).2 hnd.1⟩
  constructor
  · have := seg_remove v x post h1 hh1.ne_entry pre h1 s1 hnd1
    exact seg_congr (fun n _ => by rw [hn]) (fun n _ => by rw [hp]) this
  · refine seg_frame ?_ ?_ s2
    · intro n hn1
      have a1 : n ≠ .entry x := by
        rcases hn1 with rfl | hn1
        · exact hh2.ne_entry x
        · obtain ⟨i, hi, rfl⟩ := mem_map_entry hn1
          intro e; simp only [Ptr.entry.injEq] at e; subst e
          exact hnd.2.2 (by simp) hi
      have a2 : n ≠ lastNode h1 pre := by
        rcases lastNode_mem h1 pre with e | e
        · rw [e]
          rcases hn1 with rfl | hn1
          · exact fun e2 => h12 e2.symm
          · obtain ⟨i, _, rfl⟩ := mem_map_entry hn1
            exact fun e2 => hh1.ne_entry i e2.symm
        · obtain ⟨j, hj, ej⟩ := mem_map_entry e
          rw [ej]
          rcases hn1 with rfl | hn1
          · exact hh2.ne_entry j
          · obtain ⟨i, hi, rfl⟩ := mem_map_entry hn1
            intro e2; simp only [Ptr.entry.injEq] at e2; subst e2
            exact hnd.2.2 (List.mem_append_left _ hj) hi
      rw [hn]; simp [Function.update_apply, a1, a2]
    · intro n hn1
      have a1 : n ≠ .entry x := by
        rcases hn1 with rfl | hn1
        · exact hh2.ne_entry x
        · obtain ⟨i, hi, rfl⟩ := mem_map_entry hn1
          intro e; simp only [Ptr.entry.injEq] at e; subst e
          exact hnd.2.2 (by simp) hi
      have a2 : n ≠ firstNode post h1 := by
        rcases firstNode_mem post h1 with e | e
        · rw [e]
          rcases hn1 with rfl | hn1
          · exact fun e2 => h12 e2.symm
          · obtain ⟨i, _, rfl⟩ := mem_map_entry hn1
            exact fun e2 => hh1.ne_entry i e2.symm
        · obtain ⟨j, hj, ej⟩ := mem_map_entry e
          rw [ej]
          rcases hn1 with rfl | hn1
          · exact hh2.ne_entry j
          · obtain ⟨i, hi, rfl⟩ := mem_map_entry hn1
            intro e2; simp only [Ptr.entry.injEq] at e2; subst e2
            exact hnd.2.2 (by simp [hj]) hi
      rw [hp]; simp [Function.update_apply, a1, a2]

theorem remove_entry_seg (l : mem_region_list) {h1 h2 : Ptr} (hh1 : IsHead h1) (hh2 : IsHead h2)
    (h12 : h1 ≠ h2) (pre post ys : List Nat) (x : Nat)
    (s1 : Seg (view l) h1 (pre ++ x :: post) h1) (s2 : Seg (view l) h2 ys h2)
    (hnd : ((pre ++ x :: post) ++ ys).Nodup) :
    ∃ l1, remove_entry l (.entry x) = some l1 ∧
      (view l1).addr = (view l).addr ∧ (view l1).len = (view l).len ∧
      (view l1).count = (view l).count ∧
      Seg (view l1) h1 (pre ++ post) h1 ∧ Seg (view l1) h2 ys h2 := by
  obtain ⟨m1, m2⟩ := seg_mid (view l) pre x post s1
  obtain ⟨l1, e1, v1⟩ := remove_entry_spec l (x := .entry x) (by simp)
    (by rw [m1]; exact firstNode_ne_null hh1.ne_null post)
    (by rw [m2]; exact lastNode_ne_null hh1.ne_null pre)
  refine ⟨l1, e1, by rw [v1], by rw [v1], by rw [v1], ?_⟩
  exact remove_links_seg (view l) (view l1) hh1 hh2 h12 pre post ys x s1 s2 hnd
    (by rw [v1]) (by rw [v1])

theorem release_entry_seg (l : mem_region_list) {h1 h2 : Ptr} (hh1 : IsHead h1) (hh2 : IsHead h2)
    (h12 : h1 ≠ h2) (pre post ys : List Nat) (x : Nat)
    (s1 : Seg (view l) h1 (pre ++ x :: post) h1) (s2 : Seg (view l) h2 ys h2)
    (hnd : ((pre ++ x :: post) ++ ys).Nodup) :
    ∃ l1, release_entry l (.entry x) = some l1 ∧
      (view l1).addr = Function.update (view l).addr (.entry x) 0 ∧
      (view l1).len = Function.update (view l).len (.entry x) 0 ∧
      (view l1).count = (view l).count ∧
      Seg (view l1) h1 (pre ++ post) h1 ∧ Seg (view l1) h2 ys h2 := by
  obtain ⟨m1, m2⟩ := seg_mid (view l) pre x post s1
  obtain ⟨l1, e1, v1⟩ := release_entry_spec l (x := .entry x) (by simp)
    (by rw [m1]; exact firstNode_ne_null hh1.ne_null post)
    (by rw [m2]; exact lastNode_ne_null hh1.ne_null pre)
  refine ⟨l1, e1, by rw [v1], by rw [v1], by rw [v1], ?_⟩
  exact remove_links_seg (view l) (view l1) hh1 hh2 h12 pre post ys x s1 s2 hnd
    (by rw [v1]) (by rw [v1])

theorem load_next (l : mem_region_list) {p : Ptr} (hp : p ≠ .null) :
    ∃ e, load l p = some e ∧ e.next = (view l).next p ∧ e.prev = (view l).prev p ∧
      e.address = (view l).addr p ∧ e.length = (view l).len p :=
  ⟨_, load_view l hp, rfl, rfl, rfl, rfl⟩

theorem find_blank_region_loop_spec (l : mem_region_list) {head : Ptr} (hh : IsHead head)
    (n : Nat) : ∀ (xs : List Nat) (p : Ptr) (fuel : Nat), Seg (view l) p xs head →
      xs.length < fuel →
      ∃ pre post, xs = pre ++ post ∧ (∀ i ∈ pre, (view l).len (.entry i) < n) ∧
        (∀ f ∈ post.head?, n ≤ (view l).len (.entry f)) ∧
        find_blank_region_loop l head n fuel ((view l).next p) = some (foundNode .null post) := by
  intro xs
  induction xs with
  | nil =>
    intro p fuel h hf
    obtain ⟨k, rfl⟩ : ∃ k, fuel = k + 1 := ⟨fuel - 1, by simp at hf; omega⟩
    exact ⟨[], [], rfl, by simp, by simp, by simp [find_blank_region_loop, h.1, foundNode]⟩
  | cons x xs ih =>
    intro p fuel h hf
    obtain ⟨k, rfl⟩ : ∃ k, fuel = k + 1 := ⟨fuel - 1, by simp at hf; omega⟩
    simp only [List.length_cons, Nat.add_lt_add_iff_right] at hf
    by_cases hx : n ≤ (view l).len (.entry x)
    · refine ⟨[], x :: xs, rfl, by simp, by simpa using hx, ?_⟩
      have : (l.entries x).length = (view l).len (.entry x) := rfl
      simp [find_blank_region_loop, h.1, (hh.ne_entry x).symm, load, foundNode, this, hx]
    · obtain ⟨pre, post, e, h1, h2, h3⟩ := ih (.entry x) k h.2.2 hf
      refine ⟨x :: pre, post, by simp [e], ?_, h2, ?_⟩
      · intro i hi
        rcases List.mem_cons.1 hi with rfl | hi
        · omega
        · exact h1 i hi
      · have e1 : (l.entries x).length = (view l).len (.entry x) := rfl
        have e2 : (l.entries x).next = (view l).next (.entry x) := rfl
        simp only [find_blank_region_loop, h.1, (hh.ne_entry x).symm, load, if_false,
          Option.some_bind, e1, e2, ge_iff_le, hx]
        exact h3

theorem find_region_loop_spec (l : mem_region_list) {head : Ptr} (hh : IsHead head)
    (a : Nat) : ∀ (xs : List Nat) (p : Ptr) (fuel : Nat), Seg (view l) p xs head →
      xs.length < fuel →
      ∃ pre post, xs = pre ++ post ∧ (∀ i ∈ pre, (view l).addr (.entry i) ≠ a) ∧
        (∀ f ∈ post.head?, (view l).addr (.entry f) = a) ∧
        find_region_loop l head a fuel ((view l).next p) = some (foundNode .null post) := by
  intro xs
  induction xs with
  | nil =>
    intro p fuel h hf
    obtain ⟨k, rfl⟩ : ∃ k, fuel = k + 1 := ⟨fuel - 1, by simp at hf; omega⟩
    exact ⟨[], [], rfl, by simp, by simp, by simp [find_region_loop, h.1, foundNode]⟩
  | cons x xs ih =>
    intro p fuel h hf
    obtain ⟨k, rfl⟩ : ∃ k, fuel = k + 1 := ⟨fuel - 1, by simp at hf; omega⟩
    simp only [List.length_cons, Nat.add_lt_add_iff_right] at hf
    by_cases hx : (view l).addr (.entry x) = a
    · refine ⟨[], x :: xs, rfl, by simp, by simpa using hx, ?_⟩
      have : (l.entries x).address = (view l).addr (.entry x) := rfl
      simp [find_region_loop, h.1, (hh.ne_entry x).symm, load, foundNode, this, hx]
    · obtain ⟨pre, post, e, h1, h2, h3⟩ := ih (.entry x) k h.2.2 hf
      refine ⟨x :: pre, post, by simp [e], ?_, h2, ?_⟩
      · intro i hi
        rcases List.mem_cons.1 hi with rfl | hi
        · exact hx
        · exact h1 i hi
      · have e1 : (l.entries x).address = (view l).addr (.entry x) := rfl
        have e2 : (l.entries x).next = (view l).next (.entry x) := rfl
        simp only [find_region_loop, h.1, (hh.ne_entry x).symm, load, if_false,
          Option.some_bind, e1, e2, hx]
        exact h3

theorem find_insert_entry_loop_spec (l : mem_region_list) {head : Ptr} (hh : IsHead head)
    (a : Nat) : ∀ (xs : List Nat) (p : Ptr) (fuel : Nat), Seg (view l) p xs head →
      xs.length < fuel →
      ∃ pre post, xs = pre ++ post ∧ (∀ i ∈ pre, (view l).addr (.entry i) ≤ a) ∧
        (∀ f ∈ post.head?, a < (view l).addr (.entry f)) ∧
        find_insert_entry_loop l head a fuel ((view l).next p) = some (firstNode post head) := by
  intro xs
  induction xs with
  | nil =>
    intro p fuel h hf
    obtain ⟨k, rfl⟩ : ∃ k, fuel = k + 1 := ⟨fuel - 1, by simp at hf; omega⟩
    exact ⟨[], [], rfl, by simp, by simp, by simp [find_insert_entry_loop, h.1, firstNode]⟩
  | cons x xs ih =>
    intro p fuel h hf
    obtain ⟨k, rfl⟩ : ∃ k, fuel = k + 1 := ⟨fuel - 1, by simp at hf; omega⟩
    simp only [List.length_cons, Nat.add_lt_add_iff_right] at hf
    by_cases hx : a < (view l).addr (.entry x)
    · refine ⟨[], x :: xs, rfl, by simp, by simpa using hx, ?_⟩
      have : (l.entries x).address = (view l).addr (.entry x) := rfl
      simp [find_insert_entry_loop, h.1, (hh.ne_entry x).symm, load, firstNode, this, hx]
    · obtain ⟨pre, post, e, h1, h2, h3⟩ := ih (.entry x) k h.2.2 hf
      refine ⟨x :: pre, post, by simp [e], ?_, h2, ?_⟩
      · intro i hi
        rcases List.mem_cons.1 hi with rfl | hi
        · omega
        · exact h1 i hi
      · have e1 : (l.entries x).address = (view l).addr (.entry x) := rfl
        have e2 : (l.entries x).next = (view l).next (.entry x) := rfl
        simp only [find_insert_entry_loop, h.1, (hh.ne_entry x).symm, load, if_false,
          Option.some_bind, e1, e2, hx]
        exact h3

theorem walk_loop_spec (l : mem_region_list) {head : Ptr} (hh : IsHead head) :
    ∀ (xs : List Nat) (p : Ptr) (fuel : Nat), Seg (view l) p xs head → xs.length < fuel →
      walk_loop l head fuel ((view l).next p) = some (xs.map Ptr.entry) := by
  intro xs
  induction xs with
  | nil =>
    intro p fuel h hf
    obtain ⟨k, rfl⟩ : ∃ k, fuel = k + 1 := ⟨fuel - 1, by simp at hf; omega⟩
    simp [walk_loop, h.1]
  | cons x xs ih =>
    intro p fuel h hf
    obtain ⟨k, rfl⟩ : ∃ k, fuel = k + 1 := ⟨fuel - 1, by simp at hf; omega⟩
    simp only [List.length_cons, Nat.add_lt_add_iff_right] at hf
    have e2 : (l.entries x).next = (view l).next (.entry x) := rfl
    simp [walk_loop, h.1, (hh.ne_entry x).symm, load, e2, ih (.entry x) k h.2.2 hf]

theorem head_next (l : mem_region_list) {head : Ptr} (hh : IsHead head) :
    ∃ h, load l head = some h ∧ h.next = (view l).next head := by
  obtain ⟨e, h1, h2, _⟩ := load_next l hh.ne_null
  exact ⟨e, h1, h2⟩

theorem walk_spec (l : mem_region_list) {head : Ptr} (hh : IsHead head) (xs : List Nat)
    (fuel : Nat) (h : Seg (view l) head xs head) (hf : xs.length < fuel) :
    walk fuel l head = some (xs.map Ptr.entry) := by
  obtain ⟨e, h1, h2⟩ := head_next l hh
  simp [walk, h1, h2, walk_loop_spec l hh xs head fuel h hf]

theorem regions_spec (l : mem_region_list) {head : Ptr} (hh : IsHead head) (xs : List Nat)
    (fuel : Nat) (h : Seg (view l) head xs head) (hf : xs.length < fuel) :
    regions fuel l head =
      some (xs.map fun i => ((view l).addr (.entry i), (view l).len (.entry i))) := by
  simp [regions, walk_spec l hh xs fuel h hf, region_at, load, view, addrOf, lenOf]

theorem absorb_length (aw cur : Nat) : ∀ (ys : List Nat) (d : Data),
    (absorb aw cur d ys).2.length ≤ ys.length := by
  intro ys
  induction ys with
  | nil => intro d; simp [absorb]
  | cons y ys ih =>
    intro d
    simp only [absorb]
    split
    · exact Nat.le_succ_of_le (ih _)
    · simp

theorem coalesceFrom_absorb (aw cur : Nat) : ∀ (ys : List Nat) (d : Data),
    coalesceFrom aw cur d ys =
      match (absorb aw cur d ys).2 with
      | [] => ((absorb aw cur d ys).1, [cur])
      | y :: ys2 => ((coalesceFrom aw y (absorb aw cur d ys).1 ys2).1,
          cur :: (coalesceFrom aw y (absorb aw cur d ys).1 ys2).2) := by
  intro ys
  induction ys with
  | nil => intro d; simp [absorb, coalesceFrom]
  | cons y ys ih =>
    intro d
    by_cases h : (d.addr (.entry cur) + d.len (.entry cur)) % 2 ^ aw = d.addr (.entry y)
    · simp only [coalesceFrom, absorb, h, if_true]; exact ih _
    · simp [coalesceFrom, absorb, h]

theorem arrange_regions_inner_spec (aw : Nat) {h1 h2 : Ptr} (hh1 : IsHead h1) (hh2 : IsHead h2)
    (h12 : h1 ≠ h2) (pre us : List Nat) (cur : Nat) :
    ∀ (ys : List Nat) (l : mem_region_list) (fuel : Nat),
      Seg (view l) h1 (pre ++ cur :: ys) h1 → Seg (view l) h2 us h2 →
      ((pre ++ cur :: ys) ++ us).Nodup → ys.length < fuel →
      ∃ l1, arrange_regions_inner aw h1 (.entry cur) fuel l ((view l).next (.entry cur)) = some l1 ∧
        dataOf (view l1) = (absorb aw cur (dataOf (view l)) ys).1 ∧
        (view l1).count = (view l).count ∧
        Seg (view l1) h1 (pre ++ cur :: (absorb aw cur (dataOf (view l)) ys).2) h1 ∧
        Seg (view l1) h2 us h2 := by
  intro ys
  induction ys with
  | nil =>
    intro l fuel s1 s2 hnd hf
    obtain ⟨k, rfl⟩ : ∃ k, fuel = k + 1 := ⟨fuel - 1, by simp at hf; omega⟩
    have hn := (seg_mid (view l) pre cur [] s1).1
    simp only [firstNode] at hn
    exact ⟨l, by simp [arrange_regions_inner, hn], rfl, rfl, s1, s2⟩
  | cons y ys ih =>
    intro l fuel s1 s2 hnd hf
    obtain ⟨k, rfl⟩ : ∃ k, fuel = k + 1 := ⟨fuel - 1, by simp at hf; omega⟩
    simp only [List.length_cons, Nat.add_lt_add_iff_right] at hf
    have hn := (seg_mid (view l) pre cur (y :: ys) s1).1
    simp only [firstNode] at hn
    have hy : Ptr.entry y ≠ h1 := (hh1.ne_entry y).symm
    by_cases hc : ((view l).addr (.entry cur) + (view l).len (.entry cur)) % 2 ^ aw
        = (view l).addr (.entry y)
    · obtain ⟨l1, e1, v1⟩ := set_length_spec l (p := .entry cur)
        (u32 ((view l).len (.entry cur) + (view l).len (.entry y))) (by simp)
      have s1' : Seg (view l1) h1 ((pre ++ [cur]) ++ y :: ys) h1 := by
        rw [List.append_assoc]; exact seg_links (by rw [v1]) (by rw [v1]) s1
      have s2' : Seg (view l1) h2 us h2 := seg_links (by rw [v1]) (by rw [v1]) s2
      have hnd' : (((pre ++ [cur]) ++ y :: ys) ++ us).Nodup := by
        simpa [List.append_assoc] using hnd
      obtain ⟨l2, e2, a2, n2, c2, t1, t2⟩ :=
        release_entry_seg l1 hh1 hh2 h12 (pre ++ [cur]) ys us y s1' s2' hnd'
      have t1' : Seg (view l2) h1 (pre ++ cur :: ys) h1 := by
        simpa [List.append_assoc] using t1
      have hnd2 : ((pre ++ cur :: ys) ++ us).Nodup := by
        have : ((pre ++ cur :: ys) ++ us).Sublist ((pre ++ cur :: y :: ys) ++ us) := by
          refine List.Sublist.append (List.Sublist.append (List.Sublist.refl _) ?_)
            (List.Sublist.refl _)
          exact List.Sublist.cons₂ _ (List.sublist_cons_self _ _)
        exact hnd.sublist this
      obtain ⟨l3, e3, d3, c3, u1, u2⟩ := ih l2 k t1' t2 hnd2 hf
      have hd : dataOf (view l2) = mergeInto (dataOf (view l)) cur y := by
        simp only [dataOf, mergeInto, a2, n2, v1]
      have e2n : (l2.entries cur).next = (view l2).next (.entry cur) := rfl
      refine ⟨l3, ?_, ?_, by rw [c3, c2, v1], ?_, u2⟩
      · have ea : (l.entries cur).address = (view l).addr (.entry cur) := rfl
        have el : (l.entries cur).length = (view l).len (.entry cur) := rfl
        have eya : (l.entries y).address = (view l).addr (.entry y) := rfl
        have eyl : (l.entries y).length = (view l).len (.entry y) := rfl
        simp only [arrange_regions_inner, hn, hy, if_false, load, Option.some_bind, ea, el,
          eya, eyl, hc, if_true, e1, e2, e2n]
        exact e3
      · rw [d3, hd]; simp [absorb, dataOf, hc]
      · rw [hd] at u1; simpa [absorb, dataOf, hc] using u1
    · refine ⟨l, ?_, by simp [absorb, dataOf, hc], rfl, by simpa [absorb, dataOf, hc] using s1, s2⟩
      have ea : (l.entries cur).address = (view l).addr (.entry cur) := rfl
      have el : (l.entries cur).length = (view l).len (.entry cur) := rfl
      have eya : (l.entries y).address = (view l).addr (.entry y) := rfl
      simp [arrange_regions_inner, hn, hy, load, ea, el, eya, hc]

theorem arrange_regions_loop_spec (aw : Nat) {h1 h2 : Ptr} (hh1 : IsHead h1) (hh2 : IsHead h2)
    (h12 : h1 ≠ h2) (us : List Nat) :
    ∀ (n : Nat) (ys : List Nat), ys.length ≤ n → ∀ (pre : List Nat) (cur : Nat)
      (l : mem_region_list) (fuel : Nat),
      Seg (view l) h1 (pre ++ cur :: ys) h1 → Seg (view l) h2 us h2 →
      ((pre ++ cur :: ys) ++ us).Nodup → ys.length + 1 < fuel →
      ∃ l1, arrange_regions_loop aw h1 fuel l (.entry cur) = some l1 ∧
        dataOf (view l1) = (coalesceFrom aw cur (dataOf (view l)) ys).1 ∧
        (view l1).count = (view l).count ∧
        Seg (view l1) h1 (pre ++ (coalesceFrom aw cur (dataOf (view l)) ys).2) h1 ∧
        Seg (view l1) h2 us h2 := by
  intro n
  induction n with
  | zero =>
    intro ys hlen pre cur l fuel s1 s2 hnd hf
    obtain rfl : ys = [] := List.length_eq_zero.1 (Nat.le_zero.1 hlen)
    obtain ⟨k, rfl⟩ : ∃ k, fuel = k + 2 := ⟨fuel - 2, by simp at hf; omega⟩
    obtain ⟨l1, e1, d1, c1, t1, t2⟩ :=
      arrange_regions_inner_spec aw hh1 hh2 h12 pre us cur [] l (k + 1) s1 s2 hnd (by simp)
    have en : (l.entries cur).next = (view l).next (.entry cur) := rfl
    have e1n : (l1.entries cur).next = (view l1).next (.entry cur) := rfl
    have hn := (seg_mid (view l1) pre cur _ t1).1
    simp only [absorb, firstNode] at hn t1 d1
    refine ⟨l1, ?_, by simpa [coalesceFrom] using d1, c1, by simpa [coalesceFrom] using t1, t2⟩
    rw [arrange_regions_loop]
    simp only [(hh1.ne_entry cur).symm, if_false, load, Option.some_bind, en, e1, e1n, hn]
    simp [arrange_regions_loop]
  | succ n ih =>
    intro ys hlen pre cur l fuel s1 s2 hnd hf
    obtain ⟨k, rfl⟩ : ∃ k, fuel = k + 2 := ⟨fuel - 2, by omega⟩
    obtain ⟨l1, e1, d1, c1, t1, t2⟩ :=
      arrange_regions_inner_spec aw hh1 hh2 h12 pre us cur ys l (k + 1) s1 s2 hnd (by omega)
    have en : (l.entries cur).next = (view l).next (.entry cur) := rfl
    have e1n : (l1.entries cur).next = (view l1).next (.entry cur) := rfl
    have hn := (seg_mid (view l1) pre cur _ t1).1
    have hlen2 := absorb_length aw cur ys (dataOf (view l))
    have hrel := coalesceFrom_absorb aw cur ys (dataOf (view l))
    have hsub : (absorb aw cur (dataOf (view l)) ys).2.Sublist ys := by
      clear hrel hn t1 d1 hlen2 e1 hf hnd s1 hlen
      generalize dataOf (view l) = d
      induction ys generalizing d with
      | nil => simp [absorb]
      | cons y ys ih2 =>
        simp only [absorb]
        split
        · exact (ih2 _).trans (List.sublist_cons_self _ _)
        · exact List.Sublist.refl _
    have hnd1 : ((pre ++ cur :: (absorb aw cur (dataOf (view l)) ys).2) ++ us).Nodup :=
      hnd.sublist (List.Sublist.append (List.Sublist.append (List.Sublist.refl _)
        (List.Sublist.cons₂ _ hsub)) (List.Sublist.refl _))
    rw [arrange_regions_loop]
    simp only [(hh1.ne_entry cur).symm, if_false, load, Option.some_bind, en, e1, e1n, hn]
    cases hr : (absorb aw cur (dataOf (view l)) ys).2 with
    | nil =>
      rw [hr] at t1 hrel
      simp only at hrel
      refine ⟨l1, by simp [firstNode, arrange_regions_loop], by rw [hrel, d1], c1,
        by rw [hrel]; exact t1, t2⟩
    | cons y ys2 =>
      rw [hr] at t1 hrel hlen2 hnd1
      simp only at hrel
      simp only [List.length_cons] at hlen2
      have t1' : Seg (view l1) h1 ((pre ++ [cur]) ++ y :: ys2) h1 := by
        simpa [List.append_assoc] using t1
      have hnd1' : (((pre ++ [cur]) ++ y :: ys2) ++ us).Nodup := by
        simpa [List.append_assoc] using hnd1
      obtain ⟨l2, e2, d2, c2, u1, u2⟩ :=
        ih ys2 (by omega) (pre ++ [cur]) y l1 (k + 1) t1' t2 hnd1' (by omega)
      refine ⟨l2, by simpa [firstNode] using e2, ?_, by rw [c2, c1], ?_, u2⟩
      · rw [hrel, d2, d1]
      · rw [hrel]; rw [d1] at u1; simpa [List.append_assoc] using u1

theorem arrange_regions_spec (aw : Nat) {h1 h2 : Ptr} (hh1 : IsHead h1) (hh2 : IsHead h2)
    (h12 : h1 ≠ h2) (xs us : List Nat) (l : mem_region_list) (fuel : Nat)
    (s1 : Seg (view l) h1 xs h1) (s2 : Seg (view l) h2 us h2)
    (hnd : (xs ++ us).Nodup) (hf : xs.length < fuel) :
    ∃ l1, arrange_regions aw fuel l h1 = some l1 ∧
      dataOf (view l1) = (coalesce aw (dataOf (view l)) xs).1 ∧
      (view l1).count = (view l).count ∧
      Seg (view l1) h1 (coalesce aw (dataOf (view l)) xs).2 h1 ∧
      Seg (view l1) h2 us h2 := by
  obtain ⟨e, he, hen⟩ := head_next l hh1
  cases xs with
  | nil =>
    obtain ⟨k, rfl⟩ : ∃ k, fuel = k + 1 := ⟨fuel - 1, by simp at hf; omega⟩
    refine ⟨l, ?_, rfl, rfl, s1, s2⟩
    simp [arrange_regions, he, hen, s1.1, arrange_regions_loop]
  | cons x xs =>
    obtain ⟨l1, e1, d1, c1, t1, t2⟩ := arrange_regions_loop_spec aw hh1 hh2 h12 us xs.length xs
      (Nat.le_refl _) [] x l fuel s1 s2 hnd (by simpa using hf)
    refine ⟨l1, ?_, d1, c1, t1, t2⟩
    simp only [arrange_regions, he, Option.some_bind, hen, s1.1]
    exact e1

theorem get_free_entry_loop_spec (l : mem_region_list) : ∀ (n i : Nat),
    (get_free_entry_loop l n i = .null ∧
      ∀ j, i ≤ j → j < i + n → (view l).addr (.entry j) ≠ 0) ∨
    (∃ x, i ≤ x ∧ x < i + n ∧ (view l).addr (.entry x) = 0 ∧
      (∀ j, i ≤ j → j < x → (view l).addr (.entry j) ≠ 0) ∧
      get_free_entry_loop l n i = .entry x) := by
  intro n
  induction n with
  | zero => intro i; left; exact ⟨rfl, fun j h1 h2 => by omega⟩
  | succ n ih =>
    intro i
    have ea : (l.entries i).address = (view l).addr (.entry i) := rfl
    by_cases h0 : (view l).addr (.entry i) = 0
    · right
      exact ⟨i, le_refl _, by omega, h0, fun j h1 h2 => by omega,
        by simp [get_free_entry_loop, ea, h0]⟩
    · rcases ih (i + 1) with ⟨h1, h2⟩ | ⟨x, h1, h2, h3, h4, h5⟩
      · left
        refine ⟨by simp [get_free_entry_loop, ea, h0, h1], fun j hj1 hj2 => ?_⟩
        rcases Nat.eq_or_lt_of_le hj1 with rfl | hlt
        · exact h0
        · exact h2 j hlt (by omega)
      · right
        refine ⟨x, by omega, by omega, h3, fun j hj1 hj2 => ?_,
          by simp [get_free_entry_loop, ea, h0, h5]⟩
        rcases Nat.eq_or_lt_of_le hj1 with rfl | hlt
        · exact h0
        · exact h4 j hlt hj2

theorem get_free_entry_spec (l : mem_region_list) :
    (get_free_entry l = .null ∧
      ∀ j : Nat, (j : Int) < l.entry_count → (view l).addr (.entry j) ≠ 0) ∨
    (∃ x : Nat, (x : Int) < l.entry_count ∧ (view l).addr (.entry x) = 0 ∧
      (∀ j, j < x → (view l).addr (.entry j) ≠ 0) ∧ get_free_entry l = .entry x) := by
  rcases get_free_entry_loop_spec l l.entry_count.toNat 0 with ⟨h1, h2⟩ | ⟨x, _, h2, h3, h4, h5⟩
  · left
    exact ⟨h1, fun j hj => h2 j (Nat.zero_le _) (by omega)⟩
  · right
    exact ⟨x, by omega, h3, fun j hj => h4 j (Nat.zero_le _) hj, h5⟩

theorem find_blank_region_spec (l : mem_region_list) (n : Nat) (fl : List Nat) (fuel : Nat)
    (h : Seg (view l) .free fl .free) (hf : fl.length < fuel) :
    ∃ pre post, fl = pre ++ post ∧ (∀ i ∈ pre, (view l).len (.entry i) < n) ∧
      (∀ f ∈ post.head?, n ≤ (view l).len (.entry f)) ∧
      find_blank_region fuel l .free n = some (foundNode .null post) := by
  obtain ⟨pre, post, e, h1, h2, h3⟩ :=
    find_blank_region_loop_spec l (Or.inl rfl) n fl .free fuel h hf
  exact ⟨pre, post, e, h1, h2, by simpa [find_blank_region, load] using h3⟩

theorem find_region_spec (l : mem_region_list) (a : Nat) (ul : List Nat) (fuel : Nat)
    (h : Seg (view l) .used ul .used) (hf : ul.length < fuel) :
    ∃ pre post, ul = pre ++ post ∧ (∀ i ∈ pre, (view l).addr (.entry i) ≠ a) ∧
      (∀ f ∈ post.head?, (view l).addr (.entry f) = a) ∧
      find_region fuel l .used a = some (foundNode .null post) := by
  obtain ⟨pre, post, e, h1, h2, h3⟩ :=
    find_region_loop_spec l (Or.inr rfl) a ul .used fuel h hf
  exact ⟨pre, post, e, h1, h2, by simpa [find_region, load] using h3⟩

theorem find_insert_entry_spec (l : mem_region_list) {head : Ptr} (hh : IsHead head) (a : Nat)
    (xs : List Nat) (fuel : Nat) (h : Seg (view l) head xs head) (hf : xs.length < fuel) :
    ∃ pre post, xs = pre ++ post ∧ (∀ i ∈ pre, (view l).addr (.entry i) ≤ a) ∧
      (∀ f ∈ post.head?, a < (view l).addr (.entry f)) ∧
      find_insert_entry fuel l head a = some (firstNode post head) := by
  obtain ⟨pre, post, e, h1, h2, h3⟩ := find_insert_entry_loop_spec l hh a xs head fuel h hf
  obtain ⟨e0, he, hen⟩ := head_next l hh
  exact ⟨pre, post, e, h1, h2, by simpa [find_insert_entry, he, hen] using h3⟩

theorem load_entry (l : mem_region_list) (i : Nat) : load l (.entry i) = some (l.entries i) := rfl

theorem entries_address (l : mem_region_list) (i : Nat) :
    (l.entries i).address = (view l).addr (.entry i) := rfl

theorem entries_length (l : mem_region_list) (i : Nat) :
    (l.entries i).length = (view l).len (.entry i) := rfl

theorem free_length (l : mem_region_list) : l.free.length = (view l).len .free := rfl

theorem used_length (l : mem_region_list) : l.used.length = (view l).len .used := rfl

theorem rep_of_view {l l1 : mem_region_list} {fl ul : List Nat}
    (hn : (view l1).next = (view l).next) (hp : (view l1).prev = (view l).prev)
    (hc : (view l1).count = (view l).count) (rep : Rep (view l) fl ul) :
    Rep (view l1) fl ul :=
  ⟨seg_links hn hp rep.free, seg_links hn hp rep.used, rep.nodup, by rw [hc]; exact rep.bound⟩

theorem assign_spec (aw fuel : Nat) (l : mem_region_list) (len : Nat) {fl ul : List Nat}
    (rep : Rep (view l) fl ul) (hlen : 0 < len) (hf1 : fl.length < fuel)
    (hf2 : ul.length < fuel)
    (hx : ∀ x, get_free_entry l = .entry x → fl = [] ∨ (x ∉ ul ∧ (x ∉ fl ∨ fl = [x]))) :
    (get_free_entry l = .null ∧ mem_region_list_assign aw fuel l len = some (l, 0)) ∨
    (∃ x, get_free_entry l = .entry x ∧
      (∀ i ∈ fl, (view l).len (.entry i) < needs_length len) ∧
      mem_region_list_assign aw fuel l len = some (l, 0)) ∨
    (∃ x pre f post upre upost l1, get_free_entry l = .entry x ∧ fl = pre ++ f :: post ∧
      (∀ i ∈ pre, (view l).len (.entry i) < needs_length len) ∧
      needs_length len ≤ (view l).len (.entry f) ∧ ul = upre ++ upost ∧
      (∀ i ∈ upre, (assignData aw (dataOf (view l)) x f (needs_length len)).addr (.entry i)
        ≤ (assignData aw (dataOf (view l)) x f (needs_length len)).addr (.entry x)) ∧
      (∀ g ∈ upost.head?, (assignData aw (dataOf (view l)) x f (needs_length len)).addr (.entry x)
        < (assignData aw (dataOf (view l)) x f (needs_length len)).addr (.entry g)) ∧
      mem_region_list_assign aw fuel l len = some (l1,
        (assignData aw (dataOf (view l)) x f (needs_length len)).addr (.entry x)) ∧
      dataOf (view l1) = assignData aw (dataOf (view l)) x f (needs_length len) ∧
      (view l1).count = (view l).count ∧
      Rep (view l1)
        (if (carve aw (dataOf (view l)) x f (needs_length len)).len (.entry f) ≤ 0
          then pre ++ post else fl)
        (upre ++ x :: upost)) := by
  have hl0 : ¬ len ≤ 0 := by omega
  rcases get_free_entry_spec l with ⟨g1, _⟩ | ⟨x, hxc, hx0, hxm, g1⟩
  · left; exact ⟨g1, by simp [mem_region_list_assign, hl0, g1]⟩
  right
  obtain ⟨pre, post, e, p1, p2, p3⟩ := find_blank_region_spec l (needs_length len) fl fuel rep.free hf1
  cases post with
  | nil =>
    left
    refine ⟨x, g1, by simpa [e] using p1, ?_⟩
    simp [mem_region_list_assign, hl0, g1, p3, foundNode]
  | cons f post =>
    right
    subst e
    obtain ⟨hxu, hxf⟩ := (hx x g1).resolve_left (by simp)
    have p2' : needs_length len ≤ (view l).len (.entry f) := by simpa using p2
    generalize hn : needs_length len = n at p1 p2 p3 p2' ⊢
    -- the four field assignments
    obtain ⟨l1, e1, v1⟩ := set_address_spec l (p := .entry x) ((view l).addr (.entry f)) (by simp)
    obtain ⟨l2, e2, v2⟩ := set_length_spec l1 (p := .entry x) n (by simp)
    obtain ⟨l3, e3, v3⟩ := set_address_spec l2 (p := .entry f)
      (((view l2).addr (.entry f) + n) % 2 ^ aw) (by simp)
    obtain ⟨l4, e4, v4⟩ := set_length_spec l3 (p := .entry f)
      (sub32 ((view l3).len (.entry f)) n) (by simp)
    have d4 : dataOf (view l4) = carve aw (dataOf (view l)) x f n := by
      simp only [dataOf, carve, v4, v3, v2, v1]
    have r4 : Rep (view l4) (pre ++ f :: post) ul :=
      rep_of_view (by rw [v4, v3, v2, v1]) (by rw [v4, v3, v2, v1])
        (by rw [v4, v3, v2, v1]) rep
    -- the conditional release of the matched region
    have step5 : ∃ l5, (if (view l4).len (.entry f) ≤ 0 then release_entry l4 (.entry f)
          else some l4) = some l5 ∧
        dataOf (view l5) = dropEmpty (dataOf (view l4)) f ∧
        (view l5).count = (view l4).count ∧
        Rep (view l5) (if (view l4).len (.entry f) ≤ 0 then pre ++ post else pre ++ f :: post) ul := by
      by_cases hz : (view l4).len (.entry f) ≤ 0
      · obtain ⟨l5, e5, a5, n5, c5, t1, t2⟩ := release_entry_seg l4 (Or.inl rfl) (Or.inr rfl)
          (by simp) pre post ul f r4.free r4.used r4.nodup
        refine ⟨l5, by simp [hz, e5], ?_, c5, ?_⟩
        · simp [dataOf, dropEmpty, hz, a5, n5]
        · simp only [hz, if_true]
          refine ⟨t1, t2, ?_, ?_⟩
          · exact r4.nodup.sublist (List.Sublist.append (List.Sublist.append
              (List.Sublist.refl _) (List.sublist_cons_self _ _)) (List.Sublist.refl _))
          · intro i hi
            rw [c5]
            refine r4.bound i ?_
            simp only [List.mem_append, List.mem_cons] at hi ⊢
            tauto
      · exact ⟨l4, by simp [hz], by simp [dropEmpty, dataOf, hz], rfl, by simpa [hz] using r4⟩
    obtain ⟨l5, e5, d5, c5, r5⟩ := step5
    -- the cached lengths
    obtain ⟨l6, e6, v6⟩ := set_length_spec l5 (p := .free) (sub32 ((view l5).len .free) n) (by simp)
    obtain ⟨l7, e7, v7⟩ := set_length_spec l6 (p := .used) (u32 ((view l6).len .used + n)) (by simp)
    have d7 : dataOf (view l7) = assignData aw (dataOf (view l)) x f n := by
      rw [assignData, ← d4, ← d5]
      simp only [dataOf, account, v7, v6]
    have a7 : (view l7).addr = (assignData aw (dataOf (view l)) x f n).addr := by
      rw [← d7]; rfl
    have r7 : Rep (view l7)
        (if (view l4).len (.entry f) ≤ 0 then pre ++ post else pre ++ f :: post) ul :=
      rep_of_view (by rw [v7, v6]) (by rw [v7, v6]) (by rw [v7, v6]) r5
    have hl4 : (view l4).len (.entry f) = (carve aw (dataOf (view l)) x f n).len (.entry f) := by
      rw [← d4]; rfl
    -- insertion into the used list
    obtain ⟨upre, upost, eu, q1, q2, q3⟩ := find_insert_entry_spec l7 (Or.inr rfl)
      ((view l7).addr (.entry x)) ul fuel r7.used hf2
    have hxfl : x ∉ (if (view l4).len (.entry f) ≤ 0 then pre ++ post else pre ++ f :: post) := by
      rcases hxf with hxf | hxf
      · split
        · intro hm; apply hxf
          simp only [List.mem_append, List.mem_cons] at hm ⊢; tauto
        · exact hxf
      · have hpre : pre = [] := by
          cases pre with
          | nil => rfl
          | cons a as => cases as <;> simp at hxf
        subst hpre
        simp only [List.nil_append, List.cons.injEq] at hxf
        obtain ⟨rfl, rfl⟩ := hxf
        have hz : (view l4).len (.entry f) = 0 := by
          rw [hl4]; simp [carve, sub32]
        simp [hz]
    have hnd7 : ((upre ++ upost) ++
        (if (view l4).len (.entry f) ≤ 0 then pre ++ post else pre ++ f :: post)).Nodup := by
      rw [← eu]
      have := r7.nodup
      rw [List.nodup_append] at this ⊢
      exact ⟨this.2.1, this.1, fun a h1 h2 => this.2.2 h2 h1⟩
    obtain ⟨l8, e8, a8, n8, c8, t1, t2⟩ := insert_entry_seg l7 (Or.inr rfl) (Or.inl rfl)
      (by simp) upre upost _ x (eu ▸ r7.used) r7.free hnd7
      (by rw [← eu]; simp only [List.mem_append, not_or]; exact ⟨hxu, hxfl⟩)
    refine ⟨x, pre, f, post, upre, upost, l8, g1, rfl, p1, p2', eu, ?_, ?_, ?_, ?_, ?_, ?_⟩
    · intro i hi; rw [← a7]; exact q1 i hi
    · intro g hg; rw [← a7]; exact q2 g hg
    · rw [mem_region_list_assign]
      simp only [hl0, if_false, g1, reduceCtorEq, hn, p3, foundNode, Option.some_bind]
      rw [load_entry, Option.some_bind, entries_address, e1, Option.some_bind, e2,
        Option.some_bind, load_entry, Option.some_bind, entries_address, e3, Option.some_bind,
        load_entry, Option.some_bind, entries_length, e4, Option.some_bind, load_entry,
        Option.some_bind, entries_length, e5, Option.some_bind, free_length, e6,
        Option.some_bind, used_length, e7, Option.some_bind, load_entry, Option.some_bind,
        entries_address, q3, Option.some_bind, e8, Option.some_bind, load_entry,
        Option.some_bind, entries_address, a8, a7]
    · rw [← d7]; simp only [dataOf, a8, n8]
    · rw [c8, v7, v6, c5, v4, v3, v2, v1]
    · rw [← hl4]
      refine ⟨t2, t1, ?_, ?_⟩
      · have := hnd7
        rw [List.nodup_append] at this ⊢
        refine ⟨this.2.1, ?_, ?_⟩
        · have h1 := this.1
          rw [List.nodup_append] at h1 ⊢
          refine ⟨h1.1, List.nodup_cons.2 ⟨?_, h1.2.1⟩, ?_⟩
          · intro hm; exact hxu (eu ▸ List.mem_append_right _ hm)
          · intro a ha hb
            rcases List.mem_cons.1 hb with rfl | hb
            · exact hxu (eu ▸ List.mem_append_left _ ha)
            · exact h1.2.2 ha hb
        · intro a ha hb
          simp only [List.mem_append, List.mem_cons] at hb
          rcases hb with hb | rfl | hb
          · exact this.2.2 (List.mem_append_left _ hb) ha
          · exact hxfl ha
          · exact this.2.2 (List.mem_append_right _ hb) ha
      · intro i hi
        rw [c8, v7, v6, c5, v4, v3, v2, v1]
        simp only [List.mem_append, List.mem_cons] at hi
        rcases hi with hi | hi | rfl | hi
        · refine rep.bound i (List.mem_append_left _ ?_)
          split at hi
          · simp only [List.mem_append, List.mem_cons] at hi ⊢; tauto
          · exact hi
        · exact rep.bound i (List.mem_append_right _ (eu ▸ List.mem_append_left _ hi))
        · exact hxc
        · exact rep.bound i (List.mem_append_right _ (eu ▸ List.mem_append_right _ hi))

theorem coalesceFrom_sublist (aw : Nat) : ∀ (ys : List Nat) (cur : Nat) (d : Data),
    (coalesceFrom aw cur d ys).2.Sublist (cur :: ys) := by
  intro ys
  induction ys with
  | nil => intro cur d; simp [coalesceFrom]
  | cons y ys ih =>
    intro cur d
    simp only [coalesceFrom]
    split
    · exact (ih cur _).trans (List.Sublist.cons₂ _ (List.sublist_cons_self _ _))
    · exact List.Sublist.cons₂ _ (ih y d)

theorem coalesce_sublist (aw : Nat) (d : Data) (xs : List Nat) :
    (coalesce aw d xs).2.Sublist xs := by
  cases xs with
  | nil => simp [coalesce]
  | cons x xs => exact coalesceFrom_sublist aw xs x d

theorem release_spec (aw fuel : Nat) (l : mem_region_list) (a : Nat) {fl ul : List Nat}
    (rep : Rep (view l) fl ul) (hf1 : fl.length + 1 < fuel) (hf2 : ul.length < fuel) :
    ((∀ i ∈ ul, (view l).addr (.entry i) ≠ a) ∧ mem_region_list_release aw fuel l a = some l) ∨
    (∃ pre u post fpre fpost l1, ul = pre ++ u :: post ∧
      (∀ i ∈ pre, (view l).addr (.entry i) ≠ a) ∧ (view l).addr (.entry u) = a ∧
      fl = fpre ++ fpost ∧ (∀ i ∈ fpre, (view l).addr (.entry i) ≤ a) ∧
      (∀ g ∈ fpost.head?, a < (view l).addr (.entry g)) ∧
      mem_region_list_release aw fuel l a = some l1 ∧
      dataOf (view l1) =
        (coalesce aw (releaseData (dataOf (view l)) u) (fpre ++ u :: fpost)).1 ∧
      (view l1).count = (view l).count ∧
      Rep (view l1) (coalesce aw (releaseData (dataOf (view l)) u) (fpre ++ u :: fpost)).2
        (pre ++ post)) := by
  obtain ⟨pre, post, e, p1, p2, p3⟩ := find_region_spec l a ul fuel rep.used hf2
  cases post with
  | nil =>
    left
    refine ⟨by simpa [e] using p1, ?_⟩
    rw [mem_region_list_release, p3]
    simp [foundNode]
  | cons u post =>
    right
    subst e
    have p2' : (view l).addr (.entry u) = a := by simpa using p2
    have hnd0 : ((pre ++ u :: post) ++ fl).Nodup := by
      have := rep.nodup
      rw [List.nodup_append] at this ⊢
      exact ⟨this.2.1, this.1, fun a h1 h2 => this.2.2 h2 h1⟩
    obtain ⟨l1, e1, a1, n1, c1, s1, t1⟩ := remove_entry_seg l (Or.inr rfl) (Or.inl rfl)
      (by simp) pre post fl u rep.used rep.free hnd0
    obtain ⟨fpre, fpost, ef, q1, q2, q3⟩ := find_insert_entry_spec l1 (Or.inl rfl)
      ((view l1).addr (.entry u)) fl fuel t1 (by omega)
    subst ef
    have hu : u ∉ (fpre ++ fpost) ++ (pre ++ post) := by
      rw [List.nodup_append] at hnd0
      simp only [List.mem_append, not_or]
      have h1 : u ∉ fpre ++ fpost := fun h => hnd0.2.2 (by simp) h
      have h2 := hnd0.1
      rw [List.nodup_append] at h2
      simp only [List.nodup_cons] at h2
      simp only [List.mem_append, not_or] at h1
      exact ⟨h1, fun h => h2.2.2 h (by simp), h2.2.1.1⟩
    have hnd1 : ((fpre ++ fpost) ++ (pre ++ post)).Nodup := by
      refine rep.nodup.sublist (List.Sublist.append (List.Sublist.refl _) ?_)
      exact List.Sublist.append (List.Sublist.refl _) (List.sublist_cons_self _ _)
    obtain ⟨l2, e2, a2, n2, c2, t2, s2⟩ := insert_entry_seg l1 (Or.inl rfl) (Or.inr rfl)
      (by simp) fpre fpost (pre ++ post) u t1 s1 hnd1 hu
    obtain ⟨l3, e3, v3⟩ := set_length_spec l2 (p := .free)
      (u32 ((view l2).len .free + (view l2).len (.entry u))) (by simp)
    obtain ⟨l4, e4, v4⟩ := set_length_spec l3 (p := .used)
      (sub32 ((view l3).len .used) ((view l3).len (.entry u))) (by simp)
    have d4 : dataOf (view l4) = releaseData (dataOf (view l)) u := by
      simp only [dataOf, releaseData, v4, v3, a2, n2, a1, n1]
    have t4 : Seg (view l4) .free (fpre ++ u :: fpost) .free :=
      seg_links (by rw [v4, v3]) (by rw [v4, v3]) t2
    have s4 : Seg (view l4) .used (pre ++ post) .used :=
      seg_links (by rw [v4, v3]) (by rw [v4, v3]) s2
    have hnd4 : ((fpre ++ u :: fpost) ++ (pre ++ post)).Nodup := by
      have := hnd1
      rw [List.nodup_append] at this ⊢
      simp only [List.mem_append, not_or] at hu
      refine ⟨?_, this.2.1, ?_⟩
      · have h1 := this.1
        rw [List.nodup_append] at h1 ⊢
        refine ⟨h1.1, List.nodup_cons.2 ⟨hu.1.2, h1.2.1⟩, ?_⟩
        intro b hb hc
        rcases List.mem_cons.1 hc with rfl | hc
        · exact hu.1.1 hb
        · exact h1.2.2 hb hc
      · intro b hb hc
        simp only [List.mem_append, List.mem_cons] at hb
        rcases hb with hb | rfl | hb
        · exact this.2.2 (List.mem_append_left _ hb) hc
        · rcases List.mem_append.1 hc with h | h
          · exact hu.2.1 h
          · exact hu.2.2 h
        · exact this.2.2 (List.mem_append_right _ hb) hc
    obtain ⟨l5, e5, d5, c5, t5, s5⟩ := arrange_regions_spec aw (Or.inl rfl) (Or.inr rfl)
      (by simp) (fpre ++ u :: fpost) (pre ++ post) l4 fuel t4 s4 hnd4
      (by simp only [List.length_append, List.length_cons] at hf1 ⊢; omega)
    rw [a1] at q1 q2
    rw [p2'] at q1 q2
    refine ⟨pre, u, post, fpre, fpost, l5, rfl, p1, p2', rfl, q1, q2, ?_, ?_, ?_, ?_⟩
    · rw [mem_region_list_release, p3]
      simp only [foundNode, Option.some_bind, reduceCtorEq, if_false]
      rw [e1, Option.some_bind, load_entry, Option.some_bind, entries_address, q3,
        Option.some_bind, e2, Option.some_bind, load_entry, Option.some_bind, free_length,
        entries_length, e3, Option.some_bind, load_entry, Option.some_bind, used_length,
        entries_length, e4, Option.some_bind, e5]
    · rw [d5, d4]
    · rw [c5, v4, v3, c2, c1]
    · rw [← d4]
      have hsub := coalesce_sublist aw (dataOf (view l4)) (fpre ++ u :: fpost)
      refine ⟨t5, s5, hnd4.sublist (List.Sublist.append hsub (List.Sublist.refl _)), ?_⟩
      intro i hi
      rw [c5, v4, v3, c2, c1]
      rcases List.mem_append.1 hi with hi | hi
      · have := hsub.subset hi
        simp only [List.mem_append, List.mem_cons] at this
        rcases this with h | rfl | h
        · exact rep.bound i (by simp [h])
        · exact rep.bound i (by simp)
        · exact rep.bound i (by simp [h])
      · refine rep.bound i ?_
        simp only [List.mem_append, List.mem_cons] at hi ⊢
        tauto

theorem OLe.refl {α : Type} (o : Option α) : OLe o o := fun _ h => h

theorem OLe.bind {α β : Type} {o1 o2 : Option α} {f g : α → Option β} (h : OLe o1 o2)
    (hf : ∀ a, OLe (f a) (g a)) : OLe (o1.bind f) (o2.bind g) := by
  intro r hr
  obtain ⟨a, ha, hfa⟩ := Option.bind_eq_some.1 hr
  exact Option.bind_eq_some.2 ⟨a, h a ha, hf a r hfa⟩

theorem OLe.bind_right {α β : Type} (o : Option α) {f g : α → Option β}
    (hf : ∀ a, OLe (f a) (g a)) : OLe (o.bind f) (o.bind g) :=
  OLe.bind (OLe.refl o) hf

theorem OLe.map {α β : Type} {o1 o2 : Option α} (f : α → β) (h : OLe o1 o2) :
    OLe (o1.map f) (o2.map f) := by
  intro r hr
  obtain ⟨a, ha, hfa⟩ := Option.map_eq_some'.1 hr
  exact Option.map_eq_some'.2 ⟨a, h a ha, hfa⟩

theorem find_insert_entry_loop_mono (l : mem_region_list) (head : Ptr) (a k : Nat) :
    ∀ (fuel : Nat) (p : Ptr), OLe (find_insert_entry_loop l head a fuel p)
      (find_insert_entry_loop l head a (fuel + k) p) := by
  intro fuel
  induction fuel with
  | zero => intro p r h; simp [find_insert_entry_loop] at h
  | succ n ih =>
    intro p
    rw [Nat.add_right_comm]
    simp only [find_insert_entry_loop]
    split
    · exact OLe.refl _
    · refine OLe.bind_right _ (fun e => ?_)
      split
      · exact OLe.refl _
      · exact ih _

theorem find_blank_region_loop_mono (l : mem_region_list) (head : Ptr) (a k : Nat) :
    ∀ (fuel : Nat) (p : Ptr), OLe (find_blank_region_loop l head a fuel p)
      (find_blank_region_loop l head a (fuel + k) p) := by
  intro fuel
  induction fuel with
  | zero => intro p r h; simp [find_blank_region_loop] at h
  | succ n ih =>
    intro p
    rw [Nat.add_right_comm]
    simp only [find_blank_region_loop]
    split
    · exact OLe.refl _
    · refine OLe.bind_right _ (fun e => ?_)
      split
      · exact OLe.refl _
      · exact ih _

theorem find_region_loop_mono (l : mem_region_list) (head : Ptr) (a k : Nat) :
    ∀ (fuel : Nat) (p : Ptr), OLe (find_region_loop l head a fuel p)
      (find_region_loop l head a (fuel + k) p) := by
  intro fuel
  induction fuel with
  | zero => intro p r h; simp [find_region_loop] at h
  | succ n ih =>
    intro p
    rw [Nat.add_right_comm]
    simp only [find_region_loop]
    split
    · exact OLe.refl _
    · refine OLe.bind_right _ (fun e => ?_)
      split
      · exact OLe.refl _
      · exact ih _

theorem walk_loop_mono (l : mem_region_list) (head : Ptr) (k : Nat) :
    ∀ (fuel : Nat) (p : Ptr), OLe (walk_loop l head fuel p) (walk_loop l head (fuel + k) p) := by
  intro fuel
  induction fuel with
  | zero => intro p r h; simp [walk_loop] at h
  | succ n ih =>
    intro p
    rw [Nat.add_right_comm]
    simp only [walk_loop]
    split
    · exact OLe.refl _
    · exact OLe.bind_right _ (fun e => OLe.map _ (ih _))

theorem arrange_regions_inner_mono (aw : Nat) (head pentry : Ptr) (k : Nat) :
    ∀ (fuel : Nat) (l : mem_region_list) (p : Ptr),
      OLe (arrange_regions_inner aw head pentry fuel l p)
        (arrange_regions_inner aw head pentry (fuel + k) l p) := by
  intro fuel
  induction fuel with
  | zero => intro l p r h; simp [arrange_regions_inner] at h
  | succ n ih =>
    intro l p
    rw [Nat.add_right_comm]
    simp only [arrange_regions_inner]
    split
    · exact OLe.refl _
    · refine OLe.bind_right _ (fun e => OLe.bind_right _ (fun e2 => ?_))
      split
      · exact OLe.bind_right _ (fun l1 => OLe.bind_right _ (fun l2 =>
          OLe.bind_right _ (fun _ => ih _ _)))
      · exact OLe.refl _

theorem arrange_regions_loop_mono (aw : Nat) (head : Ptr) (k : Nat) :
    ∀ (fuel : Nat) (l : mem_region_list) (p : Ptr),
      OLe (arrange_regions_loop aw head fuel l p)
        (arrange_regions_loop aw head (fuel + k) l p) := by
  intro fuel
  induction fuel with
  | zero => intro l p r h; simp [arrange_regions_loop] at h
  | succ n ih =>
    intro l p
    rw [Nat.add_right_comm]
    simp only [arrange_regions_loop]
    split
    · exact OLe.refl _
    · refine OLe.bind_right _ (fun e => ?_)
      exact OLe.bind (arrange_regions_inner_mono aw head p k n l e.next)
        (fun l1 => OLe.bind_right _ (fun _ => ih _ _))

theorem find_insert_entry_mono (fuel k : Nat) (l : mem_region_list) (head : Ptr) (a : Nat) :
    OLe (find_insert_entry fuel l head a) (find_insert_entry (fuel + k) l head a) :=
  OLe.bind_right _ (fun _ => find_insert_entry_loop_mono l head a k fuel _)

theorem find_blank_region_mono (fuel k : Nat) (l : mem_region_list) (head : Ptr) (a : Nat) :
    OLe (find_blank_region fuel l head a) (find_blank_region (fuel + k) l head a) :=
  OLe.bind_right _ (fun _ => find_blank_region_loop_mono l head a k fuel _)

theorem find_region_mono (fuel k : Nat) (l : mem_region_list) (head : Ptr) (a : Nat) :
    OLe (find_region fuel l head a) (find_region (fuel + k) l head a) :=
  OLe.bind_right _ (fun _ => find_region_loop_mono l head a k fuel _)

theorem arrange_regions_mono (aw fuel k : Nat) (l : mem_region_list) (head : Ptr) :
    OLe (arrange_regions aw fuel l head) (arrange_regions aw (fuel + k) l head) :=
  OLe.bind_right _ (fun _ => arrange_regions_loop_mono aw head k fuel l _)

theorem walk_mono (fuel k : Nat) (l : mem_region_list) (head : Ptr) :
    OLe (walk fuel l head) (walk (fuel + k) l head) :=
  OLe.bind_right _ (fun _ => walk_loop_mono l head k fuel _)

theorem regions_mono (fuel k : Nat) (l : mem_region_list) (head : Ptr) :
    OLe (regions fuel l head) (regions (fuel + k) l head) :=
  OLe.map _ (walk_mono fuel k l head)

theorem mem_region_list_assign_mono (aw fuel k : Nat) (l : mem_region_list) (len : Nat) :
    OLe (mem_region_list_assign aw fuel l len) (mem_region_list_assign aw (fuel + k) l len) := by
  rw [mem_region_list_assign, mem_region_list_assign]
  by_cases h : len ≤ 0
  · rw [if_pos h, if_pos h]; exact OLe.refl _
  rw [if_neg h, if_neg h]
  by_cases h2 : get_free_entry l = .null
  · rw [show (let pentry := get_free_entry l; if pentry = Ptr.null then some (l, 0) else _) =
      some (l, 0) from if_pos h2, show (let pentry := get_free_entry l; if pentry = Ptr.null
      then some (l, 0) else _) = some (l, 0) from if_pos h2]
    exact OLe.refl _
  refine Eq.mpr (congrArg₂ OLe (if_neg h2) (if_neg h2)) ?_
  refine OLe.bind (find_blank_region_mono fuel k l .free _) (fun b => ?_)
  by_cases h3 : b = .null
  · rw [if_pos h3, if_pos h3]; exact OLe.refl _
  rw [if_neg h3, if_neg h3]
  refine OLe.bind_right _ (fun _ => OLe.bind_right _ (fun _ => OLe.bind_right _ (fun _ =>
    OLe.bind_right _ (fun _ => OLe.bind_right _ (fun _ => OLe.bind_right _ (fun _ =>
    OLe.bind_right _ (fun _ => OLe.bind_right _ (fun _ => OLe.bind_right _ (fun _ =>
    OLe.bind_right _ (fun _ => OLe.bind_right _ (fun _ => OLe.bind_right _ (fun _ =>
    OLe.bind (find_insert_entry_mono fuel k _ .used _) (fun _ => OLe.refl _)))))))))))))

theorem mem_region_list_release_mono (aw fuel k : Nat) (l : mem_region_list) (a : Nat) :
    OLe (mem_region_list_release aw fuel l a) (mem_region_list_release aw (fuel + k) l a) := by
  rw [mem_region_list_release, mem_region_list_release]
  refine OLe.bind (find_region_mono fuel k l .used _) (fun b => ?_)
  by_cases h3 : b = .null
  · rw [if_pos h3, if_pos h3]; exact OLe.refl _
  rw [if_neg h3, if_neg h3]
  refine OLe.bind_right _ (fun _ => OLe.bind_right _ (fun _ =>
    OLe.bind (find_insert_entry_mono fuel k _ .free _) (fun _ =>
    OLe.bind_right _ (fun _ => OLe.bind_right _ (fun _ => OLe.bind_right _ (fun _ =>
    OLe.bind_right _ (fun _ => OLe.bind_right _ (fun _ =>
    arrange_regions_mono aw fuel k _ .free))))))))

theorem get_free_entry_entry (l : mem_region_list) {x : Nat} (h : get_free_entry l = .entry x) :
    (x : Int) < l.entry_count ∧ (view l).addr (.entry x) = 0 := by
  rcases get_free_entry_spec l with ⟨g1, _⟩ | ⟨y, hy1, hy2, _, g1⟩
  · rw [g1] at h; cases h
  · rw [g1] at h; cases h; exact ⟨hy1, hy2⟩

theorem insertReg_split (v : View) (r : Nat × Nat) : ∀ (pre post : List Nat),
    (∀ i ∈ pre, v.addr (.entry i) ≤ r.1) → (∀ g ∈ post.head?, r.1 < v.addr (.entry g)) →
    insertReg r ((pre ++ post).map (reg v)) = pre.map (reg v) ++ r :: post.map (reg v) := by
  intro pre
  induction pre with
  | nil =>
    intro post _ h2
    cases post with
    | nil => rfl
    | cons g gs =>
      have : r.1 < v.addr (.entry g) := h2 g (by simp)
      simp [insertReg, reg, this]
  | cons p ps ih =>
    intro post h1 h2
    have hp : ¬ r.1 < v.addr (.entry p) := by
      have := h1 p (by simp); omega
    simp only [List.cons_append, List.map_cons, insertReg, reg, hp, if_false, List.cons.injEq,
      true_and]
    exact ih post (fun i hi => h1 i (List.mem_cons_of_mem _ hi)) h2

theorem carveFree_split (aw n : Nat) (v : View) (f : Nat) (post : List Nat)
    (hf : n ≤ v.len (.entry f)) : ∀ (pre : List Nat), (∀ i ∈ pre, v.len (.entry i) < n) →
    carveFree aw n ((pre ++ f :: post).map (reg v)) =
      some (v.addr (.entry f), pre.map (reg v) ++
        (if sub32 (v.len (.entry f)) n ≤ 0 then post.map (reg v)
         else ((v.addr (.entry f) + n) % 2 ^ aw, sub32 (v.len (.entry f)) n) :: post.map (reg v))) := by
  intro pre
  induction pre with
  | nil => intro _; simp [carveFree, reg, hf]
  | cons p ps ih =>
    intro h1
    have hp : ¬ n ≤ v.len (.entry p) := by
      have := h1 p (by simp); omega
    simp only [List.cons_append, List.map_cons, carveFree, reg, hp, if_false]
    have := ih (fun i hi => h1 i (List.mem_cons_of_mem _ hi))
    simp only [List.append_eq] at this ⊢
    rw [this]
    rfl

theorem carveFree_none (aw n : Nat) (v : View) : ∀ (xs : List Nat),
    (∀ i ∈ xs, v.len (.entry i) < n) → carveFree aw n (xs.map (reg v)) = none := by
  intro xs
  induction xs with
  | nil => intro _; rfl
  | cons p ps ih =>
    intro h1
    have hp : ¬ n ≤ v.len (.entry p) := by
      have := h1 p (by simp); omega
    simp only [List.map_cons, carveFree, reg, hp, if_false]
    rw [ih (fun i hi => h1 i (List.mem_cons_of_mem _ hi))]
    rfl

theorem map_reg_congr {v w : View} {xs : List Nat}
    (h : ∀ i ∈ xs, w.addr (.entry i) = v.addr (.entry i) ∧ w.len (.entry i) = v.len (.entry i)) :
    xs.map (reg w) = xs.map (reg v) :=
  List.map_congr_left (fun i hi => by simp [reg, h i hi])

theorem carve_len (aw : Nat) (d : Data) {x f : Nat} (n : Nat) (hxf : x ≠ f) :
    (carve aw d x f n).len (.entry f) = sub32 (d.len (.entry f)) n := by
  have h : f ≠ x := fun e => hxf e.symm
  simp [carve, Function.update_apply, h]

theorem assignData_apply (aw : Nat) (d : Data) {x f : Nat} (n : Nat) (hxf : x ≠ f) :
    (assignData aw d x f n).addr (.entry x) = d.addr (.entry f) ∧
    (assignData aw d x f n).len (.entry x) = n ∧
    (assignData aw d x f n).addr (.entry f) =
      (if sub32 (d.len (.entry f)) n ≤ 0 then 0 else (d.addr (.entry f) + n) % 2 ^ aw) ∧
    (assignData aw d x f n).len (.entry f) = sub32 (d.len (.entry f)) n ∧
    (∀ i, i ≠ x → i ≠ f → (assignData aw d x f n).addr (.entry i) = d.addr (.entry i) ∧
      (assignData aw d x f n).len (.entry i) = d.len (.entry i)) ∧
    (assignData aw d x f n).len .free = sub32 (d.len .free) n ∧
    (assignData aw d x f n).len .used = u32 (d.len .used + n) := by
  have h : f ≠ x := fun e => hxf e.symm
  have hc := carve_len aw d n hxf
  by_cases hz : sub32 (d.len (.entry f)) n ≤ 0
  · have hz0 : sub32 (d.len (.entry f)) n = 0 := Nat.le_zero.1 hz
    refine ⟨?_, ?_, ?_, ?_, ?_, ?_, ?_⟩ <;>
      simp [assignData, account, dropEmpty, hc, hz0, Function.update_apply, hxf, h, carve]
    intro i h1 h2
    simp [h1, h2]
  · have hz' : ¬ sub32 (d.len (.entry f)) n = 0 := fun e => hz (by rw [e])
    refine ⟨?_, ?_, ?_, ?_, ?_, ?_, ?_⟩ <;>
      simp [assignData, account, dropEmpty, hc, hz', Function.update_apply, hxf, h, carve]
    intro i h1 h2
    simp [h1, h2]

theorem assign_refines (aw fuel : Nat) (l : mem_region_list) (len : Nat) {fl ul : List Nat}
    (rep : Rep (view l) fl ul) (hlen : 0 < len) (hf1 : fl.length < fuel)
    (hf2 : ul.length < fuel)
    (hmark : ∀ i ∈ fl ++ ul, (view l).addr (.entry i) ≠ 0)
    (hempty : ∀ i : Nat, (i : Int) < (view l).count → i ∉ fl ++ ul →
      (view l).addr (.entry i) = 0) :
    (mem_region_list_assign aw fuel l len = some (l, 0) ∧
      (get_free_entry l = .null ∨
        aAssign aw (absOf (view l) fl ul) (needs_length len) = none)) ∨
    (∃ l1 r fl' ul', mem_region_list_assign aw fuel l len = some (l1, r) ∧
      get_free_entry l ≠ .null ∧ Rep (view l1) fl' ul' ∧ (view l1).count = (view l).count ∧
      aAssign aw (absOf (view l) fl ul) (needs_length len) = some (absOf (view l1) fl' ul', r) ∧
      (∀ i : Nat, (i : Int) < (view l1).count → i ∉ fl' ++ ul' →
        (view l1).addr (.entry i) = 0)) := by
  have hx : ∀ x, get_free_entry l = .entry x → fl = [] ∨ (x ∉ ul ∧ (x ∉ fl ∨ fl = [x])) := by
    intro x hx
    right
    have h0 := (get_free_entry_entry l hx).2
    exact ⟨fun h => hmark x (List.mem_append_right _ h) h0,
      Or.inl (fun h => hmark x (List.mem_append_left _ h) h0)⟩
  rcases assign_spec aw fuel l len rep hlen hf1 hf2 hx with ⟨g, e⟩ | ⟨x, g, h1, e⟩ |
    ⟨x, pre, f, post, upre, upost, l1, g, efl, h1, h2, eul, q1, q2, e, d1, c1, r1⟩
  · exact Or.inl ⟨e, Or.inl g⟩
  · refine Or.inl ⟨e, Or.inr ?_⟩
    simp [aAssign, absOf, carveFree_none aw _ (view l) fl h1]
  · right
    subst efl eul
    generalize needs_length len = n at *
    have hx0 := (get_free_entry_entry l g).2
    have hxl : x ∉ (pre ++ f :: post) ++ (upre ++ upost) := fun h => hmark x h hx0
    have hxf : x ≠ f := by
      intro e; apply hxl; simp [e]
    have hnd := rep.nodup
    obtain ⟨ax, lx, af, lf, hoth, cf, cu⟩ := assignData_apply aw (dataOf (view l)) n hxf
    have hcl := carve_len aw (dataOf (view l)) n hxf
    have ha : (view l1).addr = (assignData aw (dataOf (view l)) x f n).addr := by rw [← d1]; rfl
    have hl : (view l1).len = (assignData aw (dataOf (view l)) x f n).len := by rw [← d1]; rfl
    have hsame : ∀ i, i ≠ x → i ≠ f → reg (view l1) i = reg (view l) i := by
      intro i h1 h2
      simp only [reg, ha, hl]
      rw [(hoth i h1 h2).1, (hoth i h1 h2).2]; rfl
    have hmem_ne_x : ∀ i, i ∈ (pre ++ f :: post) ++ (upre ++ upost) → i ≠ x := by
      intro i hi e; subst e; exact hxl hi
    have hne_f : ∀ i, i ∈ pre ++ post ++ (upre ++ upost) → i ≠ f := by
      intro i hi e; subst e
      have : (i :: (pre ++ post ++ (upre ++ upost))).Nodup := by
        refine (List.Perm.nodup_iff ?_).1 hnd
        simp only [List.append_assoc]
        exact List.perm_middle
      exact (List.nodup_cons.1 this).1 hi
    have hmap : ∀ xs : List Nat, (∀ i ∈ xs, i ∈ pre ++ post ++ (upre ++ upost)) →
        xs.map (reg (view l1)) = xs.map (reg (view l)) := by
      intro xs hxs
      refine List.map_congr_left (fun i hi => hsame i (hmem_ne_x i ?_) (hne_f i (hxs i hi)))
      have := hxs i hi
      simp only [List.mem_append, List.mem_cons] at this ⊢
      tauto
    have hregx : reg (view l1) x = ((view l).addr (.entry f), n) := by
      simp only [reg, ha, hl, ax, lx]; rfl
    have hregf : reg (view l1) f = ((assignData aw (dataOf (view l)) x f n).addr (.entry f),
        sub32 ((view l).len (.entry f)) n) := by
      simp only [reg, ha, hl, lf]; rfl
    refine ⟨l1, _, _, _, e, by rw [g]; simp, r1, c1, ?_, ?_⟩
    · have hcarve := carveFree_split aw n (view l) f post h2 pre h1
      simp only [aAssign, absOf, hcarve, Option.map_some', Option.some.injEq, Prod.mk.injEq,
        AState.mk.injEq]
      refine ⟨⟨?_, ?_, ?_, ?_⟩, ?_⟩
      · rw [hcl]
        have hd : (dataOf (view l)).len (.entry f) = (view l).len (.entry f) := rfl
        have hda : (dataOf (view l)).addr (.entry f) = (view l).addr (.entry f) := rfl
        rw [hd] at af ⊢
        by_cases hz : sub32 ((view l).len (.entry f)) n ≤ 0
        · simp only [hz, if_true, List.map_append]
          rw [hmap pre (fun i hi => by simp [hi]), hmap post (fun i hi => by simp [hi])]
        · simp only [hz, if_false, List.map_append, List.map_cons]
          rw [hmap pre (fun i hi => by simp [hi]), hmap post (fun i hi => by simp [hi]), hregf,
            af, if_neg hz, hda]
      · rw [insertReg_split (view l) ((view l).addr (.entry f), n) upre upost]
        · simp only [List.map_append, List.map_cons]
          rw [hmap upre (fun i hi => by simp [hi]), hmap upost (fun i hi => by simp [hi]), hregx]
        · intro i hi
          have := q1 i hi
          rw [ax, (hoth i (hmem_ne_x i (by simp [hi])) (hne_f i (by simp [hi]))).1] at this
          exact this
        · intro g hg
          have hgm : g ∈ upost := by
            cases upost with
            | nil => simp at hg
            | cons a as => simp at hg; simp [hg]
          have := q2 g hg
          rw [ax, (hoth g (hmem_ne_x g (by simp [hgm])) (hne_f g (by simp [hgm]))).1] at this
          exact this
      · rw [hl, cf]; rfl
      · rw [hl, cu]; rfl
      · rw [ax]; rfl
    · intro i hi hni
      rw [c1] at hi
      by_cases hix : i = x
      · subst hix; exact absurd (by simp) hni
      by_cases hif : i = f
      · subst hif
        rw [hcl] at hni
        by_cases hz : sub32 ((dataOf (view l)).len (.entry i)) n ≤ 0
        · rw [ha, af, if_pos hz]
        · rw [if_neg hz] at hni
          exact absurd (by simp) hni
      · rw [ha, (hoth i hix hif).1]
        refine hempty i hi ?_
        intro hm
        apply hni
        split
        · simp only [List.mem_append, List.mem_cons] at hm ⊢; tauto
        · simp only [List.mem_append, List.mem_cons] at hm ⊢; tauto

theorem mergeInto_apply (d : Data) {cur y : Nat} (h : cur ≠ y) :
    regD (mergeInto d cur y) cur = (d.addr (.entry cur), u32 (d.len (.entry cur) + d.len (.entry y)))
    ∧ (mergeInto d cur y).addr (.entry y) = 0
    ∧ (∀ i, i ≠ cur → i ≠ y → regD (mergeInto d cur y) i = regD d i)
    ∧ (mergeInto d cur y).len .free = d.len .free ∧ (mergeInto d cur y).len .used = d.len .used := by
  refine ⟨?_, ?_, ?_, ?_, ?_⟩ <;> simp [regD, mergeInto, Function.update_apply, h]
  intro i h1 h2
  simp [h1, h2]

theorem coalesceFrom_regs (aw : Nat) : ∀ (ys : List Nat) (cur : Nat) (d : Data),
    (cur :: ys).Nodup →
    (coalesceFrom aw cur d ys).2.map (regD (coalesceFrom aw cur d ys).1) =
        coalesceFromR aw (regD d cur) (ys.map (regD d)) ∧
    (∀ i, i ∉ cur :: ys → regD (coalesceFrom aw cur d ys).1 i = regD d i) ∧
    (∀ i ∈ cur :: ys, i ∉ (coalesceFrom aw cur d ys).2 →
        (coalesceFrom aw cur d ys).1.addr (.entry i) = 0) ∧
    (coalesceFrom aw cur d ys).1.len .free = d.len .free ∧
    (coalesceFrom aw cur d ys).1.len .used = d.len .used := by
  intro ys
  induction ys with
  | nil => intro cur d _; simp [coalesceFrom, coalesceFromR]
  | cons y ys ih =>
    intro cur d hnd
    have hcy : cur ≠ y := by
      intro e; subst e; simp at hnd
    have hnd1 : (cur :: ys).Nodup := hnd.sublist (List.Sublist.cons₂ _ (List.sublist_cons_self _ _))
    have hnd2 : (y :: ys).Nodup := (List.nodup_cons.1 hnd).2
    have hy : y ∉ cur :: ys := by
      intro h
      rcases List.mem_cons.1 h with e | h
      · exact hcy e.symm
      · exact (List.nodup_cons.1 hnd2).1 h
    by_cases hc : (d.addr (.entry cur) + d.len (.entry cur)) % 2 ^ aw = d.addr (.entry y)
    · obtain ⟨m1, m2, m3, m4, m5⟩ := mergeInto_apply d hcy
      obtain ⟨i1, i2, i3, i4, i5⟩ := ih cur (mergeInto d cur y) hnd1
      have hmap : ys.map (regD (mergeInto d cur y)) = ys.map (regD d) := by
        refine List.map_congr_left (fun i hi => m3 i ?_ ?_)
        · intro e; subst e; exact (List.nodup_cons.1 hnd1).1 hi
        · intro e; subst e; exact (List.nodup_cons.1 hnd2).1 hi
      simp only [coalesceFrom, hc, if_true]
      refine ⟨?_, ?_, ?_, by rw [i4, m4], by rw [i5, m5]⟩
      · rw [i1, m1, hmap]
        simp [coalesceFromR, regD, hc]
      · intro i hi
        simp only [List.mem_cons, not_or] at hi
        rw [i2 i (by simp [hi.1, hi.2.2]), m3 i hi.1 hi.2.1]
      · intro i hi hni
        by_cases hiy : i = y
        · subst hiy
          have := i2 i hy
          simp only [regD, Prod.mk.injEq] at this
          rw [this.1, m2]
        · refine i3 i ?_ hni
          simp only [List.mem_cons] at hi ⊢
          tauto
    · obtain ⟨i1, i2, i3, i4, i5⟩ := ih y d hnd2
      have hcur : cur ∉ y :: ys := by
        intro h
        exact (List.nodup_cons.1 hnd).1 h
      simp only [coalesceFrom, hc, if_false]
      refine ⟨?_, ?_, ?_, i4, i5⟩
      · simp only [List.map_cons, i1, i2 cur hcur]
        simp [coalesceFromR, regD, hc]
      · intro i hi
        simp only [List.mem_cons, not_or] at hi
        exact i2 i (by simp [hi.2.1, hi.2.2])
      · intro i hi hni
        simp only [List.mem_cons, not_or] at hni
        refine i3 i ?_ hni.2
        simp only [List.mem_cons] at hi ⊢
        tauto

theorem coalesce_regs (aw : Nat) (xs : List Nat) (d : Data) (hnd : xs.Nodup) :
    (coalesce aw d xs).2.map (regD (coalesce aw d xs).1) = coalesceR aw (xs.map (regD d)) ∧
    (∀ i, i ∉ xs → regD (coalesce aw d xs).1 i = regD d i) ∧
    (∀ i ∈ xs, i ∉ (coalesce aw d xs).2 → (coalesce aw d xs).1.addr (.entry i) = 0) ∧
    (coalesce aw d xs).1.len .free = d.len .free ∧
    (coalesce aw d xs).1.len .used = d.len .used := by
  cases xs with
  | nil => simp [coalesce, coalesceR]
  | cons x xs => exact coalesceFrom_regs aw xs x d hnd

theorem takeReg_split (a : Nat) (v : View) (u : Nat) (post : List Nat)
    (hu : v.addr (.entry u) = a) : ∀ (pre : List Nat), (∀ i ∈ pre, v.addr (.entry i) ≠ a) →
    takeReg a ((pre ++ u :: post).map (reg v)) = some (reg v u, (pre ++ post).map (reg v)) := by
  intro pre
  induction pre with
  | nil => intro _; simp [takeReg, reg, hu]
  | cons p ps ih =>
    intro h1
    have hp : ¬ v.addr (.entry p) = a := h1 p (by simp)
    have := ih (fun i hi => h1 i (List.mem_cons_of_mem _ hi))
    simp only [List.cons_append, List.map_cons, takeReg, reg, hp, if_false] at this ⊢
    simp only [List.append_eq] at this ⊢
    rw [this]
    rfl

theorem takeReg_none (a : Nat) (v : View) : ∀ (xs : List Nat),
    (∀ i ∈ xs, v.addr (.entry i) ≠ a) → takeReg a (xs.map (reg v)) = none := by
  intro xs
  induction xs with
  | nil => intro _; rfl
  | cons p ps ih =>
    intro h1
    have hp : ¬ v.addr (.entry p) = a := h1 p (by simp)
    simp only [List.map_cons, takeReg, reg, hp, if_false]
    rw [ih (fun i hi => h1 i (List.mem_cons_of_mem _ hi))]
    rfl

theorem releaseData_apply (d : Data) (u : Nat) :
    (∀ i, regD (releaseData d u) i = regD d i) ∧
    (releaseData d u).len .free = u32 (d.len .free + d.len (.entry u)) ∧
    (releaseData d u).len .used = sub32 (d.len .used) (d.len (.entry u)) := by
  refine ⟨fun i => ?_, ?_, ?_⟩ <;> simp [regD, releaseData, Function.update_apply]

theorem release_refines (aw fuel : Nat) (l : mem_region_list) (a : Nat) {fl ul : List Nat}
    (rep : Rep (view l) fl ul) (hf1 : fl.length + 1 < fuel) (hf2 : ul.length < fuel)
    (hempty : ∀ i : Nat, (i : Int) < (view l).count → i ∉ fl ++ ul →
      (view l).addr (.entry i) = 0) :
    ∃ l1 fl' ul', mem_region_list_release aw fuel l a = some l1 ∧
      Rep (view l1) fl' ul' ∧ (view l1).count = (view l).count ∧
      absOf (view l1) fl' ul' = aRelease aw (absOf (view l) fl ul) a ∧
      (∀ i : Nat, (i : Int) < (view l1).count → i ∉ fl' ++ ul' →
        (view l1).addr (.entry i) = 0) ∧
      ((∀ i ∈ ul, (view l).addr (.entry i) ≠ a) → l1 = l) := by
  rcases release_spec aw fuel l a rep hf1 hf2 with ⟨h1, e⟩ |
    ⟨pre, u, post, fpre, fpost, l1, eul, h1, h2, efl, q1, q2, e, d1, c1, r1⟩
  · refine ⟨l, fl, ul, e, rep, rfl, ?_, hempty, fun _ => rfl⟩
    simp [aRelease, absOf, takeReg_none a (view l) ul h1]
  · subst eul efl
    have hnd := rep.nodup
    have hxs : (fpre ++ u :: fpost).Nodup := by
      have h := hnd
      rw [List.nodup_append] at h
      have hu : u ∉ fpre ++ fpost := fun hm => h.2.2 hm (by simp)
      have h3 := h.1
      rw [List.nodup_append] at h3 ⊢
      simp only [List.mem_append, not_or] at hu
      refine ⟨h3.1, List.nodup_cons.2 ⟨hu.2, h3.2.1⟩, ?_⟩
      intro b hb hc
      rcases List.mem_cons.1 hc with rfl | hc
      · exact hu.1 hb
      · exact h3.2.2 hb hc
    obtain ⟨k1, k2, k3, k4, k5⟩ := coalesce_regs aw (fpre ++ u :: fpost)
      (releaseData (dataOf (view l)) u) hxs
    obtain ⟨m1, m2, m3⟩ := releaseData_apply (dataOf (view l)) u
    have hreg : ∀ i, reg (view l1) i = regD (coalesce aw (releaseData (dataOf (view l)) u)
        (fpre ++ u :: fpost)).1 i := by
      intro i; rw [← d1]; rfl
    have hregl : ∀ i, regD (releaseData (dataOf (view l)) u) i = reg (view l) i := m1
    have hused : ∀ i ∈ pre ++ post, i ∉ fpre ++ u :: fpost := by
      intro i hi hm
      rw [List.nodup_append] at hnd
      simp only [List.mem_append, List.mem_cons] at hm hi
      rcases hm with hm | rfl | hm
      · exact hnd.2.2 (List.mem_append_left _ hm) (by simp only [List.mem_append, List.mem_cons]; tauto)
      · have := hnd.2.1
        rw [List.nodup_append] at this
        simp only [List.nodup_cons] at this
        rcases hi with hi | hi
        · exact this.2.2 hi (by simp)
        · exact this.2.1.1 hi
      · exact hnd.2.2 (List.mem_append_right _ hm) (by simp only [List.mem_append, List.mem_cons]; tauto)
    refine ⟨l1, _, _, e, r1, c1, ?_, ?_, ?_⟩
    · have htake := takeReg_split a (view l) u post h2 pre h1
      simp only [aRelease, absOf, htake, AState.mk.injEq]
      refine ⟨?_, ?_, ?_, ?_⟩
      · rw [List.map_congr_left (fun i _ => hreg i), k1,
          List.map_congr_left (fun i _ => hregl i)]
        rw [show reg (view l) u = ((view l).addr (.entry u), (view l).len (.entry u)) from rfl]
        rw [insertReg_split (view l) _ fpre fpost (by simpa [h2] using q1) (by simpa [h2] using q2)]
        simp [reg]
      · refine List.map_congr_left (fun i hi => ?_)
        rw [hreg i, k2 i (hused i hi), hregl i]
      · have : (view l1).len = (coalesce aw (releaseData (dataOf (view l)) u)
            (fpre ++ u :: fpost)).1.len := by rw [← d1]; rfl
        rw [this, k4, m2]; rfl
      · have : (view l1).len = (coalesce aw (releaseData (dataOf (view l)) u)
            (fpre ++ u :: fpost)).1.len := by rw [← d1]; rfl
        rw [this, k5, m3]; rfl
    · intro i hi hni
      rw [c1] at hi
      have ha : (view l1).addr (.entry i) = (coalesce aw (releaseData (dataOf (view l)) u)
            (fpre ++ u :: fpost)).1.addr (.entry i) := by rw [← d1]; rfl
      simp only [List.mem_append, not_or] at hni
      by_cases hm : i ∈ fpre ++ u :: fpost
      · rw [ha]; exact k3 i hm hni.1
      · have h3 := k2 i hm
        rw [hregl i] at h3
        have h4 : (view l1).addr (.entry i) = (view l).addr (.entry i) := by
          have := hreg i
          rw [h3] at this
          exact congrArg Prod.fst this
        rw [h4]
        refine hempty i hi ?_
        simp only [List.mem_append, List.mem_cons, not_or] at hm ⊢
        exact ⟨⟨hm.1, hm.2.2⟩, hni.2.1, hm.2.1, hni.2.2⟩
    · intro hall
      exact absurd h2 (hall u (by simp))

theorem Disj.symm {r q : Nat × Nat} (h : Disj r q) : Disj q r := by
  unfold Disj at *; omega

theorem sub32_eq {a b : Nat} (h1 : b ≤ a) (h2 : a < 2 ^ 32) : sub32 a b = a - b := by
  unfold sub32
  rw [show a + 2 ^ 32 - b = (a - b) + 2 ^ 32 by omega, Nat.add_mod_right]
  exact Nat.mod_eq_of_lt (by omega)

theorem u32_eq {a : Nat} (h : a < 2 ^ 32) : u32 a = a := Nat.mod_eq_of_lt h

theorem carveFree_some (aw n : Nat) : ∀ (fr : List (Nat × Nat)) (a : Nat)
    (fr' : List (Nat × Nat)), carveFree aw n fr = some (a, fr') →
    ∃ P L Q, fr = P ++ (a, L) :: Q ∧ n ≤ L ∧ (∀ r ∈ P, r.2 < n) ∧
      fr' = P ++ (if sub32 L n ≤ 0 then Q else ((a + n) % 2 ^ aw, sub32 L n) :: Q) := by
  intro fr
  induction fr with
  | nil => intro a fr' h; simp [carveFree] at h
  | cons r rest ih =>
    intro a fr' h
    by_cases hn : n ≤ r.2
    · simp only [carveFree, hn, if_true, Option.some.injEq, Prod.mk.injEq] at h
      refine ⟨[], r.2, rest, by simp [← h.1], hn, by simp, ?_⟩
      rw [← h.2, ← h.1]; rfl
    · simp only [carveFree, hn, if_false, Option.map_eq_some', Prod.mk.injEq] at h
      obtain ⟨q, hq, h1, h2⟩ := h
      obtain ⟨P, L, Q, e1, e2, e3, e4⟩ := ih q.1 q.2 hq
      refine ⟨r :: P, L, Q, by rw [e1, ← h1]; rfl, e2, ?_, by rw [← h2, e4, ← h1]; rfl⟩
      intro x hx
      rcases List.mem_cons.1 hx with rfl | hx
      · omega
      · exact e3 x hx

theorem carveFree_isNone (aw n : Nat) : ∀ (fr : List (Nat × Nat)),
    carveFree aw n fr = none ↔ ∀ r ∈ fr, r.2 < n := by
  intro fr
  induction fr with
  | nil => simp [carveFree]
  | cons r rest ih =>
    by_cases hn : n ≤ r.2
    · simp only [carveFree, hn, if_true, reduceCtorEq, List.mem_cons, forall_eq_or_imp, false_iff,
        not_and]
      intro h; omega
    · simp only [carveFree, hn, if_false, Option.map_eq_none', ih, List.mem_cons,
        forall_eq_or_imp]
      constructor
      · intro h; exact ⟨by omega, h⟩
      · intro h; exact h.2

theorem takeReg_some (a : Nat) : ∀ (us : List (Nat × Nat)) (t : Nat × Nat)
    (us' : List (Nat × Nat)), takeReg a us = some (t, us') →
    ∃ P m Q, us = P ++ (a, m) :: Q ∧ t = (a, m) ∧ (∀ r ∈ P, r.1 ≠ a) ∧ us' = P ++ Q := by
  intro us
  induction us with
  | nil => intro t us' h; simp [takeReg] at h
  | cons r rest ih =>
    intro t us' h
    by_cases hn : r.1 = a
    · simp only [takeReg, hn, if_true, Option.some.injEq, Prod.mk.injEq] at h
      refine ⟨[], r.2, rest, by simp [← hn], by rw [← h.1, ← hn], by simp, by rw [← h.2]; rfl⟩
    · simp only [takeReg, hn, if_false, Option.map_eq_some', Prod.mk.injEq] at h
      obtain ⟨q, hq, h1, h2⟩ := h
      obtain ⟨P, m, Q, e1, e2, e3, e4⟩ := ih q.1 q.2 hq
      refine ⟨r :: P, m, Q, by rw [e1]; rfl, by rw [← h1, e2], ?_, by rw [← h2, e4]; rfl⟩
      intro x hx
      rcases List.mem_cons.1 hx with rfl | hx
      · exact hn
      · exact e3 x hx

theorem takeReg_isNone (a : Nat) : ∀ (us : List (Nat × Nat)),
    takeReg a us = none ↔ ∀ r ∈ us, r.1 ≠ a := by
  intro us
  induction us with
  | nil => simp [takeReg]
  | cons r rest ih =>
    by_cases hn : r.1 = a
    · simp [takeReg, hn]
    · simp [takeReg, hn, ih]

theorem insertReg_perm (r : Nat × Nat) : ∀ (xs : List (Nat × Nat)),
    (insertReg r xs).Perm (r :: xs) := by
  intro xs
  induction xs with
  | nil => exact List.Perm.refl _
  | cons q rest ih =>
    simp only [insertReg]
    split
    · exact List.Perm.refl _
    · exact (List.Perm.cons q ih).trans (List.Perm.swap r q rest)

theorem disj_sub {r q : Nat × Nat} (h : Disj r q) {a l : Nat} (h1 : r.1 ≤ a)
    (h2 : a + l ≤ r.1 + r.2) : Disj (a, l) q := by
  unfold Disj at *; simp only at *; omega

theorem aAssign_some (aw : Nat) (s s' : AState) (n a : Nat)
    (h : aAssign aw s n = some (s', a)) :
    ∃ P L Q, s.free = P ++ (a, L) :: Q ∧ n ≤ L ∧ (∀ r ∈ P, r.2 < n) ∧
      s' = ⟨P ++ (if sub32 L n ≤ 0 then Q else ((a + n) % 2 ^ aw, sub32 L n) :: Q),
        insertReg (a, n) s.used, sub32 s.flen n, u32 (s.ulen + n)⟩ := by
  simp only [aAssign, Option.map_eq_some', Prod.mk.injEq] at h
  obtain ⟨q, hq, h1, h2⟩ := h
  obtain ⟨P, L, Q, e1, e2, e3, e4⟩ := carveFree_some aw n s.free q.1 q.2 hq
  subst h2
  exact ⟨P, L, Q, e1, e2, e3, by rw [← h1, e4]⟩

theorem ainv_assign {aw base total : Nat} (hw : base + total ≤ 2 ^ aw) (ht : total < 2 ^ 32)
    {s s' : AState} {n a : Nat} (inv : AInv base total s)
    (h : aAssign aw s n = some (s', a)) :
    AInv base total s' ∧ base ≤ a ∧ a + n ≤ base + total := by
  obtain ⟨P, L, Q, e1, e2, e3, e4⟩ := aAssign_some aw s s' n a h
  have hmem : (a, L) ∈ s.free ++ s.used := by rw [e1]; simp
  obtain ⟨hba, hbL⟩ := inv.inb _ hmem
  simp only at hba hbL
  have hsumf := inv.sumf
  rw [e1] at hsumf
  simp only [List.map_append, List.map_cons, List.sum_append, List.sum_cons] at hsumf
  have hLf : L ≤ s.flen := by omega
  have htot := inv.tot
  have hL32 : L < 2 ^ 32 := by omega
  have hsub : sub32 L n = L - n := sub32_eq e2 hL32
  have hfl : sub32 s.flen n = s.flen - n := sub32_eq (by omega) (by omega)
  have hul : u32 (s.ulen + n) = s.ulen + n := u32_eq (by omega)
  have hperm0 : (s.free ++ s.used).Perm ((a, L) :: (P ++ Q ++ s.used)) := by
    rw [e1]
    simp only [List.append_assoc, List.cons_append]
    exact List.perm_middle
  have hd0 := (List.Perm.pairwise_iff (fun h => Disj.symm h) hperm0).1 inv.disj
  rw [List.pairwise_cons] at hd0
  have hin0 : ∀ r ∈ P ++ Q ++ s.used, base ≤ r.1 ∧ r.1 + r.2 ≤ base + total := by
    intro r hr
    exact inv.inb r ((hperm0.mem_iff).2 (List.mem_cons_of_mem _ hr))
  have hpu := insertReg_perm (a, n) s.used
  refine ⟨?_, hba, by omega⟩
  rw [hsub, hfl, hul] at e4
  subst e4
  by_cases hz : L - n ≤ 0
  · have hLn : L = n := by omega
    simp only [hz, if_true]
    have hperm1 : ((P ++ Q) ++ insertReg (a, n) s.used).Perm ((a, n) :: (P ++ Q ++ s.used)) := by
      refine (List.Perm.append_left _ hpu).trans ?_
      simp only [List.append_assoc]
      exact (List.Perm.append_left P List.perm_middle).trans List.perm_middle
    refine ⟨?_, ?_, ?_, ?_, ?_⟩
    · intro r hr
      rcases List.mem_cons.1 ((hperm1.mem_iff).1 hr) with rfl | hr
      · simp only; omega
      · exact hin0 r hr
    · simp only [List.map_append, List.sum_append]; omega
    · simp only [(hpu.map Prod.snd).sum_eq, List.map_cons, List.sum_cons]
      have := inv.sumu; omega
    · simp only; omega
    · refine (List.Perm.pairwise_iff (fun h => Disj.symm h) hperm1).2 ?_
      rw [List.pairwise_cons]
      exact ⟨fun q hq => disj_sub (hd0.1 q hq) (le_refl _) (by simp only; omega), hd0.2⟩
  · have hLn : n < L := by omega
    have hmod : (a + n) % 2 ^ aw = a + n := Nat.mod_eq_of_lt (by omega)
    simp only [hz, if_false, hmod]
    have hperm1 : ((P ++ (a + n, L - n) :: Q) ++ insertReg (a, n) s.used).Perm
        ((a + n, L - n) :: (a, n) :: (P ++ Q ++ s.used)) := by
      refine (List.Perm.append_left _ hpu).trans ?_
      simp only [List.append_assoc, List.cons_append]
      refine List.perm_middle.trans (List.Perm.cons _ ?_)
      exact (List.Perm.append_left P List.perm_middle).trans List.perm_middle
    refine ⟨?_, ?_, ?_, ?_, ?_⟩
    · intro r hr
      rcases List.mem_cons.1 ((hperm1.mem_iff).1 hr) with rfl | hr
      · simp only; omega
      rcases List.mem_cons.1 hr with rfl | hr
      · simp only; omega
      · exact hin0 r hr
    · simp only [List.map_append, List.map_cons, List.sum_append, List.sum_cons]; omega
    · simp only [(hpu.map Prod.snd).sum_eq, List.map_cons, List.sum_cons]
      have := inv.sumu; omega
    · simp only; omega
    · refine (List.Perm.pairwise_iff (fun h => Disj.symm h) hperm1).2 ?_
      rw [List.pairwise_cons, List.pairwise_cons]
      refine ⟨?_, fun q hq => disj_sub (hd0.1 q hq) (le_refl _) (by simp only; omega), hd0.2⟩
      intro q hq
      rcases List.mem_cons.1 hq with rfl | hq
      · right; left; simp
      · exact disj_sub (hd0.1 q hq) (by simp only; omega) (by simp only; omega)

theorem disj_merge {z c q : Nat × Nat} (h1 : Disj z c) (h2 : Disj z q) (h : c.1 + c.2 = q.1) :
    Disj z (c.1, c.2 + q.2) := by
  unfold Disj at *; simp only at *; omega

theorem coalesceFromR_inv {aw base total : Nat} (hb : 0 < base) (hw : base + total ≤ 2 ^ aw)
    (ht : total < 2 ^ 32) : ∀ (rest : List (Nat × Nat)) (cur : Nat × Nat),
    (∀ r ∈ cur :: rest, base ≤ r.1 ∧ r.1 + r.2 ≤ base + total) →
    (∀ r ∈ coalesceFromR aw cur rest, base ≤ r.1 ∧ r.1 + r.2 ≤ base + total) ∧
    ((coalesceFromR aw cur rest).map Prod.snd).sum = cur.2 + (rest.map Prod.snd).sum ∧
    (∀ z, (∀ w ∈ cur :: rest, Disj z w) → ∀ w ∈ coalesceFromR aw cur rest, Disj z w) ∧
    ((cur :: rest).Pairwise Disj → (coalesceFromR aw cur rest).Pairwise Disj) := by
  intro rest
  induction rest with
  | nil => intro cur h; simp [coalesceFromR]; exact h cur (by simp)
  | cons q rest ih =>
    intro cur h
    have hc := h cur (by simp)
    have hq := h q (by simp)
    by_cases hm : (cur.1 + cur.2) % 2 ^ aw = q.1
    · have hlt : cur.1 + cur.2 < 2 ^ aw := by
        rcases Nat.lt_or_ge (cur.1 + cur.2) (2 ^ aw) with h1 | h1
        · exact h1
        · have : cur.1 + cur.2 = 2 ^ aw := by omega
          rw [this, Nat.mod_self] at hm
          omega
      have he : cur.1 + cur.2 = q.1 := by rw [Nat.mod_eq_of_lt hlt] at hm; exact hm
      have hu : u32 (cur.2 + q.2) = cur.2 + q.2 := u32_eq (by omega)
      have hin : ∀ r ∈ (cur.1, cur.2 + q.2) :: rest, base ≤ r.1 ∧ r.1 + r.2 ≤ base + total := by
        intro r hr
        rcases List.mem_cons.1 hr with rfl | hr
        · simp only; omega
        · exact h r (by simp [hr])
      obtain ⟨i1, i2, i3, i4⟩ := ih (cur.1, cur.2 + q.2) hin
      simp only [coalesceFromR, hm, if_true, hu]
      refine ⟨i1, ?_, ?_, ?_⟩
      · rw [i2]; simp only [List.map_cons, List.sum_cons]; omega
      · intro z hz
        refine i3 z ?_
        intro w hw
        rcases List.mem_cons.1 hw with rfl | hw
        · exact disj_merge (hz cur (by simp)) (hz q (by simp)) he
        · exact hz w (by simp [hw])
      · intro hp
        rw [List.pairwise_cons, List.pairwise_cons] at hp
        refine i4 ?_
        rw [List.pairwise_cons]
        refine ⟨fun w hw => ?_, hp.2.2⟩
        exact (disj_merge (hp.1 w (by simp [hw])).symm (hp.2.1 w hw).symm he).symm
    · obtain ⟨i1, i2, i3, i4⟩ := ih q (fun r hr => h r (List.mem_cons_of_mem _ hr))
      simp only [coalesceFromR, hm, if_false]
      refine ⟨?_, ?_, ?_, ?_⟩
      · intro r hr
        rcases List.mem_cons.1 hr with rfl | hr
        · exact hc
        · exact i1 r hr
      · simp only [List.map_cons, List.sum_cons, i2]
      · intro z hz w hw
        rcases List.mem_cons.1 hw with rfl | hw
        · exact hz _ (by simp)
        · exact i3 z (fun w hw => hz w (List.mem_cons_of_mem _ hw)) w hw
      · intro hp
        rw [List.pairwise_cons] at hp ⊢
        exact ⟨fun w hw => i3 cur hp.1 w hw, i4 hp.2⟩

theorem coalesceR_inv {aw base total : Nat} (hb : 0 < base) (hw : base + total ≤ 2 ^ aw)
    (ht : total < 2 ^ 32) (xs : List (Nat × Nat))
    (h : ∀ r ∈ xs, base ≤ r.1 ∧ r.1 + r.2 ≤ base + total) :
    (∀ r ∈ coalesceR aw xs, base ≤ r.1 ∧ r.1 + r.2 ≤ base + total) ∧
    ((coalesceR aw xs).map Prod.snd).sum = (xs.map Prod.snd).sum ∧
    (∀ z, (∀ w ∈ xs, Disj z w) → ∀ w ∈ coalesceR aw xs, Disj z w) ∧
    (xs.Pairwise Disj → (coalesceR aw xs).Pairwise Disj) := by
  cases xs with
  | nil => simp [coalesceR]
  | cons x xs =>
    obtain ⟨i1, i2, i3, i4⟩ := coalesceFromR_inv hb hw ht xs x h
    exact ⟨i1, by simpa using i2, i3, i4⟩

theorem aRelease_some (aw : Nat) (s : AState) (a : Nat) :
    ((∀ r ∈ s.used, r.1 ≠ a) ∧ aRelease aw s a = s) ∨
    (∃ P m Q, s.used = P ++ (a, m) :: Q ∧ (∀ r ∈ P, r.1 ≠ a) ∧
      aRelease aw s a = ⟨coalesceR aw (insertReg (a, m) s.free), P ++ Q,
        u32 (s.flen + m), sub32 s.ulen m⟩) := by
  cases h : takeReg a s.used with
  | none => left; exact ⟨(takeReg_isNone a s.used).1 h, by simp [aRelease, h]⟩
  | some t =>
    right
    obtain ⟨P, m, Q, e1, e2, e3, e4⟩ := takeReg_some a s.used t.1 t.2 h
    refine ⟨P, m, Q, e1, e3, ?_⟩
    simp only [aRelease, h, e2, e4]

theorem ainv_release {aw base total : Nat} (hb : 0 < base) (hw : base + total ≤ 2 ^ aw)
    (ht : total < 2 ^ 32) {s : AState} (a : Nat) (inv : AInv base total s) :
    AInv base total (aRelease aw s a) := by
  rcases aRelease_some aw s a with ⟨_, e⟩ | ⟨P, m, Q, e1, _, e⟩
  · rw [e]; exact inv
  rw [e]
  have hpf := insertReg_perm (a, m) s.free
  have hperm0 : (s.free ++ s.used).Perm (insertReg (a, m) s.free ++ (P ++ Q)) := by
    rw [e1]
    refine List.Perm.trans ?_ (List.Perm.append_right _ hpf.symm)
    exact (List.Perm.append_left s.free List.perm_middle).trans List.perm_middle
  have hin : ∀ r ∈ insertReg (a, m) s.free ++ (P ++ Q),
      base ≤ r.1 ∧ r.1 + r.2 ≤ base + total :=
    fun r hr => inv.inb r ((hperm0.mem_iff).2 hr)
  have hd := (List.Perm.pairwise_iff (fun h => Disj.symm h) hperm0).1 inv.disj
  rw [List.pairwise_append] at hd
  obtain ⟨i1, i2, i3, i4⟩ := @coalesceR_inv aw base total hb hw ht (insertReg (a, m) s.free)
    (fun r hr => hin r (List.mem_append_left _ hr))
  have hsu := inv.sumu
  rw [e1] at hsu
  simp only [List.map_append, List.map_cons, List.sum_append, List.sum_cons] at hsu
  have hsf := inv.sumf
  have htot := inv.tot
  have hfl : u32 (s.flen + m) = s.flen + m := u32_eq (by omega)
  have hul : sub32 s.ulen m = s.ulen - m := sub32_eq (by omega) (by omega)
  refine ⟨?_, ?_, ?_, ?_, ?_⟩
  · intro r hr
    rcases List.mem_append.1 hr with hr | hr
    · exact i1 r hr
    · exact hin r (List.mem_append_right _ hr)
  · simp only [i2, (hpf.map Prod.snd).sum_eq, List.map_cons, List.sum_cons, hfl]; omega
  · simp only [List.map_append, List.sum_append, hul]; omega
  · simp only [hfl, hul]; omega
  · rw [List.pairwise_append]
    refine ⟨i4 hd.1, hd.2.1, ?_⟩
    intro x hx o ho
    exact (i3 o (fun w hw => (hd.2.2 w hw o ho).symm) x hx).symm

theorem init_spec (fuel base total : Nat) (es : Nat → mem_region) (count : Int)
    (old : mem_region_list) (hf : 0 < fuel) (hc : 2 ≤ count) :
    ∃ l0, mem_region_list_init fuel (some old) base total (some es) count = some (true, some l0) ∧
      Rep (view l0) [0] [] ∧ (view l0).count = count ∧
      (view l0).addr (.entry 0) = base ∧ (view l0).len (.entry 0) = total ∧
      (∀ i : Nat, i ≠ 0 → (i : Int) < count →
        (view l0).addr (.entry i) = 0 ∧ (view l0).len (.entry i) = 0) ∧
      (view l0).len .free = total ∧ (view l0).len .used = 0 := by
  have hc2 : ¬ count < 2 := by omega
  obtain ⟨k, hk⟩ : ∃ k, count.toNat = k + 1 := ⟨count.toNat - 1, by omega⟩
  let l1 : mem_region_list :=
    { used := ⟨0, 0, .used, .used⟩
      free := ⟨base, total, .free, .free⟩
      entries := clear_entries es count
      entry_count := count }
  have hg : get_free_entry l1 = .entry 0 := by
    have h0 : (l1.entries 0).address = 0 := by
      simp only [l1, clear_entries]
      rw [if_pos (by simpa using (by omega : (0 : Int) < count))]
    rw [get_free_entry, show l1.entry_count.toNat = k + 1 from hk, get_free_entry_loop,
      if_pos h0]
  obtain ⟨l2, e2, v2⟩ := set_address_spec l1 (p := .entry 0) base (by simp)
  obtain ⟨l3, e3, v3⟩ := set_length_spec l2 (p := .entry 0) total (by simp)
  have s1 : Seg (view l3) .free ([] ++ []) .free := by
    rw [v3, v2]; exact ⟨rfl, rfl⟩
  have s2 : Seg (view l3) .used [] .used := by
    rw [v3, v2]; exact ⟨rfl, rfl⟩
  obtain ⟨pre, post, e, _, _, q3⟩ := find_insert_entry_spec l3 (Or.inl rfl) base [] fuel s1
    (by simpa using hf)
  have hpre : pre = [] := by
    cases pre with
    | nil => rfl
    | cons a as => simp at e
  have hpost : post = [] := by
    cases post with
    | nil => rfl
    | cons a as => simp at e
  subst hpre hpost
  obtain ⟨l4, e4, a4, n4, c4, t1, t2⟩ := insert_entry_seg l3 (Or.inl rfl) (Or.inr rfl)
    (by simp) [] [] [] 0 s1 s2 (by simp) (by simp)
  have hentry : ∀ i : Nat, (i : Int) < count → l1.entries i = ⟨0, 0, .null, .null⟩ := by
    intro i hi
    simp only [l1, clear_entries, hi, if_true]
  refine ⟨l4, ?_, ⟨t1, t2, by simp, ?_⟩, by rw [c4, v3, v2]; rfl, ?_, ?_, ?_, ?_, ?_⟩
  · rw [mem_region_list_init]
    simp only [hc2, if_false]
    rw [hg, e2, Option.some_bind, e3, Option.some_bind, q3, Option.some_bind, e4,
      Option.some_bind]
  · intro i hi
    simp only [List.append_nil, List.mem_singleton] at hi
    subst hi
    rw [c4, v3, v2]
    show (0 : Int) < count
    omega
  · rw [a4, v3, v2]; simp
  · rw [n4, v3]; simp
  · intro i hi0 hic
    have hne : Ptr.entry i ≠ Ptr.entry 0 := by simpa using hi0
    rw [a4, n4, v3, v2]
    simp only [Function.update_apply, hne, if_false]
    have := hentry i hic
    exact ⟨congrArg mem_region.address this, congrArg mem_region.length this⟩
  · rw [n4, v3, v2]; simp; rfl
  · rw [n4, v3, v2]; simp; rfl

theorem init_some {fuel base total : Nat} {es : Nat → mem_region} {count : Int}
    {old l0 : mem_region_list}
    (h : mem_region_list_init fuel (some old) base total (some es) count = some (true, some l0)) :
    0 < fuel ∧ 2 ≤ count := by
  rw [mem_region_list_init] at h
  by_cases hc : count < 2
  · simp [hc] at h
  · refine ⟨?_, by omega⟩
    rcases Nat.eq_zero_or_pos fuel with rfl | hf
    · exfalso
      simp only [hc, if_false] at h
      obtain ⟨a, _, h1⟩ := Option.bind_eq_some.1 h
      obtain ⟨b, _, h2⟩ := Option.bind_eq_some.1 h1
      obtain ⟨c, h3, _⟩ := Option.bind_eq_some.1 h2
      simp only [find_insert_entry, load, Option.some_bind, find_insert_entry_loop] at h3
      cases h3
    · exact hf

theorem AInv.mark {base total : Nat} (hb : 0 < base) {v : View} {fl ul : List Nat}
    (inv : AInv base total (absOf v fl ul)) : ∀ i ∈ fl ++ ul, v.addr (.entry i) ≠ 0 := by
  intro i hi
  have : reg v i ∈ (absOf v fl ul).free ++ (absOf v fl ul).used := by
    simp only [absOf, ← List.map_append]
    exact List.mem_map_of_mem _ hi
  have := (inv.inb _ this).1
  simp only [reg] at this
  omega

theorem rep_length_le {v : View} {fl ul : List Nat} (rep : Rep v fl ul) :
    ((fl ++ ul).length : Int) ≤ max v.count 0 := by
  have hsub : (fl ++ ul).toFinset ⊆ Finset.range (v.count.toNat) := by
    intro i hi
    simp only [List.mem_toFinset] at hi
    have := rep.bound i hi
    simp only [Finset.mem_range]
    omega
  have h1 := Finset.card_le_card hsub
  rw [List.toFinset_card_of_nodup rep.nodup, Finset.card_range] at h1
  omega

theorem ginv_assign {aw base total : Nat} (hb : 0 < base) (hw : base + total ≤ 2 ^ aw)
    (ht : total < 2 ^ 32) {l l1 : mem_region_list} {fuel len r : Nat}
    (inv : GInv base total l) (h : mem_region_list_assign aw fuel l len = some (l1, r)) :
    GInv base total l1 := by
  obtain ⟨fl, ul, rep, hempty, ainv⟩ := inv
  rcases Nat.eq_zero_or_pos len with rfl | hlen
  · rw [mem_region_list_assign, if_pos (le_refl _)] at h
    cases h
    exact ⟨fl, ul, rep, hempty, ainv⟩
  have h' := mem_region_list_assign_mono aw fuel (fl.length + ul.length + 1) l len _ h
  rcases assign_refines aw (fuel + (fl.length + ul.length + 1)) l len rep hlen (by omega)
    (by omega) (ainv.mark hb) hempty with ⟨e, _⟩ | ⟨l2, r2, fl', ul', e, _, rep', c, ha, hempty'⟩
  · rw [e] at h'; cases h'
    exact ⟨fl, ul, rep, hempty, ainv⟩
  · rw [e] at h'; cases h'
    exact ⟨fl', ul', rep', hempty', (ainv_assign hw ht ainv ha).1⟩

theorem ginv_release {aw base total : Nat} (hb : 0 < base) (hw : base + total ≤ 2 ^ aw)
    (ht : total < 2 ^ 32) {l l1 : mem_region_list} {fuel a : Nat}
    (inv : GInv base total l) (h : mem_region_list_release aw fuel l a = some l1) :
    GInv base total l1 := by
  obtain ⟨fl, ul, rep, hempty, ainv⟩ := inv
  have h' := mem_region_list_release_mono aw fuel (fl.length + ul.length + 2) l a _ h
  obtain ⟨l2, fl', ul', e, rep', c, ha, hempty', _⟩ := release_refines aw
    (fuel + (fl.length + ul.length + 2)) l a rep (by omega) (by omega) hempty
  rw [e] at h'; cases h'
  exact ⟨fl', ul', rep', hempty', ha ▸ ainv_release hb hw ht a ainv⟩

theorem ginv_init {base total fuel : Nat} {es : Nat → mem_region} {count : Int}
    {old l0 : mem_region_list}
    (h : mem_region_list_init fuel (some old) base total (some es) count = some (true, some l0)) :
    GInv base total l0 := by
  obtain ⟨hf, hc⟩ := init_some h
  obtain ⟨l, e, rep, c, a0, n0, hoth, lf, lu⟩ := init_spec fuel base total es count old hf hc
  rw [e] at h; cases h
  refine ⟨[0], [], rep, ?_, ?_⟩
  · intro i hi hni
    rw [c] at hi
    exact (hoth i (by simpa using hni) hi).1
  · refine ⟨?_, ?_, ?_, ?_, ?_⟩ <;> simp [absOf, reg, a0, n0, lf, lu]

theorem Reachable.ginv {aw maxlen base total fuel : Nat} {es : Nat → mem_region} {count : Int}
    {old l0 l : mem_region_list} (hb : 0 < base) (hw : base + total ≤ 2 ^ aw)
    (ht : total < 2 ^ 32)
    (h : mem_region_list_init fuel (some old) base total (some es) count = some (true, some l0))
    (hr : Reachable aw maxlen l0 l) : GInv base total l := by
  induction hr with
  | init => exact ginv_init h
  | assign fuel len r _ _ e ih => exact ginv_assign hb hw ht ih e
  | release fuel a _ _ e ih => exact ginv_release hb hw ht ih e

theorem assignData_alias (aw : Nat) (d : Data) (x n : Nat) :
    (assignData aw d x x n).addr (.entry x) = 0 ∧
    (assignData aw d x x n).len (.entry x) = 0 ∧
    (∀ i, i ≠ x → (assignData aw d x x n).addr (.entry i) = d.addr (.entry i)) ∧
    (assignData aw d x x n).len .free = sub32 (d.len .free) n ∧
    (assignData aw d x x n).len .used = u32 (d.len .used + n) ∧
    (carve aw d x x n).len (.entry x) = 0 := by
  have hc : (carve aw d x x n).len (.entry x) = 0 := by simp [carve, sub32]
  have hf : (carve aw d x x n).len .free = d.len .free := by simp [carve]
  have hu : (carve aw d x x n).len .used = d.len .used := by simp [carve]
  refine ⟨?_, ?_, ?_, ?_, ?_, hc⟩ <;>
    simp [assignData, account, dropEmpty, hc, hf, hu, Function.update_apply]
  intro i hi
  simp [carve, Function.update_apply, hi]

theorem get_free_entry_zero (l : mem_region_list) (hc : 1 ≤ (view l).count)
    (h0 : (view l).addr (.entry 0) = 0) : get_free_entry l = .entry 0 := by
  rcases get_free_entry_spec l with ⟨_, h⟩ | ⟨x, _, _, hm, g⟩
  · have hc' : (1 : Int) ≤ l.entry_count := hc
    exact absurd h0 (h 0 (by omega))
  · rcases Nat.eq_zero_or_pos x with rfl | hx
    · exact g
    · exact absurd h0 (hm 0 hx)

theorem d2inv_assign {aw total : Nat} (ht : total < 2 ^ 32) {l l1 : mem_region_list}
    {fuel len r : Nat} (inv : D2Inv total l)
    (h : mem_region_list_assign aw fuel l len = some (l1, r)) : D2Inv total l1 ∧ r = 0 := by
  obtain ⟨hc, hz, htot, hs⟩ := inv
  rcases Nat.eq_zero_or_pos len with rfl | hlen
  · rw [mem_region_list_assign, if_pos (le_refl _)] at h
    cases h
    exact ⟨⟨hc, hz, htot, hs⟩, rfl⟩
  have hc' : (0 : Int) < (view l).count := by omega
  have hg := get_free_entry_zero l (by omega) (hz 0 (by simpa using hc'))
  have h' := mem_region_list_assign_mono aw fuel 2 l len _ h
  rcases hs with ⟨rep, hL⟩ | ⟨rep, hL⟩
  · rcases assign_spec aw (fuel + 2) l len rep hlen (by simp) (by simp)
      (fun x hx => Or.inr (by rw [hg] at hx; cases hx; simp)) with ⟨_, e⟩ | ⟨x, _, _, e⟩ |
      ⟨x, pre, f, post, upre, upost, l2, g, efl, _, h2, eul, _, _, e, d1, c1, r1⟩
    · rw [e] at h'; cases h'; exact ⟨⟨hc, hz, htot, Or.inl ⟨rep, hL⟩⟩, rfl⟩
    · rw [e] at h'; cases h'; exact ⟨⟨hc, hz, htot, Or.inl ⟨rep, hL⟩⟩, rfl⟩
    · rw [e] at h'; cases h'
      rw [hg] at g; cases g
      have hpre : pre = [] := by
        cases pre with
        | nil => rfl
        | cons a as => cases as <;> simp at efl
      subst hpre
      simp only [List.nil_append, List.cons.injEq] at efl
      obtain ⟨rfl, rfl⟩ := efl
      have hupre : upre = [] := by
        cases upre with
        | nil => rfl
        | cons a as => simp at eul
      subst hupre
      have hupost : upost = [] := by
        cases upost with
        | nil => rfl
        | cons a as => simp at eul
      subst hupost
      obtain ⟨a1, a2, a3, a4, a5, a6⟩ := assignData_alias aw (dataOf (view l)) 0 (needs_length len)
      rw [a6] at r1
      simp only [le_refl, if_true, List.nil_append] at r1
      have ha : (view l1).addr = (assignData aw (dataOf (view l)) 0 0 (needs_length len)).addr := by
        rw [← d1]; rfl
      have hl : (view l1).len = (assignData aw (dataOf (view l)) 0 0 (needs_length len)).len := by
        rw [← d1]; rfl
      have h2' : needs_length len ≤ (view l).len .free := le_trans h2 hL
      refine ⟨⟨by rw [c1]; exact hc, ?_, ?_, Or.inr ⟨r1, by rw [hl, a2]⟩⟩, a1⟩
      · intro i hi
        rw [c1] at hi
        rcases Nat.eq_zero_or_pos i with rfl | hpos
        · rw [ha, a1]
        · rw [ha, a3 i (by omega)]; exact hz i hi
      · rw [hl, a4, a5]
        have e1 : (dataOf (view l)).len .free = (view l).len .free := rfl
        have e2 : (dataOf (view l)).len .used = (view l).len .used := rfl
        rw [e1, e2, sub32_eq h2' (by omega), u32_eq (by omega)]
        omega
  · rcases assign_spec aw (fuel + 2) l len rep hlen (by simp) (by simp)
      (fun x _ => Or.inl rfl) with ⟨_, e⟩ | ⟨x, _, _, e⟩ |
      ⟨x, pre, f, post, upre, upost, l2, g, efl, _, h2, eul, _, _, e, d1, c1, r1⟩
    · rw [e] at h'; cases h'; exact ⟨⟨hc, hz, htot, Or.inr ⟨rep, hL⟩⟩, rfl⟩
    · rw [e] at h'; cases h'; exact ⟨⟨hc, hz, htot, Or.inr ⟨rep, hL⟩⟩, rfl⟩
    · simp at efl

theorem d2inv_release {aw total : Nat} (ht : total < 2 ^ 32) {l l1 : mem_region_list}
    {fuel a : Nat} (inv : D2Inv total l)
    (h : mem_region_list_release aw fuel l a = some l1) : D2Inv total l1 := by
  obtain ⟨hc, hz, htot, hs⟩ := inv
  have h' := mem_region_list_release_mono aw fuel 3 l a _ h
  rcases hs with ⟨rep, hL⟩ | ⟨rep, hL⟩
  · rcases release_spec aw (fuel + 3) l a rep (by simp) (by simp) with ⟨_, e⟩ |
      ⟨pre, u, post, fpre, fpost, l2, eul, _, _, efl, _, _, e, d1, c1, r1⟩
    · rw [e] at h'; cases h'; exact ⟨hc, hz, htot, Or.inl ⟨rep, hL⟩⟩
    · simp at eul
  · rcases release_spec aw (fuel + 3) l a rep (by simp) (by simp) with ⟨_, e⟩ |
      ⟨pre, u, post, fpre, fpost, l2, eul, _, _, efl, _, _, e, d1, c1, r1⟩
    · rw [e] at h'; cases h'; exact ⟨hc, hz, htot, Or.inr ⟨rep, hL⟩⟩
    · rw [e] at h'; cases h'
      have hpre : pre = [] := by
        cases pre with
        | nil => rfl
        | cons a as => cases as <;> simp at eul
      subst hpre
      simp only [List.nil_append, List.cons.injEq] at eul
      obtain ⟨rfl, rfl⟩ := eul
      have hfpre : fpre = [] := by
        cases fpre with
        | nil => rfl
        | cons a as => simp at efl
      subst hfpre
      have hfpost : fpost = [] := by
        cases fpost with
        | nil => rfl
        | cons a as => simp at efl
      subst hfpost
      simp only [List.nil_append, coalesce, coalesceFrom] at r1 d1
      obtain ⟨m1, m2, m3⟩ := releaseData_apply (dataOf (view l)) 0
      have hreg : ∀ i, reg (view l1) i = reg (view l) i := by
        intro i
        have : reg (view l1) i = regD (releaseData (dataOf (view l)) 0) i := by rw [← d1]; rfl
        rw [this, m1]; rfl
      have hl : (view l1).len = (releaseData (dataOf (view l)) 0).len := by rw [← d1]; rfl
      have e3 : (dataOf (view l)).len (.entry 0) = 0 := hL
      refine ⟨by rw [c1]; exact hc, ?_, ?_, Or.inl ⟨r1, ?_⟩⟩
      · intro i hi
        rw [c1] at hi
        have := congrArg Prod.fst (hreg i)
        simp only [reg] at this
        rw [this]; exact hz i hi
      · rw [hl, m2, m3, e3]
        have e1 : (dataOf (view l)).len .free = (view l).len .free := rfl
        have e2 : (dataOf (view l)).len .used = (view l).len .used := rfl
        rw [e1, e2, sub32_eq (Nat.zero_le _) (by omega), u32_eq (by omega)]
        omega
      · have := congrArg Prod.snd (hreg 0)
        simp only [reg] at this
        rw [this, hL]; exact Nat.zero_le _

theorem d2inv_init {total fuel : Nat} {es : Nat → mem_region} {count : Int}
    {old l0 : mem_region_list}
    (h : mem_region_list_init fuel (some old) 0 total (some es) count = some (true, some l0)) :
    D2Inv total l0 := by
  obtain ⟨hf, hc⟩ := init_some h
  obtain ⟨l, e, rep, c, a0, n0, hoth, lf, lu⟩ := init_spec fuel 0 total es count old hf hc
  rw [e] at h; cases h
  refine ⟨by rw [c]; omega, ?_, by rw [lf, lu]; rfl, Or.inl ⟨rep, by rw [n0, lf]⟩⟩
  intro i hi
  rw [c] at hi
  rcases Nat.eq_zero_or_pos i with rfl | hpos
  · exact a0
  · exact (hoth i (by omega) hi).1

theorem Reachable.d2inv {aw maxlen total fuel : Nat} {es : Nat → mem_region} {count : Int}
    {old l0 l : mem_region_list} (ht : total < 2 ^ 32)
    (h : mem_region_list_init fuel (some old) 0 total (some es) count = some (true, some l0))
    (hr : Reachable aw maxlen l0 l) : D2Inv total l := by
  induction hr with
  | init => exact d2inv_init h
  | assign fuel len r _ _ e ih => exact (d2inv_assign ht ih e).1
  | release fuel a _ _ e ih => exact d2inv_release ht ih e

theorem regions_of_rep {l : mem_region_list} {fl ul : List Nat} (rep : Rep (view l) fl ul) :
    regions (l.entry_count.toNat + 1) l .free = some (fl.map (reg (view l))) ∧
    regions (l.entry_count.toNat + 1) l .used = some (ul.map (reg (view l))) := by
  have h := rep_length_le rep
  have hc : (view l).count = l.entry_count := rfl
  rw [hc] at h
  simp only [List.length_append, Nat.cast_add] at h
  constructor
  · exact regions_spec l (Or.inl rfl) fl _ rep.free (by omega)
  · exact regions_spec l (Or.inr rfl) ul _ rep.used (by omega)

theorem Reachable.inv {aw maxlen base total fuel : Nat} {es : Nat → mem_region} {count : Int}
    {old l0 l : mem_region_list} (hw : base + total ≤ 2 ^ aw) (ht : total < 2 ^ 32)
    (h : mem_region_list_init fuel (some old) base total (some es) count = some (true, some l0))
    (hr : Reachable aw maxlen l0 l) :
    (0 < base ∧ GInv base total l) ∨ (base = 0 ∧ D2Inv total l) := by
  rcases Nat.eq_zero_or_pos base with rfl | hb
  · exact Or.inr ⟨rfl, hr.d2inv ht h⟩
  · exact Or.inl ⟨hb, hr.ginv hb hw ht h⟩

/-- C1 (conservation): after a successful `mem_region_list_init(base, total, entries,
capacity)` over a span that lies in the address space, and after any finite sequence
of `mem_region_list_assign` / `mem_region_list_release` calls with arbitrary arguments,
`mem_region_list_get_used() + mem_region_list_get_free()` equals `total`. -/
theorem conservation (aw fuel base total : Nat) (es : Nat → mem_region) (count : Int)
    (old l0 l : mem_region_list) (hw : base + total ≤ 2 ^ aw) (ht : total < 2 ^ 32)
    (hinit : mem_region_list_init fuel (some old) base total (some es) count
      = some (true, some l0))
    (hreach : Reachable aw (2 ^ 32 - 1) l0 l) :
    mem_region_list_get_used (some l) + mem_region_list_get_free (some l) = total := by
  have e1 : mem_region_list_get_used (some l) = (view l).len .used := rfl
  have e2 : mem_region_list_get_free (some l) = (view l).len .free := rfl
  rw [e1, e2]
  rcases hreach.inv hw ht hinit with ⟨_, fl, ul, _, _, ainv⟩ | ⟨_, _, _, htot, _⟩
  · have := ainv.tot
    simp only [absOf] at this
    omega
  · omega

theorem conservation_witness :
    (4096 + 1024 ≤ 2 ^ 32 ∧ 1024 < 2 ^ 32 ∧
      mem_region_list_init 4 (some demoOld) 4096 1024 (some demoEntries) 8
        = some (true, some (demoInit 4096 1024 8)) ∧
      Reachable 32 (2 ^ 32 - 1) (demoInit 4096 1024 8)
        (demoRelease (demoAssign (demoAssign (demoInit 4096 1024 8) 100) 4294967295) 4096)) ∧
    mem_region_list_get_used (some
        (demoRelease (demoAssign (demoAssign (demoInit 4096 1024 8) 100) 4294967295) 4096)) +
      mem_region_list_get_free (some
        (demoRelease (demoAssign (demoAssign (demoInit 4096 1024 8) 100) 4294967295) 4096))
      = 1024 :=
  have hr : Reachable 32 (2 ^ 32 - 1) (demoInit 4096 1024 8)
      (demoRelease (demoAssign (demoAssign (demoInit 4096 1024 8) 100) 4294967295) 4096) :=
    Reachable.release 16 4096
      (Reachable.assign 16 4294967295 4196
        (Reachable.assign 16 100 4096 Reachable.init (by decide) rfl) (by decide) rfl)
      (by decide) rfl
  ⟨⟨by decide, by decide, rfl, hr⟩,
    conservation 32 4 4096 1024 demoEntries 8 demoOld (demoInit 4096 1024 8) _
      (by decide) (by decide) rfl hr⟩

/-- C2 (non-overlap): in every state reachable from a successful init (over a span that
lies in the address space) by any sequence of assign and release calls, walking the
free list and the used list returns, and the address ranges `[address, address+length)`
of any two distinct regions met on the two walks are disjoint. -/
theorem non_overlap (aw fuel base total : Nat) (es : Nat → mem_region) (count : Int)
    (old l0 l : mem_region_list) (hw : base + total ≤ 2 ^ aw) (ht : total < 2 ^ 32)
    (hinit : mem_region_list_init fuel (some old) base total (some es) count
      = some (true, some l0))
    (hreach : Reachable aw (2 ^ 32 - 1) l0 l) :
    ∃ fr ur, regions (l.entry_count.toNat + 1) l .free = some fr ∧
      regions (l.entry_count.toNat + 1) l .used = some ur ∧ (fr ++ ur).Pairwise Disj := by
  rcases hreach.inv hw ht hinit with ⟨_, fl, ul, rep, _, ainv⟩ | ⟨_, _, _, _, hs⟩
  · exact ⟨_, _, (regions_of_rep rep).1, (regions_of_rep rep).2, ainv.disj⟩
  · rcases hs with ⟨rep, _⟩ | ⟨rep, _⟩
    · exact ⟨_, _, (regions_of_rep rep).1, (regions_of_rep rep).2, by simp⟩
    · exact ⟨_, _, (regions_of_rep rep).1, (regions_of_rep rep).2, by simp⟩

theorem non_overlap_witness :
    (4096 + 1024 ≤ 2 ^ 32 ∧ 1024 < 2 ^ 32 ∧
      mem_region_list_init 4 (some demoOld) 4096 1024 (some demoEntries) 8
        = some (true, some (demoInit 4096 1024 8)) ∧
      Reachable 32 (2 ^ 32 - 1) (demoInit 4096 1024 8)
        (demoRelease (demoAssign (demoAssign (demoInit 4096 1024 8) 100) 50) 4096)) ∧
    ∃ fr ur,
      regions ((demoRelease (demoAssign (demoAssign (demoInit 4096 1024 8) 100) 50)
        4096).entry_count.toNat + 1)
        (demoRelease (demoAssign (demoAssign (demoInit 4096 1024 8) 100) 50) 4096) .free
        = some fr ∧
      regions ((demoRelease (demoAssign (demoAssign (demoInit 4096 1024 8) 100) 50)
        4096).entry_count.toNat + 1)
        (demoRelease (demoAssign (demoAssign (demoInit 4096 1024 8) 100) 50) 4096) .used
        = some ur ∧
      (fr ++ ur).Pairwise Disj :=
  have hr : Reachable 32 (2 ^ 32 - 1) (demoInit 4096 1024 8)
      (demoRelease (demoAssign (demoAssign (demoInit 4096 1024 8) 100) 50) 4096) :=
    Reachable.release 16 4096
      (Reachable.assign 16 50 4196
        (Reachable.assign 16 100 4096 Reachable.init (by decide) rfl) (by decide) rfl)
      (by decide) rfl
  ⟨⟨by decide, by decide, rfl, hr⟩,
    non_overlap 32 4 4096 1024 demoEntries 8 demoOld (demoInit 4096 1024 8) _
      (by decide) (by decide) rfl hr⟩

/-- C3 (code defect): a request of `0xFFFFFFFF` bytes is rounded to 0 by the
`uint32_t` arithmetic of `mem_region_list_assign` and succeeds with a used region of
length 0 at the start of the free region; the next request is carved at the same address,
so the walk of the used list meets the address `0x1000` twice and is not strictly
increasing. -/
theorem ordering_broken_by_rounding_overflow :
    mem_region_list_assign 32 16 (demoInit 4096 1024 8) 4294967295
      = some (demoAssign (demoInit 4096 1024 8) 4294967295, 4096) ∧
    mem_region_list_assign 32 16 (demoAssign (demoInit 4096 1024 8) 4294967295) 4
      = some (demoAssign (demoAssign (demoInit 4096 1024 8) 4294967295) 4, 4096) ∧
    regions 16 (demoAssign (demoAssign (demoInit 4096 1024 8) 4294967295) 4) .used
      = some [(4096, 0), (4096, 4)] ∧
    ¬ ([(4096, 0), (4096, 4)] : List (Nat × Nat)).Pairwise (fun r q => r.1 < q.1) :=
  ⟨rfl, rfl, rfl, by decide⟩

/-- C4 (code defect): with base address 0, the value of the empty marker (the setting
`MEM_ADDR 0x00000000`, `MEM_SIZE` 16 MiB, 64 entries of `jmem_impliments.c`), the first
`assign(100)` returns `NULL` (which equals the base) and books 100 used bytes, but it
empties the free list; the following `assign(50)` returns `NULL` where the claim says
`base + 100`. -/
theorem second_assign_fails_at_base_zero :
    mem_region_list_init 4 (some demoOld) 0 16777216 (some demoEntries) 64
      = some (true, some (demoInit 0 16777216 64)) ∧
    mem_region_list_assign 32 16 (demoInit 0 16777216 64) 100
      = some (demoAssign (demoInit 0 16777216 64) 100, 0) ∧
    mem_region_list_get_used (some (demoAssign (demoInit 0 16777216 64) 100)) = 100 ∧
    mem_region_list_get_free (some (demoAssign (demoInit 0 16777216 64) 100)) = 16777116 ∧
    regions 16 (demoAssign (demoInit 0 16777216 64) 100) .free = some [] ∧
    mem_region_list_assign 32 16 (demoAssign (demoInit 0 16777216 64) 100) 50
      = some (demoAssign (demoInit 0 16777216 64) 100, 0) ∧
    (0 + needs_length 100) % 2 ^ 32 = 100 ∧ (0 : Nat) ≠ 100 :=
  ⟨rfl, rfl, rfl, rfl, rfl, rfl, rfl, by decide⟩

/-- C5 (code defect): `assign(0xFFFFFFFF)` succeeds (returns the non-null address
`0x1000`) although no multiple of 4 that is at least `0xFFFFFFFF` fits in 32 bits: the
rounded length wraps to 0, the used region has length 0 and neither cached length
changes. -/
theorem rounding_overflow_reserves_nothing :
    needs_length 4294967295 = 0 ∧
    mem_region_list_assign 32 16 (demoInit 4096 1024 8) 4294967295
      = some (demoAssign (demoInit 4096 1024 8) 4294967295, 4096) ∧
    regions 16 (demoAssign (demoInit 4096 1024 8) 4294967295) .used = some [(4096, 0)] ∧
    mem_region_list_get_used (some (demoAssign (demoInit 4096 1024 8) 4294967295)) = 0 ∧
    mem_region_list_get_free (some (demoAssign (demoInit 4096 1024 8) 4294967295)) = 1024 :=
  ⟨by decide, rfl, rfl, rfl, rfl⟩

/-- C6 (code defect): from a fresh allocator `assign(0xFFFFFFFF)` succeeds with address
`0x1000`; the following `release(0x1000)` leaves two free regions, `(0x1000, 1024)` and
`(0x1000, 0)`, instead of the single region the allocator started with. -/
theorem round_trip_broken_by_rounding_overflow :
    regions 16 (demoInit 4096 1024 8) .free = some [(4096, 1024)] ∧
    mem_region_list_assign 32 16 (demoInit 4096 1024 8) 4294967295
      = some (demoAssign (demoInit 4096 1024 8) 4294967295, 4096) ∧
    mem_region_list_release 32 16 (demoAssign (demoInit 4096 1024 8) 4294967295) 4096
      = some (demoRelease (demoAssign (demoInit 4096 1024 8) 4294967295) 4096) ∧
    regions 16 (demoRelease (demoAssign (demoInit 4096 1024 8) 4294967295) 4096) .free
      = some [(4096, 1024), (4096, 0)] ∧
    regions 16 (demoRelease (demoAssign (demoInit 4096 1024 8) 4294967295) 4096) .used
      = some [] :=
  ⟨rfl, rfl, rfl, rfl, rfl⟩

/-- C9 (code defect): with base address 0 the free region itself looks like an empty
slot; `assign(100)` returns `NULL` although `get_free_entry` finds a slot with the empty
marker and the free list has a member of 1024 bytes. -/
theorem assign_null_despite_slot_and_space :
    get_free_entry (demoInit 0 1024 8) = .entry 0 ∧
    regions 16 (demoInit 0 1024 8) .free = some [(0, 1024)] ∧
    needs_length 100 = 100 ∧
    mem_region_list_assign 32 16 (demoInit 0 1024 8) 100
      = some (demoAssign (demoInit 0 1024 8) 100, 0) :=
  ⟨rfl, rfl, by decide, rfl⟩

theorem listed_all {n : Nat} {xs : List Nat} (hnd : xs.Nodup) (hb : ∀ i ∈ xs, i < n)
    (hlen : n ≤ xs.length) : ∀ i, i < n → i ∈ xs := by
  intro i hi
  have hsub : xs.toFinset ⊆ Finset.range n := by
    intro j hj
    simp only [List.mem_toFinset] at hj
    simpa using hb j hj
  have hcard : (Finset.range n).card ≤ xs.toFinset.card := by
    rw [List.toFinset_card_of_nodup hnd, Finset.card_range]; exact hlen
  have := Finset.eq_of_subset_of_card_le hsub hcard
  have hi' : i ∈ Finset.range n := by simpa using hi
  rw [← this] at hi'
  simpa using hi'

theorem sim_exhausted {base total : Nat} (hb : 0 < base) {l : mem_region_list} {s : AState}
    (sim : Sim base total l s) :
    get_free_entry l = .null ↔ l.entry_count ≤ (s.free.length + s.used.length : Nat) := by
  obtain ⟨fl, ul, rep, hempty, ainv, rfl⟩ := sim
  have hc : (view l).count = l.entry_count := rfl
  have hlen := rep_length_le rep
  rw [hc] at hlen hempty
  simp only [absOf, List.length_map]
  simp only [List.length_append] at hlen
  constructor
  · intro hg
    rcases get_free_entry_spec l with ⟨_, hall⟩ | ⟨x, _, _, _, g⟩
    · by_contra hlt
      have hsub : Finset.range l.entry_count.toNat ⊆ (fl ++ ul).toFinset := by
        intro i hi
        simp only [Finset.mem_range] at hi
        simp only [List.mem_toFinset]
        by_contra hni
        exact hall i (by omega) (hempty i (by omega) hni)
      have := Finset.card_le_card hsub
      rw [List.toFinset_card_of_nodup rep.nodup, Finset.card_range, List.length_append] at this
      omega
    · rw [g] at hg; cases hg
  · intro hle
    rcases get_free_entry_spec l with ⟨g, _⟩ | ⟨x, hx, hx0, _, _⟩
    · exact g
    · exfalso
      have hall := listed_all (n := l.entry_count.toNat) rep.nodup
        (fun i hi => by have := rep.bound i hi; rw [hc] at this; omega)
        (by rw [List.length_append]; omega)
      exact ainv.mark hb x (hall x (by omega)) hx0

theorem sim_init {base total fuel : Nat} {es : Nat → mem_region} {count : Int}
    {old l0 : mem_region_list}
    (h : mem_region_list_init fuel (some old) base total (some es) count = some (true, some l0)) :
    Sim base total l0 ⟨[(base, total)], [], total, 0⟩ ∧ l0.entry_count = count ∧ 2 ≤ count := by
  obtain ⟨hf, hc⟩ := init_some h
  obtain ⟨l, e, rep, c, a0, n0, hoth, lf, lu⟩ := init_spec fuel base total es count old hf hc
  rw [e] at h; cases h
  refine ⟨⟨[0], [], rep, ?_, ?_, ?_⟩, c, hc⟩
  · intro i hi hni
    rw [c] at hi
    exact (hoth i (by simpa using hni) hi).1
  · refine ⟨?_, ?_, ?_, ?_, ?_⟩ <;> simp
  · simp [absOf, reg, a0, n0, lf, lu]

theorem sim_assign {aw base total : Nat} (hb : 0 < base) (hw : base + total ≤ 2 ^ aw)
    (ht : total < 2 ^ 32) {l : mem_region_list} {s : AState} (sim : Sim base total l s)
    {len : Nat} (hlen : 0 < len) {fuel : Nat} (hf : l.entry_count.toNat < fuel) :
    (mem_region_list_assign aw fuel l len = some (l, 0) ∧
      (l.entry_count ≤ (s.free.length + s.used.length : Nat) ∨
        aAssign aw s (needs_length len) = none)) ∨
    (∃ l1 r s1, mem_region_list_assign aw fuel l len = some (l1, r) ∧
      ((s.free.length + s.used.length : Nat) : Int) < l.entry_count ∧
      aAssign aw s (needs_length len) = some (s1, r) ∧ Sim base total l1 s1 ∧
      l1.entry_count = l.entry_count ∧ base ≤ r ∧ r + needs_length len ≤ base + total) := by
  have hex := sim_exhausted hb sim
  obtain ⟨fl, ul, rep, hempty, ainv, rfl⟩ := sim
  have hc : (view l).count = l.entry_count := rfl
  have hl := rep_length_le rep
  rw [hc] at hl
  simp only [List.length_append, Nat.cast_add] at hl
  rcases assign_refines aw fuel l len rep hlen (by omega) (by omega) (ainv.mark hb) hempty with
    ⟨e, h1⟩ | ⟨l1, r, fl', ul', e, hg, rep', c, ha, hempty'⟩
  · left
    refine ⟨e, ?_⟩
    rcases h1 with h1 | h1
    · exact Or.inl (hex.1 h1)
    · exact Or.inr h1
  · right
    obtain ⟨ainv', h1, h2⟩ := ainv_assign hw ht ainv ha
    refine ⟨l1, r, _, e, ?_, ha, ⟨fl', ul', rep', hempty', ainv', rfl⟩, c, h1, h2⟩
    by_contra hnlt
    exact hg (hex.2 (by omega))

theorem sim_release {aw base total : Nat} (hb : 0 < base) (hw : base + total ≤ 2 ^ aw)
    (ht : total < 2 ^ 32) {l : mem_region_list} {s : AState} (sim : Sim base total l s)
    (a : Nat) {fuel : Nat} (hf : l.entry_count.toNat + 1 < fuel) :
    ∃ l1, mem_region_list_release aw fuel l a = some l1 ∧
      Sim base total l1 (aRelease aw s a) ∧ l1.entry_count = l.entry_count := by
  obtain ⟨fl, ul, rep, hempty, ainv, rfl⟩ := sim
  have hc : (view l).count = l.entry_count := rfl
  have hl := rep_length_le rep
  rw [hc] at hl
  simp only [List.length_append, Nat.cast_add] at hl
  obtain ⟨l1, fl', ul', e, rep', c, ha, hempty', _⟩ := release_refines aw fuel l a rep
    (by omega) (by omega) hempty
  exact ⟨l1, e, ⟨fl', ul', rep', hempty', ha ▸ ainv_release hb hw ht a ainv, ha⟩, c⟩

theorem sim_regions {base total : Nat} {l : mem_region_list} {s : AState}
    (sim : Sim base total l s) :
    regions (l.entry_count.toNat + 1) l .free = some s.free ∧
    regions (l.entry_count.toNat + 1) l .used = some s.used ∧
    mem_region_list_get_free (some l) = s.flen ∧ mem_region_list_get_used (some l) = s.ulen := by
  obtain ⟨fl, ul, rep, _, _, rfl⟩ := sim
  exact ⟨(regions_of_rep rep).1, (regions_of_rep rep).2, rfl, rfl⟩

theorem assign_of_some {aw fuel k : Nat} {l : mem_region_list} {len : Nat}
    {res : mem_region_list × Nat} (h : mem_region_list_assign aw fuel l len = some res)
    {res' : mem_region_list × Nat}
    (h' : mem_region_list_assign aw (fuel + k) l len = some res') : res = res' := by
  have := mem_region_list_assign_mono aw fuel k l len _ h
  rw [h'] at this
  exact (Option.some.inj this).symm

theorem release_of_some {aw fuel k : Nat} {l : mem_region_list} {a : Nat}
    {res : mem_region_list} (h : mem_region_list_release aw fuel l a = some res)
    {res' : mem_region_list}
    (h' : mem_region_list_release aw (fuel + k) l a = some res') : res = res' := by
  have := mem_region_list_release_mono aw fuel k l a _ h
  rw [h'] at this
  exact (Option.some.inj this).symm

theorem walk_of_rep {l : mem_region_list} {fl ul : List Nat} (rep : Rep (view l) fl ul)
    {fuel : Nat} {ps : List Ptr} :
    (walk fuel l .free = some ps → ps = fl.map Ptr.entry) ∧
    (walk fuel l .used = some ps → ps = ul.map Ptr.entry) := by
  constructor
  · intro h
    have h1 := walk_mono fuel (fl.length + 1) l .free _ h
    rw [walk_spec l (Or.inl rfl) fl _ rep.free (by omega)] at h1
    exact (Option.some.inj h1).symm
  · intro h
    have h1 := walk_mono fuel (ul.length + 1) l .used _ h
    rw [walk_spec l (Or.inr rfl) ul _ rep.used (by omega)] at h1
    exact (Option.some.inj h1).symm

theorem occupied_of_rep {l : mem_region_list} {fl ul : List Nat} (rep : Rep (view l) fl ul)
    {i : Nat} (h : Occupied l i) : i ∈ fl ++ ul := by
  obtain ⟨fuel, ps, h1, h2⟩ := h
  rcases h1 with h1 | h1
  · rw [(walk_of_rep rep).1 h1] at h2
    simp only [List.mem_map, Ptr.entry.injEq, exists_eq_right] at h2
    exact List.mem_append_left _ h2
  · rw [(walk_of_rep rep).2 h1] at h2
    simp only [List.mem_map, Ptr.entry.injEq, exists_eq_right] at h2
    exact List.mem_append_right _ h2

theorem assign_of_null {aw fuel : Nat} {l : mem_region_list} (len : Nat)
    (h : get_free_entry l = .null) : mem_region_list_assign aw fuel l len = some (l, 0) := by
  rw [mem_region_list_assign]
  by_cases h0 : len ≤ 0
  · rw [if_pos h0]
  · rw [if_neg h0]
    exact if_pos h

theorem insertReg_length (r : Nat × Nat) (xs : List (Nat × Nat)) :
    (insertReg r xs).length = xs.length + 1 := by
  rw [(insertReg_perm r xs).length_eq]; rfl

theorem sim_assign_success {aw base total : Nat} (hb : 0 < base) (hw : base + total ≤ 2 ^ aw)
    (ht : total < 2 ^ 32) {l l1 : mem_region_list} {s : AState} (sim : Sim base total l s)
    {len fuel r : Nat} (h : mem_region_list_assign aw fuel l len = some (l1, r)) (hr : r ≠ 0) :
    ∃ s1, aAssign aw s (needs_length len) = some (s1, r) ∧ Sim base total l1 s1 ∧
      l1.entry_count = l.entry_count ∧
      ((s.free.length + s.used.length : Nat) : Int) < l.entry_count ∧ base ≤ r ∧
      r + needs_length len ≤ base + total := by
  rcases Nat.eq_zero_or_pos len with rfl | hlen
  · rw [mem_region_list_assign, if_pos (le_refl _)] at h
    cases h; exact absurd rfl hr
  rcases @sim_assign aw base total hb hw ht l s sim len hlen
      (fuel + (l.entry_count.toNat + 1)) (by omega) with
    ⟨e, _⟩ | ⟨l2, r2, s1, e, h1, h2, h3, h4, h5, h6⟩
  · have := assign_of_some h e
    cases this; exact absurd rfl hr
  · have := assign_of_some h e
    cases this
    exact ⟨s1, h2, h3, h4, h1, h5, h6⟩

/-- C10 (pool exhaustion): in every reachable state in which every pool slot is
occupied by a used or free region, `assign` returns null for every length and leaves the
list unchanged; and with `entry_capacity = 3`, after two successful assigns that leave
free bytes, every further assign returns null. -/
theorem pool_exhaustion (aw fuel base total : Nat) (es : Nat → mem_region) (count : Int)
    (old l0 : mem_region_list) (hw : base + total ≤ 2 ^ aw) (ht : total < 2 ^ 32)
    (hinit : mem_region_list_init fuel (some old) base total (some es) count
      = some (true, some l0)) :
    (∀ l, Reachable aw (2 ^ 32 - 1) l0 l →
      (∀ i : Nat, (i : Int) < l.entry_count → Occupied l i) →
      ∀ f len, mem_region_list_assign aw f l len = some (l, 0)) ∧
    (count = 3 → ∀ f1 f2 len1 len2 l1 l2 r1 r2,
      mem_region_list_assign aw f1 l0 len1 = some (l1, r1) → r1 ≠ 0 →
      mem_region_list_assign aw f2 l1 len2 = some (l2, r2) → r2 ≠ 0 →
      0 < mem_region_list_get_free (some l2) →
      ∀ f len, mem_region_list_assign aw f l2 len = some (l2, 0)) := by
  constructor
  · intro l hreach hocc f len
    refine assign_of_null len ?_
    rcases hreach.inv hw ht hinit with ⟨hb, fl, ul, rep, _, ainv⟩ | ⟨_, hc, _, _, hs⟩
    · rcases get_free_entry_spec l with ⟨g, _⟩ | ⟨x, hx, hx0, _, _⟩
      · exact g
      · exact absurd hx0 (ainv.mark hb x (occupied_of_rep rep (hocc x hx)))
    · exfalso
      have h1 : ((1 : Nat) : Int) < l.entry_count := by
        have : (view l).count = l.entry_count := rfl
        omega
      rcases hs with ⟨rep, _⟩ | ⟨rep, _⟩
      · have := occupied_of_rep rep (hocc 1 h1)
        simp at this
      · have := occupied_of_rep rep (hocc 1 h1)
        simp at this
  · intro hc3 f1 f2 len1 len2 l1 l2 r1 r2 h1 hr1 h2 hr2 hfree f len
    refine assign_of_null len ?_
    have hb : 0 < base := by
      rcases Nat.eq_zero_or_pos base with rfl | hb
      · exact absurd (d2inv_assign ht (d2inv_init hinit) h1).2 hr1
      · exact hb
    obtain ⟨sim0, c0, _⟩ := sim_init hinit
    obtain ⟨s1, a1, sim1, c1, _, _, _⟩ := sim_assign_success hb hw ht sim0 h1 hr1
    obtain ⟨s2, a2, sim2, c2, _, _, _⟩ := sim_assign_success hb hw ht sim1 h2 hr2
    obtain ⟨P1, L1, Q1, _, _, _, e1⟩ := aAssign_some aw _ s1 _ r1 a1
    obtain ⟨P2, L2, Q2, _, _, _, e2⟩ := aAssign_some aw _ s2 _ r2 a2
    have hu1 : s1.used.length = 1 := by rw [e1]; simp [insertReg]
    have hu2 : s2.used.length = 2 := by rw [e2]; simp only [insertReg_length, hu1]
    have hf2 : s2.free ≠ [] := by
      intro hnil
      obtain ⟨fl, ul, _, _, ainv, rfl⟩ := sim2
      have := ainv.sumf
      rw [hnil] at this
      have e : mem_region_list_get_free (some l2) = (view l2).len .free := rfl
      rw [e] at hfree
      simp only [absOf, List.map_nil, List.sum_nil] at this
      omega
    have hlen : 1 ≤ s2.free.length := by
      cases hs : s2.free with
      | nil => exact absurd hs hf2
      | cons a as => simp
    refine (sim_exhausted hb sim2).2 ?_
    rw [c2, c1, c0, hc3]
    omega

theorem pool_exhaustion_witness :
    (4096 + 1024 ≤ 2 ^ 32 ∧ 1024 < 2 ^ 32 ∧
      mem_region_list_init 4 (some demoOld) 4096 1024 (some demoEntries) 3
        = some (true, some (demoInit 4096 1024 3)) ∧
      mem_region_list_assign 32 16 (demoInit 4096 1024 3) 100
        = some (demoAssign (demoInit 4096 1024 3) 100, 4096) ∧
      mem_region_list_assign 32 16 (demoAssign (demoInit 4096 1024 3) 100) 50
        = some (demoAssign (demoAssign (demoInit 4096 1024 3) 100) 50, 4196) ∧
      0 < mem_region_list_get_free (some (demoAssign (demoAssign (demoInit 4096 1024 3) 100) 50))) ∧
    mem_region_list_assign 32 16 (demoAssign (demoAssign (demoInit 4096 1024 3) 100) 50) 8
      = some (demoAssign (demoAssign (demoInit 4096 1024 3) 100) 50, 0) :=
  ⟨⟨by decide, by decide, rfl, rfl, rfl, by decide⟩,
    (pool_exhaustion 32 4 4096 1024 demoEntries 3 demoOld (demoInit 4096 1024 3)
      (by decide) (by decide) rfl).2 rfl 16 16 100 50 _ _ 4096 4196 rfl (by decide) rfl
      (by decide) (by decide) 16 8⟩

/-- C8 (code defect): after the zero-length allocation obtained with the request
`0xFFFFFFFF` is released, the free list is `[(0x1020, 992), (0x1010, 0)]`, out of address
order. A further request `0xFFFFFFFF` (rounded length 0) succeeds with `0x1020`, the first
member in list order, although the free region at the lower address `0x1010` has
sufficient length as well. -/
theorem first_fit_not_lowest_address :
    Reachable 32 (2 ^ 32 - 1) (demoInit 4096 1024 8) demoUnsorted ∧
    regions 16 demoUnsorted .free = some [(4128, 992), (4112, 0)] ∧
    needs_length 4294967295 = 0 ∧
    mem_region_list_assign 32 16 demoUnsorted 4294967295
      = some (demoAssign demoUnsorted 4294967295, 4128) ∧
    (4112 < 4128 ∧ needs_length 4294967295 ≤ 0) :=
  ⟨Reachable.assign 16 32 4096
    (Reachable.release 16 4112
      (Reachable.release 16 4104
        (Reachable.release 16 4096
          (Reachable.assign 16 4294967295 4112
            (Reachable.assign 16 8 4104
              (Reachable.assign 16 8 4096 Reachable.init (by decide) rfl)
              (by decide) rfl)
            (by decide) rfl)
          (by decide) rfl)
        (by decide) rfl)
      (by decide) rfl)
    (by decide) rfl,
   rfl, by decide, rfl, by decide, by decide⟩

theorem insertReg_sorted (r : Nat × Nat) (hr : 0 < r.2) : ∀ (xs : List (Nat × Nat)),
    xs.Pairwise (fun p q => p.1 + p.2 ≤ q.1) → (∀ q ∈ xs, 0 < q.2) → (∀ q ∈ xs, Disj r q) →
    (insertReg r xs).Pairwise (fun p q => p.1 + p.2 ≤ q.1) := by
  intro xs
  induction xs with
  | nil => intro _ _ _; simp [insertReg]
  | cons q rest ih =>
    intro hp hpos hd
    rw [List.pairwise_cons] at hp
    have hq := hd q (by simp)
    have hq0 := hpos q (by simp)
    by_cases h : r.1 < q.1
    · simp only [insertReg, h, if_true]
      rw [List.pairwise_cons, List.pairwise_cons]
      refine ⟨?_, hp⟩
      intro w hw
      rcases List.mem_cons.1 hw with rfl | hw
      · unfold Disj at hq; omega
      · have h1 := hp.1 w hw
        have h2 := hd w (by simp [hw])
        have h3 := hpos w (by simp [hw])
        unfold Disj at h2 hq; omega
    · simp only [insertReg, h, if_false]
      rw [List.pairwise_cons]
      refine ⟨?_, ih hp.2 (fun w hw => hpos w (by simp [hw])) (fun w hw => hd w (by simp [hw]))⟩
      intro w hw
      rcases List.mem_cons.1 ((insertReg_perm r rest).mem_iff.1 hw) with rfl | hw
      · unfold Disj at hq; omega
      · exact hp.1 w hw

theorem coalesceFromR_start (aw : Nat) : ∀ (rest : List (Nat × Nat)) (cur : Nat × Nat),
    ∀ w ∈ coalesceFromR aw cur rest, w.1 = cur.1 ∨ ∃ w0 ∈ rest, w.1 = w0.1 := by
  intro rest
  induction rest with
  | nil => intro cur w hw; simp [coalesceFromR] at hw; left; rw [hw]
  | cons q rest ih =>
    intro cur w hw
    by_cases hm : (cur.1 + cur.2) % 2 ^ aw = q.1
    · simp only [coalesceFromR, hm, if_true] at hw
      rcases ih _ w hw with h | ⟨w0, h0, h1⟩
      · left; exact h
      · right; exact ⟨w0, List.mem_cons_of_mem _ h0, h1⟩
    · simp only [coalesceFromR, hm, if_false] at hw
      rcases List.mem_cons.1 hw with rfl | hw
      · left; rfl
      · rcases ih _ w hw with h | ⟨w0, h0, h1⟩
        · right; exact ⟨q, by simp, h⟩
        · right; exact ⟨w0, List.mem_cons_of_mem _ h0, h1⟩

theorem coalesceFromR_sep {aw base total : Nat} (hw : base + total ≤ 2 ^ aw)
    (ht : total < 2 ^ 32) : ∀ (rest : List (Nat × Nat)) (cur : Nat × Nat),
    (∀ r ∈ cur :: rest, base ≤ r.1 ∧ r.1 + r.2 ≤ base + total) →
    (∀ r ∈ cur :: rest, 0 < r.2) →
    (cur :: rest).Pairwise (fun p q => p.1 + p.2 ≤ q.1) →
    (coalesceFromR aw cur rest).Pairwise (fun p q => p.1 + p.2 < q.1) ∧
    (∀ r ∈ coalesceFromR aw cur rest, 0 < r.2) := by
  intro rest
  induction rest with
  | nil => intro cur _ hpos _; simp [coalesceFromR]; exact hpos cur (by simp)
  | cons q rest ih =>
    intro cur hin hpos hp
    have hc := hin cur (by simp)
    have hq := hin q (by simp)
    have hc0 := hpos cur (by simp)
    have hq0 := hpos q (by simp)
    rw [List.pairwise_cons] at hp
    have hcq := hp.1 q (by simp)
    have hp2 := hp.2
    rw [List.pairwise_cons] at hp2
    by_cases hm : (cur.1 + cur.2) % 2 ^ aw = q.1
    · have hlt : cur.1 + cur.2 < 2 ^ aw := by omega
      have he : cur.1 + cur.2 = q.1 := by rw [Nat.mod_eq_of_lt hlt] at hm; exact hm
      have hu : u32 (cur.2 + q.2) = cur.2 + q.2 := u32_eq (by omega)
      simp only [coalesceFromR, hm, if_true, hu]
      refine ih (cur.1, cur.2 + q.2) ?_ ?_ ?_
      · intro r hr
        rcases List.mem_cons.1 hr with rfl | hr
        · simp only; omega
        · exact hin r (by simp [hr])
      · intro r hr
        rcases List.mem_cons.1 hr with rfl | hr
        · simp only; omega
        · exact hpos r (by simp [hr])
      · rw [List.pairwise_cons]
        refine ⟨fun w hw' => ?_, hp2.2⟩
        have := hp2.1 w hw'
        simp only; omega
    · have hne : cur.1 + cur.2 ≠ q.1 := by
        intro e
        apply hm
        rw [Nat.mod_eq_of_lt (by omega)]; exact e
      obtain ⟨i1, i2⟩ := ih q (fun r hr => hin r (List.mem_cons_of_mem _ hr))
        (fun r hr => hpos r (List.mem_cons_of_mem _ hr)) hp.2
      simp only [coalesceFromR, hm, if_false]
      refine ⟨?_, ?_⟩
      · rw [List.pairwise_cons]
        refine ⟨fun w hw' => ?_, i1⟩
        rcases coalesceFromR_start aw rest q w hw' with h | ⟨w0, h0, h1⟩
        · rw [h]; omega
        · have := hp2.1 w0 h0
          rw [h1]; omega
      · intro r hr
        rcases List.mem_cons.1 hr with rfl | hr
        · exact hc0
        · exact i2 r hr

theorem coalesceR_sep {aw base total : Nat} (hw : base + total ≤ 2 ^ aw)
    (ht : total < 2 ^ 32) (xs : List (Nat × Nat))
    (hin : ∀ r ∈ xs, base ≤ r.1 ∧ r.1 + r.2 ≤ base + total) (hpos : ∀ r ∈ xs, 0 < r.2)
    (hp : xs.Pairwise (fun p q => p.1 + p.2 ≤ q.1)) :
    (coalesceR aw xs).Pairwise (fun p q => p.1 + p.2 < q.1) ∧
    (∀ r ∈ coalesceR aw xs, 0 < r.2) := by
  cases xs with
  | nil => simp [coalesceR]
  | cons x xs => exact coalesceFromR_sep hw ht xs x hin hpos hp

theorem tinv_init {base total : Nat} (h0 : 0 < total)
    (inv : AInv base total ⟨[(base, total)], [], total, 0⟩) :
    TInv base total ⟨[(base, total)], [], total, 0⟩ := by
  refine ⟨inv, ?_, ?_, ?_⟩
  · intro r hr
    simp at hr
    rw [hr]; exact h0
  · simp
  · simp

theorem tinv_assign {aw base total : Nat} (hw : base + total ≤ 2 ^ aw) (ht : total < 2 ^ 32)
    {s s' : AState} {n a : Nat} (hn : 0 < n) (inv : TInv base total s)
    (h : aAssign aw s n = some (s', a)) : TInv base total s' := by
  have ai := (ainv_assign hw ht inv.ainv h).1
  obtain ⟨P, L, Q, hf, hnL, _, rfl⟩ := aAssign_some aw s s' n a h
  have hin := inv.ainv.inb (a, L) (by rw [hf]; simp)
  simp only at hin
  have hsub : sub32 L n = L - n := sub32_eq hnL (by omega)
  have hsep := inv.fsep
  rw [hf, List.pairwise_append, List.pairwise_cons] at hsep
  have hdis := inv.ainv.disj
  rw [List.pairwise_append] at hdis
  have hposL := inv.pos (a, L) (by rw [hf]; simp)
  simp only at hposL
  refine ⟨ai, ?_, ?_, ?_⟩
  · intro r hr
    simp only [hsub] at hr
    rcases List.mem_append.1 hr with hr | hr
    · rcases List.mem_append.1 hr with hr | hr
      · exact inv.pos r (by rw [hf]; simp [hr])
      · by_cases hz : L - n ≤ 0
        · rw [if_pos hz] at hr
          exact inv.pos r (by rw [hf]; simp [hr])
        · rw [if_neg hz] at hr
          rcases List.mem_cons.1 hr with rfl | hr
          · simp only; omega
          · exact inv.pos r (by rw [hf]; simp [hr])
    · rcases List.mem_cons.1 ((insertReg_perm _ _).mem_iff.1 hr) with rfl | hr
      · exact hn
      · exact inv.pos r (by simp [hr])
  · simp only [hsub]
    rw [List.pairwise_append]
    by_cases hz : L - n ≤ 0
    · rw [if_pos hz]
      exact ⟨hsep.1, hsep.2.1.2, fun p hp q hq => hsep.2.2 p hp q (List.mem_cons_of_mem _ hq)⟩
    · rw [if_neg hz]
      have hm : (a + n) % 2 ^ aw = a + n := Nat.mod_eq_of_lt (by omega)
      rw [hm, List.pairwise_cons]
      refine ⟨hsep.1, ⟨fun q hq => ?_, hsep.2.1.2⟩, fun p hp q hq => ?_⟩
      · have := hsep.2.1.1 q hq
        simp only at this ⊢; omega
      · rcases List.mem_cons.1 hq with rfl | hq
        · have := hsep.2.2 p hp (a, L) (by simp)
          simp only at this ⊢; omega
        · exact hsep.2.2 p hp q (List.mem_cons_of_mem _ hq)
  · refine insertReg_sorted (a, n) hn s.used inv.usort
      (fun q hq => inv.pos q (by simp [hq])) (fun q hq => ?_)
    have := hdis.2.2 (a, L) (by rw [hf]; simp) q hq
    have hq0 := inv.pos q (by simp [hq])
    unfold Disj at this ⊢
    simp only at this ⊢; omega

theorem tinv_release {aw base total : Nat} (hb : 0 < base) (hw : base + total ≤ 2 ^ aw)
    (ht : total < 2 ^ 32) {s : AState} (a : Nat) (inv : TInv base total s) :
    TInv base total (aRelease aw s a) := by
  have ai := @ainv_release aw base total hb hw ht s a inv.ainv
  rcases aRelease_some aw s a with ⟨_, e⟩ | ⟨P, m, Q, hu, _, e⟩
  · rw [e]; exact inv
  · rw [e] at ai ⊢
    have hdis := inv.ainv.disj
    rw [List.pairwise_append] at hdis
    have hm := inv.pos (a, m) (by rw [hu]; simp)
    simp only at hm
    have hsorted := insertReg_sorted (a, m) hm s.free
      (inv.fsep.imp (fun {p q} hpq => Nat.le_of_lt hpq))
      (fun q hq => inv.pos q (by simp [hq]))
      (fun q hq => Disj.symm (hdis.2.2 q hq (a, m) (by rw [hu]; simp)))
    have hmem : ∀ r ∈ insertReg (a, m) s.free, r ∈ s.free ++ s.used := by
      intro r hr
      rcases List.mem_cons.1 ((insertReg_perm _ _).mem_iff.1 hr) with rfl | hr
      · rw [hu]; simp
      · simp [hr]
    have hc := coalesceR_sep hw ht (insertReg (a, m) s.free)
      (fun r hr => inv.ainv.inb r (hmem r hr)) (fun r hr => inv.pos r (hmem r hr)) hsorted
    refine ⟨ai, ?_, hc.1, ?_⟩
    · intro r hr
      rcases List.mem_append.1 hr with hr | hr
      · exact hc.2 r hr
      · refine inv.pos r ?_
        rw [hu]
        rcases List.mem_append.1 hr with hr | hr
        · simp [hr]
        · simp [hr]
    · have := inv.usort
      rw [hu] at this
      exact this.sublist ((List.sublist_cons_self _ _).append_left P)

theorem sep_sum (hi : Nat) : ∀ (rest : List (Nat × Nat)) (r : Nat × Nat),
    (r :: rest).Pairwise (fun p q => p.1 + p.2 < q.1) →
    (∀ q ∈ r :: rest, q.1 + q.2 ≤ hi) →
    r.1 + ((r :: rest).map Prod.snd).sum + rest.length ≤ hi := by
  intro rest
  induction rest with
  | nil => intro r _ h; have := h r (by simp); simpa using this
  | cons q rest ih =>
    intro r hp h
    rw [List.pairwise_cons] at hp
    have h1 := ih q hp.2 (fun w hw => h w (List.mem_cons_of_mem _ hw))
    have h2 := hp.1 q (by simp)
    simp only [List.map_cons, List.sum_cons, List.length_cons] at h1 ⊢
    omega

/-- Full reclamation in the abstract model: when no region is used, the free list is
the single region `(base, total)`. -/
theorem tinv_reclaim {base total : Nat} {s : AState} (h0 : 0 < total)
    (inv : TInv base total s) (hu : s.used = []) : s.free = [(base, total)] := by
  have h1 := inv.ainv.sumf
  have h2 := inv.ainv.sumu
  have h3 := inv.ainv.tot
  rw [hu] at h2
  simp only [List.map_nil, List.sum_nil] at h2
  have hsum : (s.free.map Prod.snd).sum = total := by omega
  cases hfr : s.free with
  | nil =>
    exfalso
    rw [hfr] at hsum
    simp only [List.map_nil, List.sum_nil] at hsum
    omega
  | cons r rest =>
    have hin : ∀ q ∈ r :: rest, base ≤ q.1 ∧ q.1 + q.2 ≤ base + total := by
      intro q hq
      exact inv.ainv.inb q (List.mem_append_left _ (hfr ▸ hq))
    have hs := sep_sum (base + total) rest r (hfr ▸ inv.fsep) (fun q hq => (hin q hq).2)
    rw [hfr] at hsum
    rw [hsum] at hs
    have hr := hin r (by simp)
    have hl : rest.length = 0 := by omega
    have hrest : rest = [] := List.length_eq_zero.1 hl
    subst hrest
    simp only [List.map_cons, List.map_nil, List.sum_cons, List.sum_nil, Nat.add_zero] at hsum
    have : r = (base, total) := Prod.ext (by simp only; omega) (by simp only; omega)
    rw [this]

theorem aRelease_used (aw : Nat) (s : AState) (a : Nat) :
    (aRelease aw s a).used = removeReg a s.used := by
  unfold aRelease removeReg
  cases takeReg a s.used <;> rfl

theorem aAssign_nil {aw : Nat} {s : AState} (n : Nat) (hf : s.free = []) :
    aAssign aw s n = none := by
  unfold aAssign
  rw [hf]; rfl

theorem aAssign_single {aw : Nat} {s s' : AState} {n r p L : Nat} (hf : s.free = [(p, L)])
    (h : aAssign aw s n = some (s', r)) :
    r = p ∧ n ≤ L ∧
    s'.free = (if sub32 L n ≤ 0 then [] else [((p + n) % 2 ^ aw, sub32 L n)]) ∧
    s'.used = insertReg (p, n) s.used := by
  unfold aAssign at h
  rw [hf] at h
  by_cases hn : n ≤ L
  · simp only [carveFree, hn, if_true, Option.map_some', Option.some.injEq, Prod.mk.injEq] at h
    obtain ⟨rfl, rfl⟩ := h
    exact ⟨rfl, hn, rfl, rfl⟩
  · simp [carveFree, hn] at h

theorem assign_det {aw f1 f2 : Nat} {l : mem_region_list} {len : Nat}
    {r1 r2 : mem_region_list × Nat} (h1 : mem_region_list_assign aw f1 l len = some r1)
    (h2 : mem_region_list_assign aw f2 l len = some r2) : r1 = r2 := by
  have e1 := mem_region_list_assign_mono aw f1 f2 l len _ h1
  have e2 := mem_region_list_assign_mono aw f2 f1 l len _ h2
  rw [Nat.add_comm f2 f1, e1] at e2
  exact Option.some.inj e2

theorem sim_assign_null {aw base total : Nat} (hb : 0 < base) (hw : base + total ≤ 2 ^ aw)
    (ht : total < 2 ^ 32) {l l1 : mem_region_list} {s : AState} (sim : Sim base total l s)
    {len fuel : Nat} (h : mem_region_list_assign aw fuel l len = some (l1, 0)) : l1 = l := by
  rcases Nat.eq_zero_or_pos len with rfl | hlen
  · rw [mem_region_list_assign, if_pos (le_refl _)] at h
    cases h; rfl
  rcases @sim_assign aw base total hb hw ht l s sim len hlen
      (fuel + (l.entry_count.toNat + 1)) (by omega) with
    ⟨e, _⟩ | ⟨l2, r2, s1, e, _, _, _, _, h5, _⟩
  · have := assign_of_some h e
    cases this; rfl
  · have := assign_of_some h e
    cases this; omega

theorem removeReg_three (a b c n x y z : Nat) (hab : a < b) (hbc : b < c)
    (hperm : [x, y, z].Perm [a, b, c]) :
    removeReg z (removeReg y (removeReg x [(a, n), (b, n), (c, n)])) = [] := by
  have hx : x ∈ [a, b, c] := hperm.mem_iff.1 (by simp)
  have hy : y ∈ [a, b, c] := hperm.mem_iff.1 (by simp)
  have hz : z ∈ [a, b, c] := hperm.mem_iff.1 (by simp)
  have ha : a ∈ [x, y, z] := hperm.mem_iff.2 (by simp)
  have hb : b ∈ [x, y, z] := hperm.mem_iff.2 (by simp)
  have hc : c ∈ [x, y, z] := hperm.mem_iff.2 (by simp)
  simp only [List.mem_cons, List.mem_singleton, List.not_mem_nil, or_false] at hx hy hz ha hb hc
  have n1 : a ≠ b := by omega
  have n2 : b ≠ a := by omega
  have n3 : b ≠ c := by omega
  have n4 : c ≠ b := by omega
  have n5 : a ≠ c := by omega
  have n6 : c ≠ a := by omega
  rcases hx with rfl | rfl | rfl <;> rcases hy with rfl | rfl | rfl <;>
    rcases hz with rfl | rfl | rfl <;>
    first
    | (exfalso; omega)
    | simp [removeReg, takeReg, n1, n2, n3, n4, n5, n6]

theorem sim_ainv {base total : Nat} {l : mem_region_list} {s : AState}
    (sim : Sim base total l s) : AInv base total s := by
  obtain ⟨_, _, _, _, h, _⟩ := sim
  exact h

/-- C7 (coalescing is order-independent): after a successful init, let three assigns of
the same length return `a`, `b`, `c` with `a < b < c`. Then the three regions are adjacent
(`a = base`, `b = a + n`, `c = b + n` for the rounded length `n`), and for every order
`x, y, z` of the three addresses the three releases return and leave the free list as the
single region `(base, total)` and the used list empty. -/
theorem coalescing_any_order (aw fuel base total : Nat) (es : Nat → mem_region) (count : Int)
    (old l0 : mem_region_list) (hw : base + total ≤ 2 ^ aw) (ht : total < 2 ^ 32)
    (hinit : mem_region_list_init fuel (some old) base total (some es) count
      = some (true, some l0))
    (f1 f2 f3 len : Nat) (l1 l2 l3 : mem_region_list) (a b c : Nat)
    (h1 : mem_region_list_assign aw f1 l0 len = some (l1, a))
    (h2 : mem_region_list_assign aw f2 l1 len = some (l2, b))
    (h3 : mem_region_list_assign aw f3 l2 len = some (l3, c))
    (hab : a < b) (hbc : b < c)
    (x y z : Nat) (hperm : [x, y, z].Perm [a, b, c]) (g : Nat) (hg : count.toNat + 1 < g) :
    (a = base ∧ b = a + needs_length len ∧ c = b + needs_length len) ∧
    ∃ m1 m2 m3, mem_region_list_release aw g l3 x = some m1 ∧
      mem_region_list_release aw g m1 y = some m2 ∧
      mem_region_list_release aw g m2 z = some m3 ∧
      regions (count.toNat + 1) m3 .free = some [(base, total)] ∧
      regions (count.toNat + 1) m3 .used = some [] := by
  have hb : 0 < base := by
    rcases Nat.eq_zero_or_pos base with rfl | hb
    · exfalso
      have i0 := d2inv_init hinit
      obtain ⟨i1, ra⟩ := d2inv_assign ht i0 h1
      obtain ⟨_, rb⟩ := d2inv_assign ht i1 h2
      omega
    · exact hb
  obtain ⟨sim0, hc0, _⟩ := sim_init hinit
  have ha0 : a ≠ 0 := by
    rintro rfl
    have e := sim_assign_null hb hw ht sim0 h1
    subst e
    have := assign_det h1 h2
    cases this
    omega
  obtain ⟨s1, e1, sim1, c1, _, _, _⟩ := sim_assign_success hb hw ht sim0 h1 ha0
  obtain ⟨s2, e2, sim2, c2, _, _, _⟩ := sim_assign_success hb hw ht sim1 h2 (by omega)
  obtain ⟨s3, e3, sim3, c3, _, _, _⟩ := sim_assign_success hb hw ht sim2 h3 (by omega)
  generalize needs_length len = n at e1 e2 e3 ⊢
  obtain ⟨ra, hn1, f1', u1⟩ := aAssign_single rfl e1
  have hz1 : ¬ sub32 total n ≤ 0 := by
    intro hz
    rw [if_pos hz] at f1'
    rw [aAssign_nil n f1'] at e2
    cases e2
  rw [if_neg hz1] at f1'
  obtain ⟨rb, hn2, f2', u2⟩ := aAssign_single f1' e2
  have hs1 : sub32 total n = total - n := sub32_eq hn1 ht
  rw [hs1] at hz1 hn2 f2'
  have hn : 0 < n := by
    rcases Nat.eq_zero_or_pos n with rfl | hn
    · exfalso
      have := Nat.mod_le (base + 0) (2 ^ aw)
      omega
    · exact hn
  have hb' : b = a + n := by
    rw [rb, ra]; exact Nat.mod_eq_of_lt (by omega)
  have hz2 : ¬ sub32 (total - n) n ≤ 0 := by
    intro hz
    rw [if_pos hz] at f2'
    rw [aAssign_nil n f2'] at e3
    cases e3
  rw [if_neg hz2] at f2'
  obtain ⟨rc, hn3, _, u3⟩ := aAssign_single f2' e3
  have hs2 : sub32 (total - n) n = total - n - n := sub32_eq hn2 (by omega)
  rw [hs2] at hz2 hn3
  have hc' : c = b + n := by
    rw [rc, ← rb]; exact Nat.mod_eq_of_lt (by omega)
  refine ⟨⟨ra, hb', hc'⟩, ?_⟩
  -- the used list after the three assigns
  have hu3 : s3.used = [(a, n), (b, n), (c, n)] := by
    rw [u3, u2, u1, ← rc, ← rb, ← ra]
    have q1 : ¬ b < a := by omega
    have q2 : ¬ c < a := by omega
    have q3 : ¬ c < b := by omega
    simp [insertReg, q1, q2, q3]
  -- the invariant along the run
  have t0 := tinv_init (by omega : 0 < total) (sim_ainv sim0)
  have t1 := tinv_assign hw ht hn t0 e1
  have t2 := tinv_assign hw ht hn t1 e2
  have t3 := tinv_assign hw ht hn t2 e3
  have k3 : l3.entry_count = count := by rw [c3, c2, c1, hc0]
  obtain ⟨m1, r1, sim4, c4⟩ := sim_release hb hw ht sim3 x (by rw [k3]; exact hg)
  have k4 : m1.entry_count = count := by rw [c4, k3]
  obtain ⟨m2, r2, sim5, c5⟩ := sim_release hb hw ht sim4 y (by rw [k4]; exact hg)
  have k5 : m2.entry_count = count := by rw [c5, k4]
  obtain ⟨m3, r3, sim6, c6⟩ := sim_release hb hw ht sim5 z (by rw [k5]; exact hg)
  have k6 : m3.entry_count = count := by rw [c6, k5]
  have t6 : TInv base total (aRelease aw (aRelease aw (aRelease aw s3 x) y) z) :=
    tinv_release hb hw ht z (tinv_release hb hw ht y (tinv_release hb hw ht x t3))
  have hu6 : (aRelease aw (aRelease aw (aRelease aw s3 x) y) z).used = [] := by
    rw [aRelease_used, aRelease_used, aRelease_used, hu3]
    exact removeReg_three a b c n x y z hab hbc hperm
  have hf6 := tinv_reclaim (by omega : 0 < total) t6 hu6
  have hr := sim_regions sim6
  rw [k6, hf6, hu6] at hr
  exact ⟨m1, m2, m3, r1, r2, r3, hr.1, hr.2.1⟩

theorem coalescing_any_order_witness :
    (4096 + 1024 ≤ 2 ^ 32 ∧ 1024 < 2 ^ 32 ∧
      mem_region_list_init 4 (some demoOld) 4096 1024 (some demoEntries) 8
        = some (true, some (demoInit 4096 1024 8)) ∧
      mem_region_list_assign 32 16 (demoInit 4096 1024 8) 100
        = some (demoAssign (demoInit 4096 1024 8) 100, 4096) ∧
      mem_region_list_assign 32 16 (demoAssign (demoInit 4096 1024 8) 100) 100
        = some (demoAssign (demoAssign (demoInit 4096 1024 8) 100) 100, 4196) ∧
      mem_region_list_assign 32 16 (demoAssign (demoAssign (demoInit 4096 1024 8) 100) 100) 100
        = some (demoAssign (demoAssign (demoAssign (demoInit 4096 1024 8) 100) 100) 100, 4296) ∧
      4096 < 4196 ∧ 4196 < 4296 ∧ [4196, 4096, 4296].Perm [4096, 4196, 4296] ∧
      (8 : Int).toNat + 1 < 16) ∧
    ((4096 = 4096 ∧ 4196 = 4096 + needs_length 100 ∧ 4296 = 4196 + needs_length 100) ∧
    ∃ m1 m2 m3,
      mem_region_list_release 32 16
        (demoAssign (demoAssign (demoAssign (demoInit 4096 1024 8) 100) 100) 100) 4196
        = some m1 ∧
      mem_region_list_release 32 16 m1 4096 = some m2 ∧
      mem_region_list_release 32 16 m2 4296 = some m3 ∧
      regions ((8 : Int).toNat + 1) m3 .free = some [(4096, 1024)] ∧
      regions ((8 : Int).toNat + 1) m3 .used = some []) :=
  ⟨⟨by decide, by decide, rfl, rfl, rfl, rfl, by decide, by decide,
      List.Perm.swap 4096 4196 [4296], by decide⟩,
    coalescing_any_order 32 4 4096 1024 demoEntries 8 demoOld (demoInit 4096 1024 8)
      (by decide) (by decide) rfl 16 16 16 100 _ _ _ 4096 4196 4296 rfl rfl rfl
      (by decide) (by decide) 4196 4096 4296 (List.Perm.swap 4096 4196 [4296]) 16 (by decide)⟩

/-- In every reachable state the two lists are well formed and the slot that
`get_free_entry` returns is not on the used list; it is on the free list only when the
base address is 0 and it is the sole free member. -/
theorem Reachable.rep {aw maxlen base total fuel : Nat} {es : Nat → mem_region} {count : Int}
    {old l0 l : mem_region_list} (hw : base + total ≤ 2 ^ aw) (ht : total < 2 ^ 32)
    (h : mem_region_list_init fuel (some old) base total (some es) count = some (true, some l0))
    (hr : Reachable aw maxlen l0 l) :
    ∃ fl ul, Rep (view l) fl ul ∧
      (∀ x, get_free_entry l = .entry x → fl = [] ∨ (x ∉ ul ∧ (x ∉ fl ∨ fl = [x]))) := by
  rcases hr.inv hw ht h with ⟨hb, fl, ul, rep, _, ainv⟩ | ⟨_, hc, hz, _, hs⟩
  · refine ⟨fl, ul, rep, fun x hx => Or.inr ?_⟩
    have h0 := (get_free_entry_entry l hx).2
    have hm := ainv.mark hb x
    refine ⟨fun hu => hm (List.mem_append_right _ hu) h0,
      Or.inl fun hf => hm (List.mem_append_left _ hf) h0⟩
  · have hc' : (0 : Int) < (view l).count := by omega
    have hg := get_free_entry_zero l (by omega) (hz 0 (by simpa using hc'))
    rcases hs with ⟨rep, _⟩ | ⟨rep, _⟩
    · exact ⟨[0], [], rep, fun x hx => Or.inr (by rw [hg] at hx; cases hx; simp)⟩
    · exact ⟨[], [0], rep, fun x _ => Or.inl rfl⟩

theorem assign_count {aw fuel : Nat} {l l1 : mem_region_list} {len r : Nat} {fl ul : List Nat}
    (rep : Rep (view l) fl ul)
    (hx : ∀ x, get_free_entry l = .entry x → fl = [] ∨ (x ∉ ul ∧ (x ∉ fl ∨ fl = [x])))
    (h : mem_region_list_assign aw fuel l len = some (l1, r)) :
    l1.entry_count = l.entry_count := by
  rcases Nat.eq_zero_or_pos len with rfl | hlen
  · rw [mem_region_list_assign, if_pos (le_refl _)] at h
    cases h; rfl
  have h' := mem_region_list_assign_mono aw fuel (fl.length + ul.length + 1) l len _ h
  rcases assign_spec aw (fuel + (fl.length + ul.length + 1)) l len rep hlen (by omega)
      (by omega) hx with ⟨_, e⟩ | ⟨x, _, _, e⟩ |
      ⟨x, pre, f, post, upre, upost, l2, _, _, _, _, _, _, _, e, _, c1, _⟩
  · rw [e] at h'; cases h'; rfl
  · rw [e] at h'; cases h'; rfl
  · rw [e] at h'; cases h'; exact c1

theorem release_count {aw fuel : Nat} {l l1 : mem_region_list} {a : Nat} {fl ul : List Nat}
    (rep : Rep (view l) fl ul) (h : mem_region_list_release aw fuel l a = some l1) :
    l1.entry_count = l.entry_count := by
  have h' := mem_region_list_release_mono aw fuel (fl.length + ul.length + 2) l a _ h
  rcases release_spec aw (fuel + (fl.length + ul.length + 2)) l a rep (by omega) (by omega)
    with ⟨_, e⟩ | ⟨pre, u, post, fpre, fpost, l2, _, _, _, _, _, _, e, _, c1, _⟩
  · rw [e] at h'; cases h'; rfl
  · rw [e] at h'; cases h'; exact c1

/-- The capacity recorded by `init` is never changed. -/
theorem Reachable.count {aw maxlen base total fuel : Nat} {es : Nat → mem_region}
    {count : Int} {old l0 l : mem_region_list} (hw : base + total ≤ 2 ^ aw)
    (ht : total < 2 ^ 32)
    (h : mem_region_list_init fuel (some old) base total (some es) count = some (true, some l0))
    (hr : Reachable aw maxlen l0 l) : l.entry_count = count := by
  induction hr with
  | init => exact (sim_init h).2.1
  | assign fuel len r hp _ e ih =>
    obtain ⟨fl, ul, rep, hx⟩ := hp.rep hw ht h
    rw [assign_count rep hx e, ih]
  | release fuel a hp _ e ih =>
    obtain ⟨fl, ul, rep, _⟩ := hp.rep hw ht h
    rw [release_count rep e, ih]

/-- Induction principle for the reachable states of a span that does not start at
address 0: a property of the abstract state that holds initially and is kept by the
abstract assign and release holds, together with `Sim`, in every reachable state. -/
theorem Reachable.sim {aw maxlen base total fuel : Nat} {es : Nat → mem_region} {count : Int}
    {old l0 l : mem_region_list} (hb : 0 < base) (hw : base + total ≤ 2 ^ aw)
    (ht : total < 2 ^ 32)
    (h : mem_region_list_init fuel (some old) base total (some es) count = some (true, some l0))
    (P : AState → Prop) (h0 : P ⟨[(base, total)], [], total, 0⟩)
    (ha : ∀ s s' len r, AInv base total s → P s → 0 < len → len ≤ maxlen →
      aAssign aw s (needs_length len) = some (s', r) → P s')
    (hrel : ∀ s a, AInv base total s → P s → P (aRelease aw s a))
    (hr : Reachable aw maxlen l0 l) : ∃ s, Sim base total l s ∧ P s := by
  induction hr with
  | init => exact ⟨_, (sim_init h).1, h0⟩
  | assign fuel len r _ hle e ih =>
    obtain ⟨s, sim, hp⟩ := ih
    rcases Nat.eq_zero_or_pos r with rfl | hr0
    · have := sim_assign_null hb hw ht sim e
      subst this
      exact ⟨s, sim, hp⟩
    · have hlen : 0 < len := by
        rcases Nat.eq_zero_or_pos len with rfl | hlen
        · rw [mem_region_list_assign, if_pos (le_refl _)] at e
          cases e; omega
        · exact hlen
      obtain ⟨s1, e1, sim1, _⟩ := sim_assign_success hb hw ht sim e (by omega)
      exact ⟨s1, sim1, ha s s1 len r (sim_ainv sim) hp hlen hle e1⟩
  | @release lp l1 fuel a _ _ e ih =>
    obtain ⟨s, sim, hp⟩ := ih
    obtain ⟨l2, e2, sim2, _⟩ := @sim_release aw base total hb hw ht lp s sim a
      (fuel + (lp.entry_count.toNat + 2)) (by omega)
    have := release_of_some e e2
    subst this
    exact ⟨_, sim2, hrel s a (sim_ainv sim) hp⟩

theorem aAssign_fresh {aw base total : Nat} (ht : total < 2 ^ 32) {n : Nat} (hn : n ≤ total) :
    ∃ s1, aAssign aw ⟨[(base, total)], [], total, 0⟩ n = some (s1, base) ∧
      s1.used = [(base, n)] ∧ s1.ulen = n ∧ s1.flen = total - n := by
  have hn32 : n < 2 ^ 32 := by omega
  refine ⟨⟨if sub32 total n ≤ 0 then [] else [((base + n) % 2 ^ aw, sub32 total n)],
    [(base, n)], sub32 total n, u32 (0 + n)⟩, ?_, rfl, ?_, ?_⟩
  · unfold aAssign
    simp only [carveFree, hn, if_true, Option.map_some']
    rfl
  · simp only [Nat.zero_add]; exact u32_eq hn32
  · exact sub32_eq hn ht

/-- C11 (amended): `assign` returns `NULL` and leaves the list as it is for length 0.
Every other length is taken as an unsigned size, those of `2 ^ 31` and above included:
on a freshly initialised span that does not start at address 0 and whose total covers
the rounded length, the call returns `base` and books the rounded length as used. -/
theorem assign_rejects_only_zero_length (aw : Nat) :
    (∀ (fuel : Nat) (l : mem_region_list), mem_region_list_assign aw fuel l 0 = some (l, 0)) ∧
    (∀ (fuel base total : Nat) (es : Nat → mem_region) (count : Int)
      (old l0 : mem_region_list), base + total ≤ 2 ^ aw → total < 2 ^ 32 → 0 < base →
      mem_region_list_init fuel (some old) base total (some es) count = some (true, some l0) →
      ∀ f len : Nat, 0 < len → needs_length len ≤ total → count.toNat < f →
        ∃ l1, mem_region_list_assign aw f l0 len = some (l1, base) ∧
          mem_region_list_get_used (some l1) = needs_length len ∧
          mem_region_list_get_free (some l1) = total - needs_length len) := by
  constructor
  · intro fuel l
    rw [mem_region_list_assign, if_pos (le_refl _)]
  · intro fuel base total es count old l0 hw ht hb hinit f len hlen hn hf
    obtain ⟨sim0, hc0, hc2⟩ := sim_init hinit
    obtain ⟨s1, e1, u1, ul1, fl1⟩ := @aAssign_fresh aw base total ht _ hn
    rcases @sim_assign aw base total hb hw ht l0 _ sim0 len hlen f (by rw [hc0]; exact hf) with
      ⟨_, hex | hnone⟩ | ⟨l1, r, s1', e, _, ea, sim1, _, _, _⟩
    · exfalso
      rw [hc0] at hex
      simp only [List.length_cons, List.length_nil] at hex
      omega
    · rw [e1] at hnone; cases hnone
    · rw [e1] at ea
      cases ea
      obtain ⟨_, _, g1, g2⟩ := sim_regions sim1
      exact ⟨l1, e, by rw [g2, ul1], by rw [g1, fl1]⟩

theorem assign_rejects_only_zero_length_witness :
    (4096 + 3221225472 ≤ 2 ^ 32 ∧ 3221225472 < 2 ^ 32 ∧ 0 < 4096 ∧
      mem_region_list_init 4 (some demoOld) 4096 3221225472 (some demoEntries) 8
        = some (true, some (demoInit 4096 3221225472 8)) ∧
      0 < 2147483648 ∧ needs_length 2147483648 ≤ 3221225472 ∧ (8 : Int).toNat < 16) ∧
    ∃ l1, mem_region_list_assign 32 16 (demoInit 4096 3221225472 8) 2147483648
        = some (l1, 4096) ∧
      mem_region_list_get_used (some l1) = needs_length 2147483648 ∧
      mem_region_list_get_free (some l1) = 3221225472 - needs_length 2147483648 :=
  ⟨⟨by decide, by decide, by decide, rfl, by decide, by decide, by decide⟩,
    (assign_rejects_only_zero_length 32).2 4 4096 3221225472 demoEntries 8 demoOld
      (demoInit 4096 3221225472 8) (by decide) (by decide) (by decide) rfl 16 2147483648
      (by decide) (by decide) (by decide)⟩

/-- C14 (init validation): `mem_region_list_init` returns, and it returns `false`
exactly when the list is `NULL`, the entry storage is `NULL` or `entry_count < 2`; for
every other input (any base address, any length) it returns `true`. When it returns
`false` the list object is as it was. -/
theorem init_validation (fuel : Nat) (list : Option mem_region_list) (address length : Nat)
    (entries : Option (Nat → mem_region)) (entry_count : Int) :
    ∃ ok list', mem_region_list_init (fuel + 1) list address length entries entry_count
        = some (ok, list') ∧
      (ok = false ↔ (list = none ∨ entries = none ∨ entry_count < 2)) ∧
      (ok = false → list' = list) := by
  cases list with
  | none => exact ⟨false, none, rfl, by simp, fun _ => rfl⟩
  | some l =>
    cases entries with
    | none => exact ⟨false, some l, rfl, by simp, fun _ => rfl⟩
    | some es =>
      by_cases hc : entry_count < 2
      · refine ⟨false, some l, ?_, by simp [hc], fun _ => rfl⟩
        simp only [mem_region_list_init, hc, if_true]
      · obtain ⟨l0, e, _⟩ := init_spec (fuel + 1) address length es entry_count l
          (by omega) (by omega)
        exact ⟨true, some l0, e, by simp [hc], fun h => by cases h⟩

/-- C15 (init postcondition): after a successful `init(base, total, entries, capacity)`
the walk of the free list meets slot 0 only, which holds `(base, total)`; the used list is
empty; the free length is `total` and the used length 0; the capacity is recorded; and
every other slot of the pool carries the empty marker (address `NULL`, length 0). -/
theorem init_postcondition (fuel base total : Nat) (es : Nat → mem_region) (count : Int)
    (old l0 : mem_region_list)
    (hinit : mem_region_list_init fuel (some old) base total (some es) count
      = some (true, some l0)) :
    walk (count.toNat + 1) l0 .free = some [.entry 0] ∧
    regions (count.toNat + 1) l0 .free = some [(base, total)] ∧
    walk (count.toNat + 1) l0 .used = some [] ∧
    regions (count.toNat + 1) l0 .used = some [] ∧
    mem_region_list_get_free (some l0) = total ∧
    mem_region_list_get_used (some l0) = 0 ∧
    l0.entry_count = count ∧
    ∀ i : Nat, i ≠ 0 → (i : Int) < count →
      (l0.entries i).address = 0 ∧ (l0.entries i).length = 0 := by
  obtain ⟨hf, hc⟩ := init_some hinit
  obtain ⟨l, e, rep, c, a0, n0, hoth, lf, lu⟩ := init_spec fuel base total es count old hf hc
  rw [e] at hinit
  cases hinit
  have hcnt : l0.entry_count = count := c
  have hw1 := walk_spec l0 (Or.inl rfl) [0] (count.toNat + 1) rep.free
    (by simp only [List.length_cons, List.length_nil]; omega)
  have hw2 := walk_spec l0 (Or.inr rfl) [] (count.toNat + 1) rep.used (by simp)
  have hr1 := regions_spec l0 (Or.inl rfl) [0] (count.toNat + 1) rep.free
    (by simp only [List.length_cons, List.length_nil]; omega)
  have hr2 := regions_spec l0 (Or.inr rfl) [] (count.toNat + 1) rep.used (by simp)
  refine ⟨hw1, ?_, hw2, hr2, lf, lu, hcnt, fun i hi hic => hoth i hi hic⟩
  rw [hr1]
  simp only [List.map_cons, List.map_nil, a0, n0]

theorem init_postcondition_witness :
    mem_region_list_init 4 (some demoOld) 4096 1024 (some demoEntries) 8
      = some (true, some (demoInit 4096 1024 8)) ∧
    (walk ((8 : Int).toNat + 1) (demoInit 4096 1024 8) .free = some [.entry 0] ∧
    regions ((8 : Int).toNat + 1) (demoInit 4096 1024 8) .free = some [(4096, 1024)] ∧
    walk ((8 : Int).toNat + 1) (demoInit 4096 1024 8) .used = some [] ∧
    regions ((8 : Int).toNat + 1) (demoInit 4096 1024 8) .used = some [] ∧
    mem_region_list_get_free (some (demoInit 4096 1024 8)) = 1024 ∧
    mem_region_list_get_used (some (demoInit 4096 1024 8)) = 0 ∧
    (demoInit 4096 1024 8).entry_count = 8 ∧
    ∀ i : Nat, i ≠ 0 → (i : Int) < 8 →
      ((demoInit 4096 1024 8).entries i).address = 0 ∧
      ((demoInit 4096 1024 8).entries i).length = 0) :=
  ⟨rfl, init_postcondition 4 4096 1024 demoEntries 8 demoOld (demoInit 4096 1024 8) rfl⟩

theorem regions_det {f1 f2 : Nat} {l : mem_region_list} {head : Ptr}
    {r1 r2 : List (Nat × Nat)} (h1 : regions f1 l head = some r1)
    (h2 : regions f2 l head = some r2) : r1 = r2 := by
  have e1 := regions_mono f1 f2 l head _ h1
  have e2 := regions_mono f2 f1 l head _ h2
  rw [Nat.add_comm f2 f1, e1] at e2
  exact Option.some.inj e2

theorem coalesceFromR_head (aw : Nat) : ∀ (rest : List (Nat × Nat)) (cur : Nat × Nat),
    ∀ y ∈ (coalesceFromR aw cur rest).head?, y.1 = cur.1 := by
  intro rest
  induction rest with
  | nil => intro cur y hy; simp [coalesceFromR] at hy; rw [← hy]
  | cons q rest ih =>
    intro cur y hy
    by_cases hm : (cur.1 + cur.2) % 2 ^ aw = q.1
    · simp only [coalesceFromR, hm, if_true] at hy
      exact ih (cur.1, u32 (cur.2 + q.2)) y hy
    · simp only [coalesceFromR, hm, if_false, List.head?_cons, Option.mem_def,
        Option.some.injEq] at hy
      rw [← hy]

/-- After `arrange_regions` no member of the list ends where its successor starts,
neither in pointer arithmetic nor as numbers. -/
theorem coalesceFromR_chain (aw : Nat) : ∀ (rest : List (Nat × Nat)) (cur : Nat × Nat),
    (∀ r ∈ cur :: rest, r.1 < 2 ^ aw) →
    (coalesceFromR aw cur rest).Chain'
      (fun m1 m2 => (m1.1 + m1.2) % 2 ^ aw ≠ m2.1 ∧ m1.1 + m1.2 ≠ m2.1) := by
  intro rest
  induction rest with
  | nil => intro cur _; simp [coalesceFromR]
  | cons q rest ih =>
    intro cur hlt
    by_cases hm : (cur.1 + cur.2) % 2 ^ aw = q.1
    · simp only [coalesceFromR, hm, if_true]
      refine ih _ ?_
      intro r hr
      rcases List.mem_cons.1 hr with rfl | hr
      · exact hlt cur (by simp)
      · exact hlt r (by simp [hr])
    · simp only [coalesceFromR, hm, if_false]
      refine List.Chain'.cons' (ih q fun r hr => hlt r (List.mem_cons_of_mem _ hr)) ?_
      intro y hy
      have hy1 := coalesceFromR_head aw rest q y hy
      have hq := hlt q (by simp)
      rw [hy1]
      refine ⟨hm, fun e => hm ?_⟩
      rw [Nat.mod_eq_of_lt (by omega)]
      exact e

theorem coalesceR_chain (aw : Nat) (xs : List (Nat × Nat)) (hlt : ∀ r ∈ xs, r.1 < 2 ^ aw) :
    (coalesceR aw xs).Chain'
      (fun m1 m2 => (m1.1 + m1.2) % 2 ^ aw ≠ m2.1 ∧ m1.1 + m1.2 ≠ m2.1) := by
  cases xs with
  | nil => simp [coalesceR]
  | cons x xs => exact coalesceFromR_chain aw xs x hlt

theorem addr_lt_assign {aw : Nat} {s s' : AState} {n r : Nat}
    (hp : ∀ q ∈ s.free ++ s.used, q.1 < 2 ^ aw) (h : aAssign aw s n = some (s', r)) :
    ∀ q ∈ s'.free ++ s'.used, q.1 < 2 ^ aw := by
  obtain ⟨P, L, Q, hf, _, _, rfl⟩ := aAssign_some aw s s' n r h
  have hpos : 0 < 2 ^ aw := Nat.pow_pos (by decide)
  intro q hq
  simp only at hq
  rcases List.mem_append.1 hq with hq | hq
  · rcases List.mem_append.1 hq with hq | hq
    · exact hp q (by rw [hf]; simp [hq])
    · by_cases hz : sub32 L n ≤ 0
      · rw [if_pos hz] at hq
        exact hp q (by rw [hf]; simp [hq])
      · rw [if_neg hz] at hq
        rcases List.mem_cons.1 hq with rfl | hq
        · exact Nat.mod_lt _ hpos
        · exact hp q (by rw [hf]; simp [hq])
  · rcases List.mem_cons.1 ((insertReg_perm _ _).mem_iff.1 hq) with rfl | hq
    · exact hp (r, L) (by rw [hf]; simp)
    · exact hp q (by simp [hq])

theorem addr_lt_release {aw : Nat} {s : AState} (a : Nat)
    (hp : ∀ q ∈ s.free ++ s.used, q.1 < 2 ^ aw) :
    ∀ q ∈ (aRelease aw s a).free ++ (aRelease aw s a).used, q.1 < 2 ^ aw := by
  rcases aRelease_some aw s a with ⟨_, e⟩ | ⟨P, m, Q, hu, _, e⟩
  · rw [e]; exact hp
  · rw [e]
    have hins : ∀ q ∈ insertReg (a, m) s.free, q.1 < 2 ^ aw := by
      intro q hq
      rcases List.mem_cons.1 ((insertReg_perm _ _).mem_iff.1 hq) with rfl | hq
      · exact hp (a, m) (by rw [hu]; simp)
      · exact hp q (by simp [hq])
    intro q hq
    simp only at hq
    rcases List.mem_append.1 hq with hq | hq
    · cases hi : insertReg (a, m) s.free with
      | nil => rw [hi] at hq; simp [coalesceR] at hq
      | cons x xs =>
        rw [hi] at hq hins
        rcases coalesceFromR_start aw xs x q hq with h1 | ⟨w0, h0, h1⟩
        · rw [h1]; exact hins x (by simp)
        · rw [h1]; exact hins w0 (by simp [h0])
    · refine hp q ?_
      rw [hu]
      rcases List.mem_append.1 hq with hq | hq
      · simp [hq]
      · simp [hq]

/-- C18 (no adjacent free regions after release): in every reachable state, after a
`release(a)` that found a used region starting at `a`, the walk of the free list returns
and no member ends where its successor starts, neither in the pointer arithmetic of
`arrange_regions` nor as plain numbers. -/
theorem no_adjacent_free_after_release (aw fuel base total : Nat) (es : Nat → mem_region)
    (count : Int) (old l0 l l1 : mem_region_list) (hw : base + total ≤ 2 ^ aw)
    (ht : total < 2 ^ 32) (hbw : base < 2 ^ aw)
    (hinit : mem_region_list_init fuel (some old) base total (some es) count
      = some (true, some l0))
    (hreach : Reachable aw (2 ^ 32 - 1) l0 l) (f g a : Nat) (us : List (Nat × Nat))
    (hus : regions f l .used = some us) (hfound : ∃ r ∈ us, r.1 = a)
    (hrel : mem_region_list_release aw g l a = some l1) :
    ∃ fr, regions (count.toNat + 1) l1 .free = some fr ∧
      fr.Chain' (fun m1 m2 => (m1.1 + m1.2) % 2 ^ aw ≠ m2.1 ∧ m1.1 + m1.2 ≠ m2.1) := by
  have hcnt := hreach.count hw ht hinit
  rcases Nat.eq_zero_or_pos base with rfl | hb
  · have inv := hreach.d2inv ht hinit
    obtain ⟨fl, ul, rep, _⟩ := hreach.rep hw ht hinit
    have c1 := release_count rep hrel
    obtain ⟨_, _, _, hs⟩ := d2inv_release ht inv hrel
    rcases hs with ⟨rep1, _⟩ | ⟨rep1, _⟩
    · have := (regions_of_rep rep1).1
      rw [c1, hcnt] at this
      exact ⟨_, this, by simp⟩
    · have := (regions_of_rep rep1).1
      rw [c1, hcnt] at this
      exact ⟨_, this, by simp⟩
  · obtain ⟨s, sim, hp⟩ := hreach.sim hb hw ht hinit
      (fun s => ∀ q ∈ s.free ++ s.used, q.1 < 2 ^ aw)
      (by intro q hq; simp at hq; rw [hq]; exact hbw)
      (fun s s' len r _ hp _ _ h => addr_lt_assign hp h)
      (fun s a _ hp => addr_lt_release a hp)
    obtain ⟨l2, e2, sim2, c2⟩ := @sim_release aw base total hb hw ht l s sim a
      (g + (l.entry_count.toNat + 2)) (by omega)
    have := release_of_some hrel e2
    subst this
    have hus' : us = s.used := regions_det hus (sim_regions sim).2.1
    subst hus'
    have hfr := (sim_regions sim2).1
    rw [c2, hcnt] at hfr
    refine ⟨_, hfr, ?_⟩
    rcases aRelease_some aw s a with ⟨hno, _⟩ | ⟨P, m, Q, hu, _, e⟩
    · obtain ⟨r, hr, hra⟩ := hfound
      exact absurd hra (hno r hr)
    · rw [e]
      refine coalesceR_chain aw _ ?_
      intro q hq
      rcases List.mem_cons.1 ((insertReg_perm _ _).mem_iff.1 hq) with rfl | hq
      · exact hp (a, m) (by rw [hu]; simp)
      · exact hp q (by simp [hq])

theorem no_adjacent_free_after_release_witness :
    (4096 + 1024 ≤ 2 ^ 32 ∧ 1024 < 2 ^ 32 ∧ 4096 < 2 ^ 32 ∧
      mem_region_list_init 4 (some demoOld) 4096 1024 (some demoEntries) 8
        = some (true, some (demoInit 4096 1024 8)) ∧
      Reachable 32 (2 ^ 32 - 1) (demoInit 4096 1024 8)
        (demoAssign (demoAssign (demoInit 4096 1024 8) 100) 50) ∧
      regions 16 (demoAssign (demoAssign (demoInit 4096 1024 8) 100) 50) .used
        = some [(4096, 100), (4196, 52)] ∧
      (∃ r ∈ [((4096 : Nat), (100 : Nat)), (4196, 52)], r.1 = 4096) ∧
      mem_region_list_release 32 16 (demoAssign (demoAssign (demoInit 4096 1024 8) 100) 50)
        4096
        = some (demoRelease (demoAssign (demoAssign (demoInit 4096 1024 8) 100) 50) 4096)) ∧
    ∃ fr, regions ((8 : Int).toNat + 1)
        (demoRelease (demoAssign (demoAssign (demoInit 4096 1024 8) 100) 50) 4096) .free
        = some fr ∧
      fr.Chain' (fun m1 m2 => (m1.1 + m1.2) % 2 ^ 32 ≠ m2.1 ∧ m1.1 + m1.2 ≠ m2.1) :=
  have hr : Reachable 32 (2 ^ 32 - 1) (demoInit 4096 1024 8)
      (demoAssign (demoAssign (demoInit 4096 1024 8) 100) 50) :=
    Reachable.assign 16 50 4196
      (Reachable.assign 16 100 4096 Reachable.init (by decide) rfl) (by decide) rfl
  ⟨⟨by decide, by decide, by decide, rfl, hr, rfl, ⟨(4096, 100), by simp, rfl⟩, rfl⟩,
    no_adjacent_free_after_release 32 4 4096 1024 demoEntries 8 demoOld
      (demoInit 4096 1024 8) _ _ (by decide) (by decide) (by decide) rfl hr 16 16 4096
      [(4096, 100), (4196, 52)] rfl ⟨(4096, 100), by simp, rfl⟩ rfl⟩

theorem rep_fuel {l : mem_region_list} {fl ul : List Nat} (rep : Rep (view l) fl ul) :
    fl.length + ul.length ≤ l.entry_count.toNat := by
  have := rep_length_le rep
  have hcv : (view l).count = l.entry_count := rfl
  rw [hcv, List.length_append] at this
  omega

/-- C20 (amended): the three failure classes of `assign` give one and the same result.
In every reachable state a call with length 0 (invalid request), a call made when no
pool slot carries the empty marker (pool exhausted) and a call for which no free-list
member has the rounded length (insufficient space) all return `NULL` and leave the list
object as it was. -/
theorem assign_failures_return_same (aw fuel base total : Nat) (es : Nat → mem_region)
    (count : Int) (old l0 l : mem_region_list) (hw : base + total ≤ 2 ^ aw)
    (ht : total < 2 ^ 32)
    (hinit : mem_region_list_init fuel (some old) base total (some es) count
      = some (true, some l0))
    (hreach : Reachable aw (2 ^ 32 - 1) l0 l) (f len : Nat) (hf : count.toNat < f)
    (hfail : len = 0 ∨ (∀ j : Nat, (j : Int) < l.entry_count → (l.entries j).address ≠ 0) ∨
      ∃ g fr, regions g l .free = some fr ∧ ∀ r ∈ fr, r.2 < needs_length len) :
    mem_region_list_assign aw f l len = some (l, 0) := by
  rcases Nat.eq_zero_or_pos len with rfl | hlen
  · rw [mem_region_list_assign, if_pos (le_refl _)]
  rcases hfail with h | h | ⟨g, fr, hfr, hsmall⟩
  · omega
  · refine assign_of_null len ?_
    rcases get_free_entry_spec l with ⟨e, _⟩ | ⟨x, hx, hx0, _, _⟩
    · exact e
    · exact absurd hx0 (h x hx)
  · have hcnt := hreach.count hw ht hinit
    obtain ⟨fl, ul, rep, hx⟩ := hreach.rep hw ht hinit
    have hfu := rep_fuel rep
    rw [hcnt] at hfu
    rcases assign_spec aw f l len rep hlen (by omega) (by omega) hx with ⟨_, e⟩ |
      ⟨x, _, _, e⟩ | ⟨x, pre, c, post, upre, upost, l2, _, efl, _, hfit, _⟩
    · exact e
    · exact e
    · exfalso
      have := regions_det hfr (regions_of_rep rep).1
      subst this
      have := hsmall (reg (view l) c) (List.mem_map_of_mem _ (by rw [efl]; simp))
      have e : (reg (view l) c).2 = (view l).len (.entry c) := rfl
      omega

theorem assign_failures_return_same_witness :
    (4096 + 1024 ≤ 2 ^ 32 ∧ 1024 < 2 ^ 32 ∧
      mem_region_list_init 4 (some demoOld) 4096 1024 (some demoEntries) 3
        = some (true, some (demoInit 4096 1024 3)) ∧
      Reachable 32 (2 ^ 32 - 1) (demoInit 4096 1024 3)
        (demoAssign (demoInit 4096 1024 3) 100) ∧
      (3 : Int).toNat < 16 ∧
      regions 16 (demoAssign (demoInit 4096 1024 3) 100) .free = some [(4196, 924)] ∧
      ∀ r ∈ [((4196 : Nat), (924 : Nat))], r.2 < needs_length 2000) ∧
    mem_region_list_assign 32 16 (demoAssign (demoInit 4096 1024 3) 100) 2000
      = some (demoAssign (demoInit 4096 1024 3) 100, 0) :=
  have hr : Reachable 32 (2 ^ 32 - 1) (demoInit 4096 1024 3)
      (demoAssign (demoInit 4096 1024 3) 100) :=
    Reachable.assign 16 100 4096 Reachable.init (by decide) rfl
  ⟨⟨by decide, by decide, rfl, hr, by decide, rfl, by decide⟩,
    assign_failures_return_same 32 4 4096 1024 demoEntries 3 demoOld (demoInit 4096 1024 3) _
      (by decide) (by decide) rfl hr 16 2000 (by decide)
      (Or.inr (Or.inr ⟨16, [(4196, 924)], rfl, by decide⟩))⟩

/-- Failure atomicity away from address 0: when the base address is not 0, a call of
`assign` that returns `NULL` leaves the list object as it was. -/
theorem assign_null_keeps_state {aw fuel base total : Nat} {es : Nat → mem_region}
    {count : Int} {old l0 l l1 : mem_region_list} (hb : 0 < base) (hw : base + total ≤ 2 ^ aw)
    (ht : total < 2 ^ 32)
    (hinit : mem_region_list_init fuel (some old) base total (some es) count
      = some (true, some l0))
    (hreach : Reachable aw (2 ^ 32 - 1) l0 l) {f len : Nat}
    (h : mem_region_list_assign aw f l len = some (l1, 0)) : l1 = l := by
  obtain ⟨s, sim, _⟩ := hreach.sim hb hw ht hinit (fun _ => True) trivial
    (fun _ _ _ _ _ _ _ _ _ => trivial) (fun _ _ _ _ => trivial)
  exact sim_assign_null hb hw ht sim h

/-- Release of an address at which no used region starts returns and leaves the list
object as it was, in every reachable state and for every base address. -/
theorem release_unknown_keeps_state {aw fuel base total : Nat} {es : Nat → mem_region}
    {count : Int} {old l0 l : mem_region_list} (hw : base + total ≤ 2 ^ aw)
    (ht : total < 2 ^ 32)
    (hinit : mem_region_list_init fuel (some old) base total (some es) count
      = some (true, some l0))
    (hreach : Reachable aw (2 ^ 32 - 1) l0 l) {f g a : Nat} {us : List (Nat × Nat)}
    (hus : regions f l .used = some us) (hno : ∀ r ∈ us, r.1 ≠ a)
    (hg : count.toNat + 1 < g) : mem_region_list_release aw g l a = some l := by
  have hcnt := hreach.count hw ht hinit
  obtain ⟨fl, ul, rep, _⟩ := hreach.rep hw ht hinit
  have hfu := rep_fuel rep
  rw [hcnt] at hfu
  rcases release_spec aw g l a rep (by omega) (by omega) with ⟨_, e⟩ |
    ⟨pre, u, post, fpre, fpost, l2, eul, _, hu, _⟩
  · exact e
  · exfalso
    have := regions_det hus (regions_of_rep rep).2
    subst this
    exact hno (reg (view l) u) (List.mem_map_of_mem _ (by rw [eul]; simp)) hu

/-- Cached lengths away from address 0: when the base address is not 0, in every
reachable state the two cached lengths are the sums of the member lengths. -/
theorem cached_lengths_exact {aw fuel base total : Nat} {es : Nat → mem_region}
    {count : Int} {old l0 l : mem_region_list} (hb : 0 < base) (hw : base + total ≤ 2 ^ aw)
    (ht : total < 2 ^ 32)
    (hinit : mem_region_list_init fuel (some old) base total (some es) count
      = some (true, some l0))
    (hreach : Reachable aw (2 ^ 32 - 1) l0 l) :
    ∃ fr ur, regions (count.toNat + 1) l .free = some fr ∧
      regions (count.toNat + 1) l .used = some ur ∧
      mem_region_list_get_free (some l) = (fr.map Prod.snd).sum ∧
      mem_region_list_get_used (some l) = (ur.map Prod.snd).sum := by
  have hcnt := hreach.count hw ht hinit
  obtain ⟨s, sim, _⟩ := hreach.sim hb hw ht hinit (fun _ => True) trivial
    (fun _ _ _ _ _ _ _ _ _ => trivial) (fun _ _ _ _ => trivial)
  obtain ⟨r1, r2, g1, g2⟩ := sim_regions sim
  rw [hcnt] at r1 r2
  have inv := sim_ainv sim
  exact ⟨_, _, r1, r2, by rw [g1, inv.sumf], by rw [g2, inv.sumu]⟩

/-- Slot membership away from address 0: when the base address is not 0, in every
reachable state no slot is on both lists or twice on one, and a slot carries the empty
marker exactly when it is on neither list; so `get_free_entry` never returns a listed
slot. -/
theorem slot_membership {aw fuel base total : Nat} {es : Nat → mem_region}
    {count : Int} {old l0 l : mem_region_list} (hb : 0 < base) (hw : base + total ≤ 2 ^ aw)
    (ht : total < 2 ^ 32)
    (hinit : mem_region_list_init fuel (some old) base total (some es) count
      = some (true, some l0))
    (hreach : Reachable aw (2 ^ 32 - 1) l0 l) :
    ∃ fs us, walk (count.toNat + 1) l .free = some fs ∧
      walk (count.toNat + 1) l .used = some us ∧ (fs ++ us).Nodup ∧
      (∀ i : Nat, (i : Int) < count →
        ((l.entries i).address = 0 ↔ Ptr.entry i ∉ fs ++ us)) ∧
      get_free_entry l ∉ fs ++ us := by
  have hcnt := hreach.count hw ht hinit
  obtain ⟨fl, ul, rep, hempty, ainv⟩ := hreach.ginv hb hw ht hinit
  have hfu := rep_fuel rep
  have hmem : ∀ i, Ptr.entry i ∈ fl.map Ptr.entry ++ ul.map Ptr.entry ↔ i ∈ fl ++ ul := by
    intro i; simp [List.mem_map]
  have w1 := walk_spec l (Or.inl rfl) fl (count.toNat + 1) rep.free (by omega)
  have w2 := walk_spec l (Or.inr rfl) ul (count.toNat + 1) rep.used (by omega)
  refine ⟨_, _, w1, w2, ?_, ?_, ?_⟩
  · rw [← List.map_append]
    exact rep.nodup.map (fun _ _ h => Ptr.entry.inj h)
  · intro i hi
    rw [hmem]
    exact ⟨fun h0 hin => ainv.mark hb i hin h0,
      fun hni => hempty i (by rw [← hcnt] at hi; exact hi) hni⟩
  · rcases get_free_entry_spec l with ⟨e, _⟩ | ⟨x, _, hx0, _, e⟩
    · rw [e]; simp
    · rw [e, hmem]
      exact fun hin => ainv.mark hb x hin hx0

/-- C11 (counterexample): a length that is negative as a signed 32-bit integer is served
like any other size. On a span of `0xC0000000` bytes at `0x1000`, `assign(0x80000000)`
returns the non-null address `0x1000` and books `0x80000000` used bytes. -/
theorem assign_serves_length_above_int_max :
    2 ^ 31 ≤ 2147483648 ∧ 2147483648 < 2 ^ 32 ∧
    mem_region_list_init 4 (some demoOld) 4096 3221225472 (some demoEntries) 8
      = some (true, some (demoInit 4096 3221225472 8)) ∧
    mem_region_list_assign 32 16 (demoInit 4096 3221225472 8) 2147483648
      = some (demoAssign (demoInit 4096 3221225472 8) 2147483648, 4096) ∧
    (4096 : Nat) ≠ 0 ∧
    mem_region_list_get_used (some (demoAssign (demoInit 4096 3221225472 8) 2147483648))
      = 2147483648 ∧
    regions 16 (demoAssign (demoInit 4096 3221225472 8) 2147483648) .used
      = some [(4096, 2147483648)] :=
  ⟨by decide, by decide, rfl, rfl, by decide, rfl, rfl⟩

/-- C12 (code defect): with base address 0 the first `assign(100)` returns `NULL`, yet
the state after the call differs from the state before: the used length goes from 0 to
100, the free length from 1024 to 924, and the free list loses its only member, which
turns up on the used list with length 0. -/
theorem null_assign_changes_state_at_base_zero :
    mem_region_list_init 4 (some demoOld) 0 1024 (some demoEntries) 8
      = some (true, some (demoInit 0 1024 8)) ∧
    mem_region_list_assign 32 16 (demoInit 0 1024 8) 100
      = some (demoAssign (demoInit 0 1024 8) 100, 0) ∧
    mem_region_list_get_used (some (demoInit 0 1024 8)) = 0 ∧
    mem_region_list_get_used (some (demoAssign (demoInit 0 1024 8) 100)) = 100 ∧
    mem_region_list_get_free (some (demoInit 0 1024 8)) = 1024 ∧
    mem_region_list_get_free (some (demoAssign (demoInit 0 1024 8) 100)) = 924 ∧
    regions 16 (demoInit 0 1024 8) .free = some [(0, 1024)] ∧
    regions 16 (demoAssign (demoInit 0 1024 8) 100) .free = some [] ∧
    regions 16 (demoInit 0 1024 8) .used = some [] ∧
    regions 16 (demoAssign (demoInit 0 1024 8) 100) .used = some [(0, 0)] :=
  ⟨rfl, rfl, rfl, rfl, rfl, rfl, rfl, rfl, rfl, rfl⟩

/-- C13 (code defect): after `assign(0xFFFFFFFF)` (rounded length 0) and `assign(4)` the
used list is `[(0x1000, 0), (0x1000, 4)]`. One `release(0x1000)` leaves
`[(0x1000, 4)]`; a second `release(0x1000)` right after it removes that region too, so
releasing the address twice does not have the effect of releasing it once. -/
theorem double_release_differs_after_rounding_overflow :
    mem_region_list_assign 32 16 (demoInit 4096 1024 8) 4294967295
      = some (demoAssign (demoInit 4096 1024 8) 4294967295, 4096) ∧
    mem_region_list_assign 32 16 (demoAssign (demoInit 4096 1024 8) 4294967295) 4
      = some (demoAssign (demoAssign (demoInit 4096 1024 8) 4294967295) 4, 4096) ∧
    regions 16 (demoAssign (demoAssign (demoInit 4096 1024 8) 4294967295) 4) .used
      = some [(4096, 0), (4096, 4)] ∧
    mem_region_list_release 32 16 (demoAssign (demoAssign (demoInit 4096 1024 8) 4294967295) 4)
      4096 = some (demoRelease (demoAssign (demoAssign (demoInit 4096 1024 8) 4294967295) 4)
        4096) ∧
    regions 16 (demoRelease (demoAssign (demoAssign (demoInit 4096 1024 8) 4294967295) 4) 4096)
      .used = some [(4096, 4)] ∧
    mem_region_list_release 32 16
      (demoRelease (demoAssign (demoAssign (demoInit 4096 1024 8) 4294967295) 4) 4096) 4096
      = some (demoRelease (demoRelease
          (demoAssign (demoAssign (demoInit 4096 1024 8) 4294967295) 4) 4096) 4096) ∧
    regions 16 (demoRelease (demoRelease
      (demoAssign (demoAssign (demoInit 4096 1024 8) 4294967295) 4) 4096) 4096) .used
      = some [] ∧
    mem_region_list_get_used (some
      (demoRelease (demoAssign (demoAssign (demoInit 4096 1024 8) 4294967295) 4) 4096)) = 4 ∧
    mem_region_list_get_used (some (demoRelease (demoRelease
      (demoAssign (demoAssign (demoInit 4096 1024 8) 4294967295) 4) 4096) 4096)) = 0 :=
  ⟨rfl, rfl, rfl, rfl, rfl, rfl, rfl, rfl, rfl⟩

/-- C17 (code defect): with base address 0, after the first `assign(100)` the cached
used length is 100 while the only used-list member has length 0, and the cached free
length is 924 while the free list is empty. -/
theorem cached_lengths_inexact_at_base_zero :
    mem_region_list_init 4 (some demoOld) 0 1024 (some demoEntries) 8
      = some (true, some (demoInit 0 1024 8)) ∧
    Reachable 32 (2 ^ 32 - 1) (demoInit 0 1024 8) (demoAssign (demoInit 0 1024 8) 100) ∧
    mem_region_list_get_used (some (demoAssign (demoInit 0 1024 8) 100)) = 100 ∧
    regions 16 (demoAssign (demoInit 0 1024 8) 100) .used = some [(0, 0)] ∧
    (([(0, 0)] : List (Nat × Nat)).map Prod.snd).sum = 0 ∧
    mem_region_list_get_free (some (demoAssign (demoInit 0 1024 8) 100)) = 924 ∧
    regions 16 (demoAssign (demoInit 0 1024 8) 100) .free = some [] :=
  ⟨rfl, Reachable.assign 16 100 0 Reachable.init (by decide) rfl, rfl, rfl, rfl, rfl, rfl⟩

/-- C19 (code defect): with base address 0, right after `init` slot 0 is the member of
the free list and carries the empty marker at the same time, and `get_free_entry`
returns this very slot. -/
theorem free_entry_is_listed_at_base_zero :
    mem_region_list_init 4 (some demoOld) 0 1024 (some demoEntries) 8
      = some (true, some (demoInit 0 1024 8)) ∧
    walk 16 (demoInit 0 1024 8) .free = some [.entry 0] ∧
    ((demoInit 0 1024 8).entries 0).address = 0 ∧
    get_free_entry (demoInit 0 1024 8) = .entry 0 :=
  ⟨rfl, rfl, rfl, rfl⟩

/-- C20 (counterexample): the three failure classes give the same result. With three
slots, after `assign(100)` a slot is left: `assign(0)` (invalid request) and
`assign(2000)` (no fitting region) both return `NULL` and the unchanged list. After a
further `assign(50)` no slot is left: `assign(0)` (invalid request) and `assign(8)`
(pool exhausted, although 874 bytes are free) both return `NULL` and the unchanged
list. -/
theorem failure_classes_share_one_result :
    get_free_entry (demoAssign (demoInit 4096 1024 3) 100) = .entry 2 ∧
    mem_region_list_assign 32 16 (demoAssign (demoInit 4096 1024 3) 100) 0
      = some (demoAssign (demoInit 4096 1024 3) 100, 0) ∧
    mem_region_list_assign 32 16 (demoAssign (demoInit 4096 1024 3) 100) 2000
      = some (demoAssign (demoInit 4096 1024 3) 100, 0) ∧
    get_free_entry (demoAssign (demoAssign (demoInit 4096 1024 3) 100) 50) = .null ∧
    regions 16 (demoAssign (demoAssign (demoInit 4096 1024 3) 100) 50) .free
      = some [(4248, 872)] ∧
    mem_region_list_assign 32 16 (demoAssign (demoAssign (demoInit 4096 1024 3) 100) 50) 0
      = some (demoAssign (demoAssign (demoInit 4096 1024 3) 100) 50, 0) ∧
    mem_region_list_assign 32 16 (demoAssign (demoAssign (demoInit 4096 1024 3) 100) 50) 8
      = some (demoAssign (demoAssign (demoInit 4096 1024 3) 100) 50, 0) :=
  ⟨rfl, rfl, rfl, rfl, rfl, rfl, rfl⟩

theorem needs_length_mod (len : Nat) : needs_length len % 4 = 0 := by
  simp only [needs_length, u32, sub32, ALIGNMENT_SIZE]
  omega

theorem needs_length_eq {len : Nat} (h0 : 0 < len) (h : len ≤ 2 ^ 32 - 4) :
    needs_length len = (len + 3) / 4 * 4 := by
  simp only [needs_length, u32, sub32, ALIGNMENT_SIZE]
  omega

theorem needs_length_bounds {len : Nat} (h0 : 0 < len) (h : len ≤ 2 ^ 32 - 4) :
    0 < needs_length len ∧ len ≤ needs_length len ∧ needs_length len < len + 4 := by
  rw [needs_length_eq h0 h]
  omega

theorem starts_release {aw : Nat} {s : AState} (a : Nat) (p : Nat → Prop)
    (hp : ∀ q ∈ s.free ++ s.used, p q.1) :
    ∀ q ∈ (aRelease aw s a).free ++ (aRelease aw s a).used, p q.1 := by
  rcases aRelease_some aw s a with ⟨_, e⟩ | ⟨P, m, Q, hu, _, e⟩
  · rw [e]; exact hp
  · rw [e]
    have hins : ∀ q ∈ insertReg (a, m) s.free, p q.1 := by
      intro q hq
      rcases List.mem_cons.1 ((insertReg_perm _ _).mem_iff.1 hq) with rfl | hq
      · exact hp (a, m) (by rw [hu]; simp)
      · exact hp q (by simp [hq])
    intro q hq
    simp only at hq
    rcases List.mem_append.1 hq with hq | hq
    · cases hi : insertReg (a, m) s.free with
      | nil => rw [hi] at hq; simp [coalesceR] at hq
      | cons x xs =>
        rw [hi] at hq hins
        rcases coalesceFromR_start aw xs x q hq with h1 | ⟨w0, h0, h1⟩
        · rw [h1]; exact hins x (by simp)
        · rw [h1]; exact hins w0 (by simp [h0])
    · refine hp q ?_
      rw [hu]
      rcases List.mem_append.1 hq with hq | hq
      · simp [hq]
      · simp [hq]

/-- With a base address other than 0 and requests of at most `2 ^ 32 - 4` bytes, every
reachable state shows an abstract state that satisfies `TInv`; over an empty span the
abstract state never leaves the initial one. -/
theorem Reachable.tinv {aw base total fuel : Nat} {es : Nat → mem_region} {count : Int}
    {old l0 l : mem_region_list} (hb : 0 < base) (hw : base + total ≤ 2 ^ aw)
    (ht : total < 2 ^ 32)
    (h : mem_region_list_init fuel (some old) base total (some es) count = some (true, some l0))
    (hr : Reachable aw (2 ^ 32 - 4) l0 l) :
    ∃ s, Sim base total l s ∧ (0 < total → TInv base total s) ∧
      (total = 0 → s = ⟨[(base, total)], [], total, 0⟩) := by
  obtain ⟨sim0, _⟩ := sim_init h
  refine hr.sim hb hw ht h
    (fun s => (0 < total → TInv base total s) ∧
      (total = 0 → s = ⟨[(base, total)], [], total, 0⟩))
    ⟨fun h0 => tinv_init h0 (sim_ainv sim0), fun _ => rfl⟩ ?_ ?_
  · intro s s' len r _ hp hlen hle ha
    obtain ⟨hn, _, _⟩ := needs_length_bounds hlen hle
    refine ⟨fun h0 => tinv_assign hw ht hn (hp.1 h0) ha, fun h0 => ?_⟩
    exfalso
    have e := hp.2 h0
    subst e
    obtain ⟨_, hle', _⟩ := aAssign_single rfl ha
    omega
  · intro s a _ hp
    refine ⟨fun h0 => tinv_release hb hw ht a (hp.1 h0), fun h0 => ?_⟩
    have e := hp.2 h0
    subst e
    rfl

/-- C24 (full reclamation): with a base address other than 0, no address wrap and
requests of at most `2 ^ 32 - 4` bytes, in every reachable state whose used list is empty
the walk of the free list returns the single region `(base, total)`. -/
theorem full_reclamation (aw fuel base total : Nat) (es : Nat → mem_region) (count : Int)
    (old l0 l : mem_region_list) (hb : 0 < base) (hw : base + total ≤ 2 ^ aw)
    (ht : total < 2 ^ 32)
    (hinit : mem_region_list_init fuel (some old) base total (some es) count
      = some (true, some l0))
    (hreach : Reachable aw (2 ^ 32 - 4) l0 l) (f : Nat)
    (hused : regions f l .used = some []) :
    regions (count.toNat + 1) l .free = some [(base, total)] := by
  have hcnt := hreach.count hw ht hinit
  obtain ⟨s, sim, h1, h2⟩ := hreach.tinv hb hw ht hinit
  obtain ⟨r1, r2, _, _⟩ := sim_regions sim
  rw [hcnt] at r1 r2
  have hu : s.used = [] := (regions_det hused r2).symm
  rw [r1]
  rcases Nat.eq_zero_or_pos total with h0 | h0
  · rw [h2 h0]
  · rw [tinv_reclaim h0 (h1 h0) hu]

theorem full_reclamation_witness :
    (0 < 4096 ∧ 4096 + 1024 ≤ 2 ^ 32 ∧ 1024 < 2 ^ 32 ∧
      mem_region_list_init 4 (some demoOld) 4096 1024 (some demoEntries) 8
        = some (true, some (demoInit 4096 1024 8)) ∧
      Reachable 32 (2 ^ 32 - 4) (demoInit 4096 1024 8)
        (demoRelease (demoRelease (demoAssign (demoAssign (demoInit 4096 1024 8) 100) 50)
          4096) 4196) ∧
      regions 16 (demoRelease (demoRelease (demoAssign (demoAssign (demoInit 4096 1024 8) 100)
        50) 4096) 4196) .used = some []) ∧
    regions ((8 : Int).toNat + 1) (demoRelease (demoRelease
      (demoAssign (demoAssign (demoInit 4096 1024 8) 100) 50) 4096) 4196) .free
      = some [(4096, 1024)] :=
  have hr : Reachable 32 (2 ^ 32 - 4) (demoInit 4096 1024 8)
      (demoRelease (demoRelease (demoAssign (demoAssign (demoInit 4096 1024 8) 100) 50)
        4096) 4196) :=
    Reachable.release 16 4196
      (Reachable.release 16 4096
        (Reachable.assign 16 50 4196
          (Reachable.assign 16 100 4096 Reachable.init (by decide) rfl) (by decide) rfl)
        (by decide) rfl)
      (by decide) rfl
  ⟨⟨by decide, by decide, by decide, rfl, hr, rfl⟩,
    full_reclamation 32 4 4096 1024 demoEntries 8 demoOld (demoInit 4096 1024 8) _
      (by decide) (by decide) (by decide) rfl hr 16 rfl⟩

/-- C26 (alignment of returned addresses): with a base address other than 0 and no
address wrap, every non-null address returned by `assign` in a reachable state lies at
a multiple of 4 above the base, whatever the total length and the lengths requested. -/
theorem returned_address_alignment (aw fuel base total : Nat) (es : Nat → mem_region)
    (count : Int) (old l0 l l1 : mem_region_list) (hb : 0 < base)
    (hw : base + total ≤ 2 ^ aw) (ht : total < 2 ^ 32)
    (hinit : mem_region_list_init fuel (some old) base total (some es) count
      = some (true, some l0))
    (hreach : Reachable aw (2 ^ 32 - 1) l0 l) (f len a : Nat)
    (h : mem_region_list_assign aw f l len = some (l1, a)) (ha : a ≠ 0) :
    base ≤ a ∧ (a - base) % 4 = 0 := by
  have key : ∀ (s s' : AState) (len r : Nat), AInv base total s →
      (∀ q ∈ s.free ++ s.used, (q.1 - base) % 4 = 0) → 0 < len → len ≤ 2 ^ 32 - 1 →
      aAssign aw s (needs_length len) = some (s', r) →
      ∀ q ∈ s'.free ++ s'.used, (q.1 - base) % 4 = 0 := by
    intro s s' len r inv hp _ _ hassign
    have hm := needs_length_mod len
    generalize needs_length len = n at hassign hm
    obtain ⟨P, L, Q, hf, hnL, _, rfl⟩ := aAssign_some aw s s' n r hassign
    have hin := inv.inb (r, L) (by rw [hf]; simp)
    have hr := hp (r, L) (by rw [hf]; simp)
    simp only at hin hr
    intro q hq
    simp only at hq
    rcases List.mem_append.1 hq with hq | hq
    · rcases List.mem_append.1 hq with hq | hq
      · exact hp q (by rw [hf]; simp [hq])
      · by_cases hz : sub32 L n ≤ 0
        · rw [if_pos hz] at hq
          exact hp q (by rw [hf]; simp [hq])
        · rw [if_neg hz] at hq
          rcases List.mem_cons.1 hq with rfl | hq
          · rw [sub32_eq hnL (by omega)] at hz
            have hlt : r + n < 2 ^ aw := by omega
            have hmod : (r + n) % 2 ^ aw = r + n := Nat.mod_eq_of_lt hlt
            show ((r + n) % 2 ^ aw - base) % 4 = 0
            rw [hmod]
            omega
          · exact hp q (by rw [hf]; simp [hq])
    · rcases List.mem_cons.1 ((insertReg_perm _ _).mem_iff.1 hq) with rfl | hq
      · exact hr
      · exact hp q (by simp [hq])
  obtain ⟨s, sim, hq⟩ := hreach.sim hb hw ht hinit
    (fun s => ∀ q ∈ s.free ++ s.used, (q.1 - base) % 4 = 0)
    (by intro q hq; simp at hq; rw [hq]; simp) key
    (fun s a _ hp => starts_release a (fun x => (x - base) % 4 = 0) hp)
  obtain ⟨s1, e1, _, _, _, hba, _⟩ := sim_assign_success hb hw ht sim h ha
  obtain ⟨P, L, Q, hf, _⟩ := aAssign_some aw s s1 _ a e1
  exact ⟨hba, hq (a, L) (by rw [hf]; simp)⟩

theorem returned_address_alignment_witness :
    (0 < 4096 ∧ 4096 + 1024 ≤ 2 ^ 32 ∧ 1024 < 2 ^ 32 ∧
      mem_region_list_init 4 (some demoOld) 4096 1024 (some demoEntries) 8
        = some (true, some (demoInit 4096 1024 8)) ∧
      Reachable 32 (2 ^ 32 - 1) (demoInit 4096 1024 8) (demoAssign (demoInit 4096 1024 8) 5) ∧
      mem_region_list_assign 32 16 (demoAssign (demoInit 4096 1024 8) 5) 50
        = some (demoAssign (demoAssign (demoInit 4096 1024 8) 5) 50, 4104) ∧
      (4104 : Nat) ≠ 0) ∧
    (4096 ≤ 4104 ∧ (4104 - 4096) % 4 = 0) :=
  have hr : Reachable 32 (2 ^ 32 - 1) (demoInit 4096 1024 8)
      (demoAssign (demoInit 4096 1024 8) 5) :=
    Reachable.assign 16 5 4096 Reachable.init (by decide) rfl
  ⟨⟨by decide, by decide, by decide, rfl, hr, rfl, by decide⟩,
    returned_address_alignment 32 4 4096 1024 demoEntries 8 demoOld (demoInit 4096 1024 8)
      _ _ (by decide) (by decide) (by decide) rfl hr 16 50 4104 rfl (by decide)⟩

theorem foldr_insertReg_perm : ∀ (xs : List (Nat × Nat)),
    (xs.foldr insertReg []).Perm xs := by
  intro xs
  induction xs with
  | nil => exact List.Perm.refl _
  | cons r rest ih =>
    exact (insertReg_perm r _).trans (List.Perm.cons r ih)

theorem foldr_insertReg_sorted : ∀ (xs : List (Nat × Nat)),
    xs.Pairwise Disj → (∀ r ∈ xs, 0 < r.2) →
    (xs.foldr insertReg []).Pairwise (fun p q => p.1 + p.2 ≤ q.1) := by
  intro xs
  induction xs with
  | nil => intro _ _; simp
  | cons r rest ih =>
    intro hd hpos
    rw [List.pairwise_cons] at hd
    have hperm := foldr_insertReg_perm rest
    refine insertReg_sorted r (hpos r (by simp)) _
      (ih hd.2 (fun q hq => hpos q (by simp [hq])))
      (fun q hq => hpos q (by simp [hperm.mem_iff.1 hq]))
      (fun q hq => hd.1 q (hperm.mem_iff.1 hq))

theorem weak_sum (hi : Nat) : ∀ (rest : List (Nat × Nat)) (r : Nat × Nat),
    (r :: rest).Pairwise (fun p q => p.1 + p.2 ≤ q.1) →
    (∀ q ∈ r :: rest, q.1 + q.2 ≤ hi) →
    r.1 + ((r :: rest).map Prod.snd).sum ≤ hi := by
  intro rest
  induction rest with
  | nil => intro r _ h; have := h r (by simp); simpa using this
  | cons q rest ih =>
    intro r hp h
    rw [List.pairwise_cons] at hp
    have h1 := ih q hp.2 (fun w hw => h w (List.mem_cons_of_mem _ hw))
    have h2 := hp.1 q (by simp)
    simp only [List.map_cons, List.sum_cons] at h1 ⊢
    omega

theorem tiles_of_sum (hi : Nat) : ∀ (m : List (Nat × Nat)) (lo : Nat),
    m.Pairwise (fun p q => p.1 + p.2 ≤ q.1) →
    (∀ r ∈ m, lo ≤ r.1 ∧ r.1 + r.2 ≤ hi) → lo + (m.map Prod.snd).sum = hi →
    Tiles lo hi m := by
  intro m
  induction m with
  | nil => intro lo _ _ hs; simpa [Tiles] using hs
  | cons r rest ih =>
    intro lo hp hin hs
    have hw := weak_sum hi rest r hp (fun q hq => (hin q hq).2)
    have hr := hin r (by simp)
    rw [List.pairwise_cons] at hp
    simp only [List.map_cons, List.sum_cons] at hs hw
    have e : r.1 = lo := by omega
    refine ⟨e, ih (lo + r.2) hp.2 (fun q hq => ⟨?_, (hin q (by simp [hq])).2⟩) (by omega)⟩
    have := hp.1 q hq
    omega

theorem tiles_chain : ∀ (m : List (Nat × Nat)) (lo hi : Nat), Tiles lo hi m →
    m.Chain' (fun x y => x.1 + x.2 = y.1) := by
  intro m
  induction m with
  | nil => intro _ _ _; simp
  | cons r rest ih =>
    intro lo hi h
    refine List.Chain'.cons' (ih _ _ h.2) ?_
    intro y hy
    cases rest with
    | nil => simp at hy
    | cons q rest =>
      simp only [List.head?_cons, Option.mem_def, Option.some.injEq] at hy
      subst hy
      rw [h.1]
      exact h.2.1.symm

theorem count_alternating {α : Type} (p : α → Prop) [DecidablePred p] : ∀ (m : List α),
    m.Chain' (fun x y => ¬ (p x ∧ p y)) →
    m.countP (fun x => decide (p x)) ≤ m.countP (fun x => decide (¬ p x)) + 1 ∧
    (∀ x ∈ m.head?, ¬ p x →
      m.countP (fun x => decide (p x)) ≤ m.countP (fun x => decide (¬ p x))) := by
  intro m
  induction m with
  | nil => intro _; simp
  | cons x rest ih =>
    intro hc
    have hrest := ih (List.Chain'.tail hc)
    by_cases hx : p x
    · have h2 : rest.countP (fun x => decide (p x)) ≤ rest.countP (fun x => decide (¬ p x)) := by
        cases rest with
        | nil => simp
        | cons y rest =>
          have hy : ¬ p y := fun hy => (List.chain'_cons.1 hc).1 ⟨hx, hy⟩
          exact hrest.2 y (by simp) hy
      simp only [List.countP_cons, hx, decide_True, if_true, not_true_eq_false, decide_False,
        Bool.false_eq_true, if_false, List.head?_cons, Option.mem_def, Option.some.injEq]
      refine ⟨by omega, fun y hy hny => ?_⟩
      subst hy
      exact absurd hx hny
    · simp only [List.countP_cons, hx, decide_False, Bool.false_eq_true, if_false,
        not_false_eq_true, decide_True, if_true]
      exact ⟨by omega, fun _ _ _ => by omega⟩

theorem mergeRegs_tiles {base total : Nat} {s : AState} (inv : TInv base total s) :
    (mergeRegs s.free s.used).Pairwise (fun p q => p.1 + p.2 ≤ q.1) ∧
    Tiles base (base + total) (mergeRegs s.free s.used) := by
  have hperm := foldr_insertReg_perm (s.free ++ s.used)
  have hsorted := foldr_insertReg_sorted (s.free ++ s.used) inv.ainv.disj inv.pos
  refine ⟨hsorted, tiles_of_sum (base + total) _ base hsorted
    (fun r hr => inv.ainv.inb r (hperm.mem_iff.1 hr)) ?_⟩
  have hs : ((mergeRegs s.free s.used).map Prod.snd).sum
      = ((s.free ++ s.used).map Prod.snd).sum := (hperm.map Prod.snd).sum_eq
  rw [hs, List.map_append, List.sum_append, inv.ainv.sumf, inv.ainv.sumu, inv.ainv.tot]

/-- C23 (exact tiling): with a base address other than 0, no address wrap and requests
of at most `2 ^ 32 - 4` bytes, in every reachable state the regions of the two lists,
merged in address order, tile `[base, base + total)` exactly; and every non-null address
`a` returned by `assign` satisfies `base ≤ a` and `a + needed ≤ base + total`. -/
theorem exact_tiling (aw fuel base total : Nat) (es : Nat → mem_region) (count : Int)
    (old l0 l : mem_region_list) (hb : 0 < base) (hw : base + total ≤ 2 ^ aw)
    (ht : total < 2 ^ 32)
    (hinit : mem_region_list_init fuel (some old) base total (some es) count
      = some (true, some l0))
    (hreach : Reachable aw (2 ^ 32 - 4) l0 l) :
    (∃ fr ur, regions (count.toNat + 1) l .free = some fr ∧
      regions (count.toNat + 1) l .used = some ur ∧
      (mergeRegs fr ur).Perm (fr ++ ur) ∧
      (mergeRegs fr ur).Pairwise (fun p q => p.1 + p.2 ≤ q.1) ∧
      Tiles base (base + total) (mergeRegs fr ur)) ∧
    (∀ (f len : Nat) (l1 : mem_region_list) (a : Nat),
      mem_region_list_assign aw f l len = some (l1, a) → a ≠ 0 →
      base ≤ a ∧ a + needs_length len ≤ base + total) := by
  have hcnt := hreach.count hw ht hinit
  obtain ⟨s, sim, h1, h2⟩ := hreach.tinv hb hw ht hinit
  obtain ⟨r1, r2, _, _⟩ := sim_regions sim
  rw [hcnt] at r1 r2
  constructor
  · refine ⟨s.free, s.used, r1, r2, foldr_insertReg_perm _, ?_⟩
    rcases Nat.eq_zero_or_pos total with h0 | h0
    · rw [h2 h0]
      subst h0
      simp [mergeRegs, insertReg, Tiles]
    · exact mergeRegs_tiles (h1 h0)
  · intro f len l1 a h ha
    obtain ⟨_, _, _, _, _, hba, hbn⟩ := sim_assign_success hb hw ht sim h ha
    exact ⟨hba, hbn⟩

theorem exact_tiling_witness :
    (0 < 4096 ∧ 4096 + 1024 ≤ 2 ^ 32 ∧ 1024 < 2 ^ 32 ∧
      mem_region_list_init 4 (some demoOld) 4096 1024 (some demoEntries) 8
        = some (true, some (demoInit 4096 1024 8)) ∧
      Reachable 32 (2 ^ 32 - 4) (demoInit 4096 1024 8)
        (demoRelease (demoAssign (demoAssign (demoInit 4096 1024 8) 100) 50) 4096)) ∧
    ((∃ fr ur,
      regions ((8 : Int).toNat + 1)
        (demoRelease (demoAssign (demoAssign (demoInit 4096 1024 8) 100) 50) 4096) .free
        = some fr ∧
      regions ((8 : Int).toNat + 1)
        (demoRelease (demoAssign (demoAssign (demoInit 4096 1024 8) 100) 50) 4096) .used
        = some ur ∧
      (mergeRegs fr ur).Perm (fr ++ ur) ∧
      (mergeRegs fr ur).Pairwise (fun p q => p.1 + p.2 ≤ q.1) ∧
      Tiles 4096 (4096 + 1024) (mergeRegs fr ur)) ∧
    (∀ (f len : Nat) (l1 : mem_region_list) (a : Nat),
      mem_region_list_assign 32 f
        (demoRelease (demoAssign (demoAssign (demoInit 4096 1024 8) 100) 50) 4096) len
        = some (l1, a) → a ≠ 0 →
      4096 ≤ a ∧ a + needs_length len ≤ 4096 + 1024)) :=
  have hr : Reachable 32 (2 ^ 32 - 4) (demoInit 4096 1024 8)
      (demoRelease (demoAssign (demoAssign (demoInit 4096 1024 8) 100) 50) 4096) :=
    Reachable.release 16 4096
      (Reachable.assign 16 50 4196
        (Reachable.assign 16 100 4096 Reachable.init (by decide) rfl) (by decide) rfl)
      (by decide) rfl
  ⟨⟨by decide, by decide, by decide, rfl, hr⟩,
    exact_tiling 32 4 4096 1024 demoEntries 8 demoOld (demoInit 4096 1024 8) _
      (by decide) (by decide) (by decide) rfl hr⟩

theorem free_le_used_succ {base total : Nat} {s : AState} (inv : TInv base total s) : s.free.length ≤ s.used.length + 1 := by
  have hperm := foldr_insertReg_perm (s.free ++ s.used)
  obtain ⟨_, htiles⟩ := mergeRegs_tiles inv
  have hchain := tiles_chain _ _ _ htiles
  have hsym : s.free.Pairwise (fun r q => r.1 + r.2 < q.1 ∨ q.1 + q.2 < r.1) :=
    inv.fsep.imp (fun {r q} h => Or.inl h)
  have hall := List.Pairwise.forall (fun r q h => h.symm) hsym
  have hc : (mergeRegs s.free s.used).Chain' (fun x y => ¬ (x ∈ s.free ∧ y ∈ s.free)) := by
    refine hchain.imp ?_
    intro x y hxy ⟨hx, hy⟩
    have hpx := inv.pos x (List.mem_append_left _ hx)
    have hpy := inv.pos y (List.mem_append_left _ hy)
    have hne : x ≠ y := by
      intro e
      rw [e] at hxy
      omega
    rcases hall hx hy hne with h | h
    · omega
    · omega
  have hcount := (count_alternating (fun x => x ∈ s.free) _ hc).1
  have hdis := inv.ainv.disj
  rw [List.pairwise_append] at hdis
  have hnot : ∀ u ∈ s.used, u ∉ s.free := by
    intro u hu hf
    have := hdis.2.2 u hf u hu
    have hp := inv.pos u (List.mem_append_right _ hu)
    unfold Disj at this
    omega
  have e1 : (mergeRegs s.free s.used).countP (fun x => decide (x ∈ s.free))
      = s.free.length := by
    rw [mergeRegs, hperm.countP_eq, List.countP_append,
      List.countP_eq_length.2 (fun a ha => by simpa using ha),
      List.countP_eq_zero.2 (fun a ha => by simpa using hnot a ha)]
    rfl
  have e2 : (mergeRegs s.free s.used).countP (fun x => decide (¬ x ∈ s.free))
      = s.used.length := by
    rw [mergeRegs, hperm.countP_eq, List.countP_append,
      List.countP_eq_zero.2 (fun a ha => by simpa using ha),
      List.countP_eq_length.2 (fun a ha => by simpa using hnot a ha)]
    simp
  rw [e1, e2] at hcount
  exact hcount

/-- C25 (bounded descriptor use): with a base address other than 0, no address wrap and
requests of at most `2 ^ 32 - 4` bytes, in every reachable state consecutive free
regions are separated by a gap (the free list is fully coalesced), the free list has at
most one member more than the used list, so with `k` used regions at most `2 * k + 1`
pool slots are occupied; while `2 * k + 1` is below the capacity `get_free_entry` finds
a slot, and `assign` succeeds whenever a free region has the rounded length. -/
theorem bounded_descriptor_use (aw fuel base total : Nat) (es : Nat → mem_region)
    (count : Int) (old l0 l : mem_region_list) (hb : 0 < base) (hw : base + total ≤ 2 ^ aw)
    (ht : total < 2 ^ 32)
    (hinit : mem_region_list_init fuel (some old) base total (some es) count
      = some (true, some l0))
    (hreach : Reachable aw (2 ^ 32 - 4) l0 l) :
    ∃ fr ur, regions (count.toNat + 1) l .free = some fr ∧
      regions (count.toNat + 1) l .used = some ur ∧
      fr.Pairwise (fun r q => r.1 + r.2 < q.1) ∧
      fr.length ≤ ur.length + 1 ∧ fr.length + ur.length ≤ 2 * ur.length + 1 ∧
      (((2 * ur.length + 1 : Nat) : Int) < count →
        get_free_entry l ≠ .null ∧
        ∀ f len : Nat, count.toNat < f → 0 < len → (∃ r ∈ fr, needs_length len ≤ r.2) →
          ∃ l1 a, mem_region_list_assign aw f l len = some (l1, a) ∧ a ≠ 0) := by
  have hcnt := hreach.count hw ht hinit
  obtain ⟨s, sim, h1, h2⟩ := hreach.tinv hb hw ht hinit
  obtain ⟨r1, r2, _, _⟩ := sim_regions sim
  rw [hcnt] at r1 r2
  have hle : s.free.length ≤ s.used.length + 1 := by
    rcases Nat.eq_zero_or_pos total with h0 | h0
    · rw [h2 h0]; simp
    · exact free_le_used_succ (h1 h0)
  have hsep : s.free.Pairwise (fun r q => r.1 + r.2 < q.1) := by
    rcases Nat.eq_zero_or_pos total with h0 | h0
    · rw [h2 h0]; simp
    · exact (h1 h0).fsep
  refine ⟨s.free, s.used, r1, r2, hsep, hle, by omega, fun hk => ?_⟩
  have hslot : get_free_entry l ≠ .null := by
    intro e
    have := (sim_exhausted hb sim).1 e
    rw [hcnt] at this
    omega
  refine ⟨hslot, fun f len hf hlen ⟨r, hr, hfit⟩ => ?_⟩
  rcases @sim_assign aw base total hb hw ht l s sim len hlen f (by rw [hcnt]; exact hf) with
    ⟨_, hex | hnone⟩ | ⟨l1, a, s1, e, _, _, _, _, hba, _⟩
  · exfalso
    rw [hcnt] at hex
    omega
  · exfalso
    unfold aAssign at hnone
    rw [Option.map_eq_none'] at hnone
    have := (carveFree_isNone aw (needs_length len) s.free).1 hnone r hr
    omega
  · exact ⟨l1, a, e, by omega⟩

theorem bounded_descriptor_use_witness :
    (0 < 4096 ∧ 4096 + 1024 ≤ 2 ^ 32 ∧ 1024 < 2 ^ 32 ∧
      mem_region_list_init 4 (some demoOld) 4096 1024 (some demoEntries) 8
        = some (true, some (demoInit 4096 1024 8)) ∧
      Reachable 32 (2 ^ 32 - 4) (demoInit 4096 1024 8)
        (demoRelease (demoAssign (demoAssign (demoInit 4096 1024 8) 100) 50) 4096)) ∧
    ∃ fr ur,
      regions ((8 : Int).toNat + 1)
        (demoRelease (demoAssign (demoAssign (demoInit 4096 1024 8) 100) 50) 4096) .free
        = some fr ∧
      regions ((8 : Int).toNat + 1)
        (demoRelease (demoAssign (demoAssign (demoInit 4096 1024 8) 100) 50) 4096) .used
        = some ur ∧
      fr.Pairwise (fun r q => r.1 + r.2 < q.1) ∧
      fr.length ≤ ur.length + 1 ∧ fr.length + ur.length ≤ 2 * ur.length + 1 ∧
      (((2 * ur.length + 1 : Nat) : Int) < 8 →
        get_free_entry
          (demoRelease (demoAssign (demoAssign (demoInit 4096 1024 8) 100) 50) 4096) ≠ .null ∧
        ∀ f len : Nat, (8 : Int).toNat < f → 0 < len → (∃ r ∈ fr, needs_length len ≤ r.2) →
          ∃ l1 a, mem_region_list_assign 32 f
            (demoRelease (demoAssign (demoAssign (demoInit 4096 1024 8) 100) 50) 4096) len
            = some (l1, a) ∧ a ≠ 0) :=
  have hr : Reachable 32 (2 ^ 32 - 4) (demoInit 4096 1024 8)
      (demoRelease (demoAssign (demoAssign (demoInit 4096 1024 8) 100) 50) 4096) :=
    Reachable.release 16 4096
      (Reachable.assign 16 50 4196
        (Reachable.assign 16 100 4096 Reachable.init (by decide) rfl) (by decide) rfl)
      (by decide) rfl
  ⟨⟨by decide, by decide, by decide, rfl, hr⟩,
    bounded_descriptor_use 32 4 4096 1024 demoEntries 8 demoOld (demoInit 4096 1024 8) _
      (by decide) (by decide) (by decide) rfl hr⟩

theorem aRelease_free {aw : Nat} {s : AState} {a : Nat} {t : (Nat × Nat) × List (Nat × Nat)}
    (h : takeReg a s.used = some t) :
    (aRelease aw s a).free = coalesceR aw (insertReg t.1 s.free) := by
  unfold aRelease
  rw [h]

/-- C21 (release without a free neighbour does not merge): after a successful init let
two assigns return the non-null addresses `a < b`, the second request being at most
`2 ^ 32 - 4` bytes, and let free bytes remain. Then `a = base` and `b = base + n1`;
`release(a)` returns and leaves exactly the two free regions `(base, n1)` and
`(b + n2, total - n1 - n2)` and the used region `(b, n2)`; a following `release(b)` returns
and leaves the single free region `(base, total)` and no used region. Here `n1`, `n2` are
the rounded lengths. -/
theorem release_first_keeps_two_free (aw fuel base total : Nat) (es : Nat → mem_region)
    (count : Int) (old l0 : mem_region_list) (hw : base + total ≤ 2 ^ aw) (ht : total < 2 ^ 32)
    (hinit : mem_region_list_init fuel (some old) base total (some es) count
      = some (true, some l0))
    (f1 f2 len1 len2 : Nat) (l1 l2 : mem_region_list) (a b : Nat)
    (h1 : mem_region_list_assign aw f1 l0 len1 = some (l1, a))
    (h2 : mem_region_list_assign aw f2 l1 len2 = some (l2, b))
    (ha : a ≠ 0) (hab : a < b) (hlen2 : len2 ≤ 2 ^ 32 - 4)
    (htail : 0 < mem_region_list_get_free (some l2)) (g : Nat) (hg : count.toNat + 1 < g) :
    a = base ∧ b = base + needs_length len1 ∧
    ∃ m1, mem_region_list_release aw g l2 a = some m1 ∧
      regions (count.toNat + 1) m1 .free
        = some [(base, needs_length len1),
            (b + needs_length len2, total - needs_length len1 - needs_length len2)] ∧
      regions (count.toNat + 1) m1 .used = some [(b, needs_length len2)] ∧
      ∃ m2, mem_region_list_release aw g m1 b = some m2 ∧
        regions (count.toNat + 1) m2 .free = some [(base, total)] ∧
        regions (count.toNat + 1) m2 .used = some [] := by
  have hb : 0 < base := by
    rcases Nat.eq_zero_or_pos base with rfl | hb
    · exact absurd (d2inv_assign ht (d2inv_init hinit) h1).2 ha
    · exact hb
  have hlen2' : 0 < len2 := by
    rcases Nat.eq_zero_or_pos len2 with rfl | h
    · rw [mem_region_list_assign, if_pos (le_refl _)] at h2
      cases h2; omega
    · exact h
  obtain ⟨hn2, _, _⟩ := needs_length_bounds hlen2' hlen2
  obtain ⟨sim0, hc0, _⟩ := sim_init hinit
  obtain ⟨s1, e1, sim1, c1, _, _, _⟩ := sim_assign_success hb hw ht sim0 h1 ha
  obtain ⟨s2, e2, sim2, c2, _, _, _⟩ := sim_assign_success hb hw ht sim1 h2 (by omega)
  generalize needs_length len1 = n1 at e1 ⊢
  generalize needs_length len2 = n2 at e2 hn2 ⊢
  obtain ⟨ra, hle1, f1', u1⟩ := aAssign_single rfl e1
  have hz1 : ¬ sub32 total n1 ≤ 0 := by
    intro hz
    rw [if_pos hz] at f1'
    rw [aAssign_nil n2 f1'] at e2
    cases e2
  rw [if_neg hz1] at f1'
  obtain ⟨rb, hle2, f2', u2⟩ := aAssign_single f1' e2
  have hs1 : sub32 total n1 = total - n1 := sub32_eq hle1 ht
  rw [hs1] at hz1 hle2 f2'
  have hn1 : 0 < n1 := by
    rcases Nat.eq_zero_or_pos n1 with rfl | hn
    · exfalso
      have := Nat.mod_le (base + 0) (2 ^ aw)
      omega
    · exact hn
  have hb' : b = base + n1 := by
    rw [rb]; exact Nat.mod_eq_of_lt (by omega)
  have hs2 : sub32 (total - n1) n2 = total - n1 - n2 := sub32_eq hle2 (by omega)
  rw [hs2] at f2'
  have hfl := (sim_regions sim2).2.2.1
  have hz2 : ¬ total - n1 - n2 ≤ 0 := by
    intro hz
    rw [if_pos hz] at f2'
    have := (sim_ainv sim2).sumf
    rw [f2'] at this
    simp only [List.map_nil, List.sum_nil] at this
    omega
  rw [if_neg hz2, ← rb] at f2'
  have hc : (b + n2) % 2 ^ aw = b + n2 := Nat.mod_eq_of_lt (by omega)
  rw [hc] at f2'
  have hu2 : s2.used = [(a, n1), (b, n2)] := by
    rw [u2, u1, ← rb, ← ra]
    have q1 : ¬ b < a := by omega
    simp [insertReg, q1]
  refine ⟨ra, hb', ?_⟩
  -- the invariant along the run
  have t0 := tinv_init (by omega : 0 < total) (sim_ainv sim0)
  have t1 := tinv_assign hw ht hn1 t0 e1
  have t2 := tinv_assign hw ht hn2 t1 e2
  have k2 : l2.entry_count = count := by rw [c2, c1, hc0]
  obtain ⟨m1, r1, sim3, c3⟩ := sim_release hb hw ht sim2 a (by rw [k2]; exact hg)
  have k3 : m1.entry_count = count := by rw [c3, k2]
  obtain ⟨m2, r2, sim4, c4⟩ := sim_release hb hw ht sim3 b (by rw [k3]; exact hg)
  have k4 : m2.entry_count = count := by rw [c4, k3]
  -- the lists after the first release
  have htake : takeReg a s2.used = some ((a, n1), [(b, n2)]) := by
    rw [hu2]; simp [takeReg]
  have hu3 : (aRelease aw s2 a).used = [(b, n2)] := by
    rw [aRelease_used, removeReg, htake]
  have hf3 : (aRelease aw s2 a).free = [(a, n1), (b + n2, total - n1 - n2)] := by
    rw [aRelease_free htake, f2']
    have q1 : a < b + n2 := by omega
    have q2 : (a + n1) % 2 ^ aw ≠ b + n2 := by
      rw [Nat.mod_eq_of_lt (by omega)]; omega
    have e1 : insertReg (a, n1) [(b + n2, total - n1 - n2)]
        = [(a, n1), (b + n2, total - n1 - n2)] := by
      simp only [insertReg]
      exact if_pos q1
    have e2 : coalesceR aw [(a, n1), (b + n2, total - n1 - n2)]
        = [(a, n1), (b + n2, total - n1 - n2)] := by
      simp only [coalesceR, coalesceFromR]
      exact if_neg q2
    rw [e1, e2]
  -- the lists after the second release
  have t4 : TInv base total (aRelease aw (aRelease aw s2 a) b) :=
    tinv_release hb hw ht b (tinv_release hb hw ht a t2)
  have hu4 : (aRelease aw (aRelease aw s2 a) b).used = [] := by
    rw [aRelease_used, hu3]
    simp [removeReg, takeReg]
  have hf4 := tinv_reclaim (by omega : 0 < total) t4 hu4
  have hr3 := sim_regions sim3
  rw [k3, hf3, hu3, ra] at hr3
  have hr4 := sim_regions sim4
  rw [k4, hf4, hu4] at hr4
  exact ⟨m1, r1, hr3.1, hr3.2.1, m2, r2, hr4.1, hr4.2.1⟩

theorem release_first_keeps_two_free_witness :
    (4096 + 1024 ≤ 2 ^ 32 ∧ 1024 < 2 ^ 32 ∧
      mem_region_list_init 4 (some demoOld) 4096 1024 (some demoEntries) 8
        = some (true, some (demoInit 4096 1024 8)) ∧
      mem_region_list_assign 32 16 (demoInit 4096 1024 8) 100
        = some (demoAssign (demoInit 4096 1024 8) 100, 4096) ∧
      mem_region_list_assign 32 16 (demoAssign (demoInit 4096 1024 8) 100) 50
        = some (demoAssign (demoAssign (demoInit 4096 1024 8) 100) 50, 4196) ∧
      (4096 : Nat) ≠ 0 ∧ 4096 < 4196 ∧ 50 ≤ 2 ^ 32 - 4 ∧
      0 < mem_region_list_get_free
        (some (demoAssign (demoAssign (demoInit 4096 1024 8) 100) 50)) ∧
      (8 : Int).toNat + 1 < 16) ∧
    (4096 = 4096 ∧ 4196 = 4096 + needs_length 100 ∧
    ∃ m1, mem_region_list_release 32 16
        (demoAssign (demoAssign (demoInit 4096 1024 8) 100) 50) 4096 = some m1 ∧
      regions ((8 : Int).toNat + 1) m1 .free
        = some [(4096, needs_length 100),
            (4196 + needs_length 50, 1024 - needs_length 100 - needs_length 50)] ∧
      regions ((8 : Int).toNat + 1) m1 .used = some [(4196, needs_length 50)] ∧
      ∃ m2, mem_region_list_release 32 16 m1 4196 = some m2 ∧
        regions ((8 : Int).toNat + 1) m2 .free = some [(4096, 1024)] ∧
        regions ((8 : Int).toNat + 1) m2 .used = some []) :=
  ⟨⟨by decide, by decide, rfl, rfl, rfl, by decide, by decide, by decide, by decide,
      by decide⟩,
    release_first_keeps_two_free 32 4 4096 1024 demoEntries 8 demoOld (demoInit 4096 1024 8)
      (by decide) (by decide) rfl 16 16 100 50 _ _ 4096 4196 rfl rfl (by decide) (by decide)
      (by decide) (by decide) 16 (by decide)⟩

theorem demo_rep : Rep (view demoBeforeArrange) [1, 0] [] := by
  refine ⟨?_, ?_, by decide, by decide⟩
  · simp only [Seg]
    exact ⟨rfl, rfl, rfl, rfl, rfl, rfl⟩
  · simp only [Seg]
    exact ⟨rfl, rfl⟩

theorem demo_regions :
    regions 16 demoBeforeArrange .free = some [(4096, 100), (4196, 924)] ∧
    mem_region_list_get_free (some demoBeforeArrange) = 1024 := ⟨rfl, rfl⟩

theorem coalesceFrom_len_zero (aw : Nat) : ∀ (ys : List Nat) (cur : Nat) (d : Data),
    (cur :: ys).Nodup →
    ∀ i ∈ cur :: ys, i ∉ (coalesceFrom aw cur d ys).2 →
      (coalesceFrom aw cur d ys).1.len (.entry i) = 0 := by
  intro ys
  induction ys with
  | nil => intro cur d _ i hi hni; simp [coalesceFrom] at hi hni; exact absurd hi hni
  | cons y ys ih =>
    intro cur d hnd
    have hcy : cur ≠ y := by
      intro e; subst e; simp at hnd
    have hnd1 : (cur :: ys).Nodup := hnd.sublist (List.Sublist.cons₂ _ (List.sublist_cons_self _ _))
    have hnd2 : (y :: ys).Nodup := (List.nodup_cons.1 hnd).2
    have hy : y ∉ cur :: ys := by
      intro h
      rcases List.mem_cons.1 h with e | h
      · exact hcy e.symm
      · exact (List.nodup_cons.1 hnd2).1 h
    by_cases hc : (d.addr (.entry cur) + d.len (.entry cur)) % 2 ^ aw = d.addr (.entry y)
    · obtain ⟨_, i2, _⟩ := coalesceFrom_regs aw ys cur (mergeInto d cur y) hnd1
      simp only [coalesceFrom, hc, if_true]
      intro i hi hni
      by_cases hiy : i = y
      · subst hiy
        have := i2 i hy
        simp only [regD, Prod.mk.injEq] at this
        rw [this.2]
        simp [mergeInto]
      · refine ih cur (mergeInto d cur y) hnd1 i ?_ hni
        simp only [List.mem_cons] at hi ⊢
        tauto
    · simp only [coalesceFrom, hc, if_false]
      intro i hi hni
      simp only [List.mem_cons, not_or] at hni
      refine ih y d hnd2 i ?_ hni.2
      simp only [List.mem_cons] at hi ⊢
      tauto

theorem coalesce_len_zero (aw : Nat) (xs : List Nat) (d : Data) (hnd : xs.Nodup) :
    ∀ i ∈ xs, i ∉ (coalesce aw d xs).2 → (coalesce aw d xs).1.len (.entry i) = 0 := by
  cases xs with
  | nil => intro i hi; simp at hi
  | cons x xs => exact coalesceFrom_len_zero aw xs x d hnd

theorem coalesceFromR_cover {aw base total : Nat} (hb : 0 < base) (hw : base + total ≤ 2 ^ aw)
    (ht : total < 2 ^ 32) : ∀ (rest : List (Nat × Nat)) (cur : Nat × Nat),
    (∀ r ∈ cur :: rest, base ≤ r.1 ∧ r.1 + r.2 ≤ base + total) →
    ∀ x : Nat, (∃ r ∈ coalesceFromR aw cur rest, r.1 ≤ x ∧ x < r.1 + r.2) ↔
      ∃ r ∈ cur :: rest, r.1 ≤ x ∧ x < r.1 + r.2 := by
  intro rest
  induction rest with
  | nil => intro cur _ x; simp [coalesceFromR]
  | cons q rest ih =>
    intro cur hin x
    have hc := hin cur (by simp)
    have hq := hin q (by simp)
    by_cases hm : (cur.1 + cur.2) % 2 ^ aw = q.1
    · have hlt : cur.1 + cur.2 < 2 ^ aw := by
        rcases Nat.lt_or_ge (cur.1 + cur.2) (2 ^ aw) with h | h
        · exact h
        · exfalso
          have e : cur.1 + cur.2 = 2 ^ aw := by omega
          rw [e, Nat.mod_self] at hm
          omega
      have he : cur.1 + cur.2 = q.1 := by rw [Nat.mod_eq_of_lt hlt] at hm; exact hm
      have hu : u32 (cur.2 + q.2) = cur.2 + q.2 := u32_eq (by omega)
      simp only [coalesceFromR, hm, if_true, hu]
      rw [ih (cur.1, cur.2 + q.2) (by
        intro r hr
        rcases List.mem_cons.1 hr with rfl | hr
        · simp only; omega
        · exact hin r (by simp [hr])) x]
      simp only [List.mem_cons, exists_eq_or_imp]
      constructor
      · rintro (h | h)
        · by_cases hx : x < cur.1 + cur.2
          · exact Or.inl ⟨h.1, hx⟩
          · exact Or.inr (Or.inl ⟨by omega, by omega⟩)
        · exact Or.inr (Or.inr h)
      · rintro (h | h | h)
        · exact Or.inl ⟨h.1, by omega⟩
        · exact Or.inl ⟨by omega, by omega⟩
        · exact Or.inr h
    · simp only [coalesceFromR, hm, if_false]
      have := ih q (fun r hr => hin r (List.mem_cons_of_mem _ hr)) x
      simp only [List.mem_cons, exists_eq_or_imp] at this ⊢
      rw [this]

theorem coalesceR_cover {aw base total : Nat} (hb : 0 < base) (hw : base + total ≤ 2 ^ aw)
    (ht : total < 2 ^ 32) (xs : List (Nat × Nat))
    (hin : ∀ r ∈ xs, base ≤ r.1 ∧ r.1 + r.2 ≤ base + total) (x : Nat) :
    (∃ r ∈ coalesceR aw xs, r.1 ≤ x ∧ x < r.1 + r.2) ↔ ∃ r ∈ xs, r.1 ≤ x ∧ x < r.1 + r.2 := by
  cases xs with
  | nil => simp [coalesceR]
  | cons r rest => exact coalesceFromR_cover hb hw ht rest r hin x

theorem arrange_inner_noop (aw : Nat) {h1 : Ptr} (hh1 : IsHead h1) (pre : List Nat)
    (cur : Nat) (ys : List Nat) (l : mem_region_list) (fuel : Nat)
    (s1 : Seg (view l) h1 (pre ++ cur :: ys) h1)
    (hno : ∀ y ∈ ys.head?, ((view l).addr (.entry cur) + (view l).len (.entry cur)) % 2 ^ aw
      ≠ (view l).addr (.entry y)) :
    arrange_regions_inner aw h1 (.entry cur) (fuel + 1) l ((view l).next (.entry cur))
      = some l := by
  have hn := (seg_mid (view l) pre cur ys s1).1
  cases ys with
  | nil =>
    simp only [firstNode] at hn
    simp [arrange_regions_inner, hn]
  | cons y ys =>
    simp only [firstNode] at hn
    have hy : Ptr.entry y ≠ h1 := (hh1.ne_entry y).symm
    have hc := hno y (by simp)
    have ea : (l.entries cur).address = (view l).addr (.entry cur) := rfl
    have el : (l.entries cur).length = (view l).len (.entry cur) := rfl
    have eya : (l.entries y).address = (view l).addr (.entry y) := rfl
    simp [arrange_regions_inner, hn, hy, load, ea, el, eya, hc]

theorem arrange_loop_noop (aw : Nat) {h1 : Ptr} (hh1 : IsHead h1) (l : mem_region_list) :
    ∀ (ys pre : List Nat) (cur fuel : Nat), Seg (view l) h1 (pre ++ cur :: ys) h1 →
      ys.length + 1 < fuel →
      ((cur :: ys).map (reg (view l))).Chain' (fun m1 m2 => (m1.1 + m1.2) % 2 ^ aw ≠ m2.1) →
      arrange_regions_loop aw h1 fuel l (.entry cur) = some l := by
  intro ys
  induction ys with
  | nil =>
    intro pre cur fuel s1 hf _
    obtain ⟨k, rfl⟩ : ∃ k, fuel = k + 2 := ⟨fuel - 2, by simp at hf; omega⟩
    have en : (l.entries cur).next = (view l).next (.entry cur) := rfl
    have hin := arrange_inner_noop aw hh1 pre cur [] l k s1 (by simp)
    have hn := (seg_mid (view l) pre cur [] s1).1
    simp only [firstNode] at hn
    rw [hn] at hin
    rw [arrange_regions_loop]
    simp only [(hh1.ne_entry cur).symm, if_false, load, Option.some_bind, en, hn, hin]
    simp [arrange_regions_loop]
  | cons y ys ih =>
    intro pre cur fuel s1 hf hch
    obtain ⟨k, rfl⟩ : ∃ k, fuel = k + 2 := ⟨fuel - 2, by omega⟩
    simp only [List.length_cons] at hf
    have en : (l.entries cur).next = (view l).next (.entry cur) := rfl
    simp only [List.map_cons] at hch
    have hc := List.chain'_cons.1 hch
    have hin := arrange_inner_noop aw hh1 pre cur (y :: ys) l k s1 (by
      intro z hz
      simp only [List.head?_cons, Option.mem_def, Option.some.injEq] at hz
      subst hz
      exact hc.1)
    have hn := (seg_mid (view l) pre cur (y :: ys) s1).1
    simp only [firstNode] at hn
    have s1' : Seg (view l) h1 ((pre ++ [cur]) ++ y :: ys) h1 := by
      simpa [List.append_assoc] using s1
    have := ih (pre ++ [cur]) y (k + 1) s1' (by omega) (by simpa using hc.2)
    rw [hn] at hin
    rw [arrange_regions_loop]
    simp only [(hh1.ne_entry cur).symm, if_false, load, Option.some_bind, en, hn, hin]
    exact this

theorem arrange_noop (aw : Nat) {h1 : Ptr} (hh1 : IsHead h1) (l : mem_region_list)
    (xs : List Nat) (fuel : Nat) (s1 : Seg (view l) h1 xs h1) (hf : xs.length < fuel)
    (hch : (xs.map (reg (view l))).Chain' (fun m1 m2 => (m1.1 + m1.2) % 2 ^ aw ≠ m2.1)) :
    arrange_regions aw fuel l h1 = some l := by
  obtain ⟨e, he, hen⟩ := head_next l hh1
  cases xs with
  | nil =>
    obtain ⟨k, rfl⟩ : ∃ k, fuel = k + 1 := ⟨fuel - 1, by simp at hf; omega⟩
    simp [arrange_regions, he, hen, s1.1, arrange_regions_loop]
  | cons x xs =>
    have := arrange_loop_noop aw hh1 l xs [] x fuel s1 (by simpa using hf) hch
    simp only [arrange_regions, he, Option.some_bind, hen, s1.1]
    exact this

/-- C28 (`arrange_regions` is a normalisation): for a well-formed list object whose
free regions lie in a span `[base, base + total)` with `base` not 0 and no address wrap
(address order is not even needed), `arrange_regions` on the free list returns; the
members left are a sublist of the old ones, the used list is untouched, the sum of the
member lengths and the set of covered addresses are unchanged, no member of the result
ends where its successor starts, every absorbed slot has address `NULL` and length 0,
slots outside the free list are unchanged, and a second call returns the same list
object. -/
theorem arrange_regions_normalises (aw base total : Nat) (l : mem_region_list)
    (fl ul : List Nat) (fuel : Nat) (rep : Rep (view l) fl ul) (hb : 0 < base)
    (hw : base + total ≤ 2 ^ aw) (ht : total < 2 ^ 32)
    (hin : ∀ r ∈ fl.map (reg (view l)), base ≤ r.1 ∧ r.1 + r.2 ≤ base + total)
    (hlt : ∀ r ∈ fl.map (reg (view l)), r.1 < 2 ^ aw) (hf : fl.length < fuel) :
    ∃ l1 fl1, arrange_regions aw fuel l .free = some l1 ∧
      Rep (view l1) fl1 ul ∧ fl1.Sublist fl ∧
      regions fuel l .free = some (fl.map (reg (view l))) ∧
      regions fuel l1 .free = some (fl1.map (reg (view l1))) ∧
      ((fl1.map (reg (view l1))).map Prod.snd).sum
        = ((fl.map (reg (view l))).map Prod.snd).sum ∧
      (∀ x : Nat, (∃ r ∈ fl1.map (reg (view l1)), r.1 ≤ x ∧ x < r.1 + r.2) ↔
        ∃ r ∈ fl.map (reg (view l)), r.1 ≤ x ∧ x < r.1 + r.2) ∧
      (fl1.map (reg (view l1))).Chain'
        (fun m1 m2 => (m1.1 + m1.2) % 2 ^ aw ≠ m2.1 ∧ m1.1 + m1.2 ≠ m2.1) ∧
      (∀ i ∈ fl, i ∉ fl1 → (l1.entries i).address = 0 ∧ (l1.entries i).length = 0) ∧
      (∀ i, i ∉ fl → reg (view l1) i = reg (view l) i) ∧
      arrange_regions aw fuel l1 .free = some l1 := by
  obtain ⟨l1, e1, d1, c1, t1, t2⟩ := arrange_regions_spec aw (Or.inl rfl) (Or.inr rfl)
    (by decide : Ptr.free ≠ Ptr.used) fl ul l fuel rep.free rep.used rep.nodup hf
  have hndf : fl.Nodup := (List.nodup_append.1 rep.nodup).1
  have hsub := coalesce_sublist aw (dataOf (view l)) fl
  obtain ⟨g1, g2, g3, _, _⟩ := coalesce_regs aw fl (dataOf (view l)) hndf
  have g4 := coalesce_len_zero aw fl (dataOf (view l)) hndf
  have hreg1 : reg (view l1) = regD (coalesce aw (dataOf (view l)) fl).1 := by
    rw [← d1]; rfl
  have hreg0 : reg (view l) = regD (dataOf (view l)) := rfl
  have hmap : (coalesce aw (dataOf (view l)) fl).2.map (reg (view l1))
      = coalesceR aw (fl.map (reg (view l))) := by
    rw [hreg1, hreg0]; exact g1
  have rep1 : Rep (view l1) (coalesce aw (dataOf (view l)) fl).2 ul :=
    ⟨t1, t2, rep.nodup.sublist (List.Sublist.append hsub (List.Sublist.refl _)), by
      intro i hi
      rw [c1]
      refine rep.bound i ?_
      rcases List.mem_append.1 hi with h | h
      · exact List.mem_append_left _ (hsub.subset h)
      · exact List.mem_append_right _ h⟩
  have hlen1 : (coalesce aw (dataOf (view l)) fl).2.length < fuel :=
    lt_of_le_of_lt hsub.length_le hf
  have hchain := coalesceR_chain aw (fl.map (reg (view l))) hlt
  refine ⟨l1, _, e1, rep1, hsub, ?_, ?_, ?_, ?_, ?_, ?_, ?_, ?_⟩
  · exact regions_spec l (Or.inl rfl) fl fuel rep.free hf
  · exact regions_spec l1 (Or.inl rfl) _ fuel t1 hlen1
  · rw [hmap]
    exact (coalesceR_inv hb hw ht _ hin).2.1
  · intro x
    rw [hmap]
    exact coalesceR_cover hb hw ht _ hin x
  · rw [hmap]
    exact hchain
  · intro i hi hni
    have a0 := g3 i hi hni
    have n0 := g4 i hi hni
    rw [← d1] at a0 n0
    exact ⟨a0, n0⟩
  · intro i hi
    rw [hreg1, hreg0]
    exact g2 i hi
  · refine arrange_noop aw (Or.inl rfl) l1 _ fuel t1 hlen1 ?_
    rw [hmap]
    exact hchain.imp (fun {a b} h => h.1)

theorem arrange_regions_normalises_witness :
    (Rep (view demoBeforeArrange) [1, 0] [] ∧ 0 < 4096 ∧ 4096 + 1024 ≤ 2 ^ 32 ∧
      1024 < 2 ^ 32 ∧
      (∀ r ∈ [1, 0].map (reg (view demoBeforeArrange)),
        4096 ≤ r.1 ∧ r.1 + r.2 ≤ 4096 + 1024) ∧
      (∀ r ∈ [1, 0].map (reg (view demoBeforeArrange)), r.1 < 2 ^ 32) ∧
      [1, 0].length < 16) ∧
    ∃ l1 fl1, arrange_regions 32 16 demoBeforeArrange .free = some l1 ∧
      Rep (view l1) fl1 [] ∧ fl1.Sublist [1, 0] ∧
      regions 16 demoBeforeArrange .free
        = some ([1, 0].map (reg (view demoBeforeArrange))) ∧
      regions 16 l1 .free = some (fl1.map (reg (view l1))) ∧
      ((fl1.map (reg (view l1))).map Prod.snd).sum
        = (([1, 0].map (reg (view demoBeforeArrange))).map Prod.snd).sum ∧
      (∀ x : Nat, (∃ r ∈ fl1.map (reg (view l1)), r.1 ≤ x ∧ x < r.1 + r.2) ↔
        ∃ r ∈ [1, 0].map (reg (view demoBeforeArrange)), r.1 ≤ x ∧ x < r.1 + r.2) ∧
      (fl1.map (reg (view l1))).Chain'
        (fun m1 m2 => (m1.1 + m1.2) % 2 ^ 32 ≠ m2.1 ∧ m1.1 + m1.2 ≠ m2.1) ∧
      (∀ i ∈ [1, 0], i ∉ fl1 → (l1.entries i).address = 0 ∧ (l1.entries i).length = 0) ∧
      (∀ i, i ∉ [1, 0] → reg (view l1) i = reg (view demoBeforeArrange) i) ∧
      arrange_regions 32 16 l1 .free = some l1 :=
  ⟨⟨demo_rep, by decide, by decide, by decide, by decide, by decide, by decide⟩,
    arrange_regions_normalises 32 4096 1024 demoBeforeArrange [1, 0] [] 16 demo_rep
      (by decide) (by decide) (by decide) (by decide) (by decide) (by decide)⟩

/-! ## The memory-manager glue (`jmem_impliments.c`, built with `USE_MEMALLOC (1)`) -/

/-- C22 (single-owner gating): `jpeg_mem_init` on unowned statics with a non-null
`malloc` result makes the calling context the owner. While a context owns the pool, for
every other context `jpeg_mem_init` returns 0 and leaves the statics as they are,
`jpeg_get_small` and `jpeg_get_large` return `NULL` and leave the statics as they are,
and `jpeg_free_small`, `jpeg_free_large` and `jpeg_mem_term` leave the statics, the owner
included, as they are. -/
theorem single_owner_gating (aw fuel : Nat) :
    (∀ (g0 : glue_state) (m c : Nat), g0.UsedObject = 0 → m ≠ 0 →
      ∃ r g, jpeg_mem_init (fuel + 1) g0 m c = some (r, g) ∧ g.UsedObject = c ∧
        r = mem_size) ∧
    (∀ (g : glue_state) (cinfo : Nat), g.UsedObject ≠ 0 → cinfo ≠ g.UsedObject →
      (∀ m, jpeg_mem_init fuel g m cinfo = some (0, g)) ∧
      (∀ n, jpeg_get_small aw fuel g cinfo n = some (0, g)) ∧
      (∀ n, jpeg_get_large aw fuel g cinfo n = some (0, g)) ∧
      (∀ p n, jpeg_free_small aw fuel g cinfo p n = some g) ∧
      (∀ p n, jpeg_free_large aw fuel g cinfo p n = some g) ∧
      jpeg_mem_term g cinfo = g) := by
  constructor
  · intro g0 m c h0 hm
    obtain ⟨l0, e, _, _, _, _, _, lf, _⟩ := init_spec (fuel + 1) m mem_size g0.MemRegionList.entries
      MEM_REGION_COUNT g0.MemRegionList (by omega) (by decide)
    refine ⟨mem_size, ⟨l0, c⟩, ?_, rfl, rfl⟩
    have hlf : mem_region_list_get_free (some l0) = mem_size := lf
    simp only [jpeg_mem_init, h0, ne_eq, not_true_eq_false, if_false, hm, e,
      Option.some_bind, hlf]
  · intro g cinfo hown hother
    refine ⟨fun m => ?_, fun n => ?_, fun n => ?_, fun p n => ?_, fun p n => ?_, ?_⟩
    · simp only [jpeg_mem_init, hown, ne_eq, not_false_eq_true, if_true]
    · simp only [jpeg_get_small, hother, if_false]
    · simp only [jpeg_get_large, hother, if_false]
    · simp only [jpeg_free_small, hother, if_false]
    · simp only [jpeg_free_large, hother, if_false]
    · simp only [jpeg_mem_term, hother, and_false, if_false]

theorem single_owner_gating_witness :
    ((⟨demoOld, 0⟩ : glue_state).UsedObject = 0 ∧ (1048576 : Nat) ≠ 0 ∧
      demoGlue.UsedObject ≠ 0 ∧ 78 ≠ demoGlue.UsedObject) ∧
    (∃ r g, jpeg_mem_init (3 + 1) ⟨demoOld, 0⟩ 1048576 77 = some (r, g) ∧ g.UsedObject = 77 ∧
      r = mem_size) ∧
    ((∀ m, jpeg_mem_init 80 demoGlue m 78 = some (0, demoGlue)) ∧
      (∀ n, jpeg_get_small 64 80 demoGlue 78 n = some (0, demoGlue)) ∧
      (∀ n, jpeg_get_large 64 80 demoGlue 78 n = some (0, demoGlue)) ∧
      (∀ p n, jpeg_free_small 64 80 demoGlue 78 p n = some demoGlue) ∧
      (∀ p n, jpeg_free_large 64 80 demoGlue 78 p n = some demoGlue) ∧
      jpeg_mem_term demoGlue 78 = demoGlue) :=
  ⟨⟨rfl, by decide, by decide, by decide⟩,
    (single_owner_gating 64 3).1 ⟨demoOld, 0⟩ 1048576 77 rfl (by decide),
    (single_owner_gating 64 80).2 demoGlue 78 (by decide) (by decide)⟩

/-- C27 (code defect): the glue hands out less than was asked for. On a 64-bit build
`jpeg_get_small(cinfo, 2^32 + 8)` by the owner casts the size to 8, returns the non-null
pointer `0x100000` and reserves a used region of 8 bytes; and `jpeg_get_large(cinfo,
0xFFFFFFFF)` rounds the size to 0, returns the non-null pointer `0x100000` and reserves
a used region of 0 bytes. -/
theorem glue_under_allocates :
    demoGlue.UsedObject = 77 ∧
    regions 80 demoGlue.MemRegionList .free = some [(1048576, 16777216)] ∧
    (∃ g, jpeg_get_small 64 80 demoGlue 77 4294967304 = some (1048576, g) ∧
      regions 80 g.MemRegionList .used = some [(1048576, 8)] ∧
      mem_region_list_get_used (some g.MemRegionList) = 8) ∧
    (8 : Nat) < 4294967304 ∧ 4294967304 < 2 ^ 64 ∧
    (∃ g, jpeg_get_large 64 80 demoGlue 77 4294967295 = some (1048576, g) ∧
      regions 80 g.MemRegionList .used = some [(1048576, 0)] ∧
      mem_region_list_get_used (some g.MemRegionList) = 0) ∧
    (0 : Nat) < 4294967295 ∧ (1048576 : Nat) ≠ 0 :=
  ⟨rfl, rfl, ⟨_, rfl, rfl, rfl⟩, by decide, by decide, ⟨_, rfl, rfl, rfl⟩, by decide,
    by decide⟩

/-- Away from the two defects the allocator reserves enough: with a base address other
than 0 and a request of at most `2 ^ 32 - 4` bytes, a non-null result of `assign` is the
start of a used region whose length is the rounded request, which is not below the
request. -/
theorem assign_reserves_enough {aw fuel base total : Nat} {es : Nat → mem_region}
    {count : Int} {old l0 l l1 : mem_region_list} (hb : 0 < base) (hw : base + total ≤ 2 ^ aw)
    (ht : total < 2 ^ 32)
    (hinit : mem_region_list_init fuel (some old) base total (some es) count
      = some (true, some l0))
    (hreach : Reachable aw (2 ^ 32 - 1) l0 l) {f len a : Nat}
    (h : mem_region_list_assign aw f l len = some (l1, a)) (ha : a ≠ 0)
    (hlen : len ≤ 2 ^ 32 - 4) :
    ∃ ur, regions (count.toNat + 1) l1 .used = some ur ∧ (a, needs_length len) ∈ ur ∧
      len ≤ needs_length len := by
  obtain ⟨s, sim, _⟩ := hreach.sim hb hw ht hinit (fun _ => True) trivial
    (fun _ _ _ _ _ _ _ _ _ => trivial) (fun _ _ _ _ => trivial)
  have hcnt := hreach.count hw ht hinit
  have hlen0 : 0 < len := by
    rcases Nat.eq_zero_or_pos len with rfl | hl
    · rw [mem_region_list_assign, if_pos (le_refl _)] at h
      cases h; exact absurd rfl ha
    · exact hl
  obtain ⟨s1, e1, sim1, c1, _, _, _⟩ := sim_assign_success hb hw ht sim h ha
  obtain ⟨P, L, Q, _, _, _, rfl⟩ := aAssign_some aw s s1 _ a e1
  have hr := (sim_regions sim1).2.1
  rw [c1, hcnt] at hr
  exact ⟨_, hr, (insertReg_perm _ _).mem_iff.2 (by simp),
    (needs_length_bounds hlen0 hlen).2.1⟩

/-! ## The memory destination manager (`jdatadst_mem.c`) -/

/-- Growth of the memory destination where twice the capacity fits `size_t`: let the
destination object hold a buffer of `bufsize` bytes whose block is in memory, with
`newbuffer` either `NULL` or that buffer, and let allocation be allowed. With a `malloc`
that returns a fresh block of twice the size inside the address space, so that
`bufsize * 2` does not wrap, `empty_mem_output_buffer` returns `true`; the new buffer has
twice the capacity and starts with the old contents, the write position is at offset
`bufsize` with `bufsize` bytes free, and `term_mem_destination` reports the new buffer
and `bufsize` plus the bytes written since. With allocation disallowed the routine
returns `false` and changes nothing but the error code. `jpeg_mem_dest` with allocation
disallowed returns `false` when a pointer is `NULL`, the buffer is `NULL` or the size 0. -/
theorem mem_destination_growth (sw : Nat) (w : dest_world) (dest : my_mem_destination_mgr)
    (hd : w.dest = some dest) :
    (dest.allow_allocate_memory = true →
      ∀ (p : Nat) (fresh : Nat → Nat) (old : mem_block), p ≠ 0 → w.heap p = none →
        w.heap dest.buffer = some old → dest.bufsize ≤ old.size →
        (dest.newbuffer = 0 ∨ dest.newbuffer = dest.buffer) →
        p < 2 ^ sw → p + 2 * dest.bufsize ≤ 2 ^ sw →
        ∃ w1 d1 nb, empty_mem_output_buffer sw w p fresh = some (true, w1) ∧
          w1.dest = some d1 ∧ d1.bufsize = 2 * dest.bufsize ∧ d1.buffer = p ∧
          d1.newbuffer = p ∧ w1.heap p = some nb ∧ nb.size = 2 * dest.bufsize ∧
          (∀ i, i < dest.bufsize → nb.data i = old.data i) ∧
          d1.next_output_byte = p + dest.bufsize ∧ d1.free_in_buffer = dest.bufsize ∧
          ∀ k, k ≤ dest.bufsize →
            ∃ w2, term_mem_destination sw
                { w1 with dest := some { d1 with free_in_buffer := dest.bufsize - k } }
                = some w2 ∧
              w2.outbuffer = p ∧ w2.outsize = dest.bufsize + k) ∧
    (dest.allow_allocate_memory = false → ∀ (p : Nat) (fresh : Nat → Nat),
      empty_mem_output_buffer sw w p fresh
        = some (false, { w with msg_code := some .JERR_BAD_STATE })) ∧
    (∀ (ob os : Option Nat) (a : my_mem_destination_mgr) (p : Nat) (fresh : Nat → Nat),
      (ob = none ∨ os = none ∨ ob = some 0 ∨ os = some 0) →
      ∃ code, jpeg_mem_dest w ob os false a p fresh
        = some (false, { w with msg_code := some code })) := by
  refine ⟨?_, ?_, ?_⟩
  · intro hallow p fresh old hp hfresh hold hsize hnb hplt hpw
    have h2 : 2 * dest.bufsize < 2 ^ sw := by omega
    have hne : dest.buffer ≠ p := by
      intro e
      rw [e, hfresh] at hold
      cases hold
    have hmod : (dest.bufsize * 2) % 2 ^ sw = 2 * dest.bufsize := by
      rw [Nat.mul_comm]; exact Nat.mod_eq_of_lt h2
    have hcopy : heap_memcpy (heap_malloc w.heap p (2 * dest.bufsize) fresh) p dest.buffer
        dest.bufsize
        = some fun q => if q = p then
            some ⟨2 * dest.bufsize, fun i => if i < dest.bufsize then old.data i else fresh i⟩
          else heap_malloc w.heap p (2 * dest.bufsize) fresh q := by
      have e1 : heap_malloc w.heap p (2 * dest.bufsize) fresh p
          = some ⟨2 * dest.bufsize, fresh⟩ := by simp [heap_malloc]
      have e2 : heap_malloc w.heap p (2 * dest.bufsize) fresh dest.buffer = some old := by
        simp [heap_malloc, hne, hold]
      have hc : dest.bufsize ≤ 2 * dest.bufsize ∧ dest.bufsize ≤ old.size := ⟨by omega, hsize⟩
      simp only [heap_memcpy, e1, e2, hc, and_self, if_true]
    have hnbp : dest.newbuffer ≠ 0 → dest.newbuffer ≠ p := by
      intro _ e
      rcases hnb with h | h
      · omega
      · exact hne (h ▸ e)
    refine ⟨{ w with
        dest := some
          { dest with
            newbuffer := p
            newbufsize := 2 * dest.bufsize
            next_output_byte := (p + dest.bufsize) % 2 ^ sw
            free_in_buffer := dest.bufsize
            buffer := p
            bufsize := 2 * dest.bufsize }
        heap := if dest.newbuffer ≠ 0 then
            heap_free (fun q => if q = p then
                some ⟨2 * dest.bufsize,
                  fun i => if i < dest.bufsize then old.data i else fresh i⟩
              else heap_malloc w.heap p (2 * dest.bufsize) fresh q) dest.newbuffer
          else fun q => if q = p then
              some ⟨2 * dest.bufsize,
                fun i => if i < dest.bufsize then old.data i else fresh i⟩
            else heap_malloc w.heap p (2 * dest.bufsize) fresh q },
      { dest with
        newbuffer := p
        newbufsize := 2 * dest.bufsize
        next_output_byte := (p + dest.bufsize) % 2 ^ sw
        free_in_buffer := dest.bufsize
        buffer := p
        bufsize := 2 * dest.bufsize },
      ⟨2 * dest.bufsize, fun i => if i < dest.bufsize then old.data i else fresh i⟩,
      ?_, rfl, rfl, rfl, rfl, ?_, rfl, ?_, ?_, rfl, ?_⟩
    · simp only [empty_mem_output_buffer, hd, hallow, Bool.not_true, Bool.false_eq_true,
        if_false, hp, hmod, hcopy, Option.some_bind]
    · by_cases h0 : dest.newbuffer ≠ 0
      · have := hnbp h0
        simp [h0, heap_free, Ne.symm this]
      · simp [h0]
    · intro i hi
      simp [hi]
    · exact Nat.mod_eq_of_lt (by omega)
    · intro k hk
      refine ⟨_, rfl, rfl, ?_⟩
      show (2 * dest.bufsize + 2 ^ sw - (dest.bufsize - k)) % 2 ^ sw = dest.bufsize + k
      rw [show 2 * dest.bufsize + 2 ^ sw - (dest.bufsize - k) = (dest.bufsize + k) + 2 ^ sw by
        omega, Nat.add_mod_right]
      exact Nat.mod_eq_of_lt (by omega)
  · intro hallow p fresh
    simp [empty_mem_output_buffer, hd, hallow, ERREXIT]
  · intro ob os a p fresh h
    cases ob with
    | none => exact ⟨.JERR_BUFFER_SIZE, rfl⟩
    | some b =>
      cases os with
      | none => exact ⟨.JERR_BUFFER_SIZE, rfl⟩
      | some z =>
        refine ⟨.JERR_BAD_BUFFER_MODE, ?_⟩
        have hz : b = 0 ∨ z = 0 := by
          rcases h with h | h | h | h
          · cases h
          · cases h
          · left; exact Option.some.inj h
          · right; exact Option.some.inj h
        rcases hz with h0 | h0 <;> simp [jpeg_mem_dest, h0, ERREXIT]

theorem mem_destination_growth_witness :
    (demoWorld.dest = some ⟨1004, 0, 0, 0, 1000, 4, true⟩ ∧
      (2000 : Nat) ≠ 0 ∧ demoWorld.heap 2000 = none ∧
      demoWorld.heap 1000 = some ⟨4, fun i => i + 1⟩ ∧ (4 : Nat) ≤ 4 ∧
      ((0 : Nat) = 0 ∨ (0 : Nat) = 1000) ∧ 2000 < 2 ^ 64 ∧ 2000 + 2 * 4 ≤ 2 ^ 64) ∧
    ∃ w1 d1 nb, empty_mem_output_buffer 64 demoWorld 2000 (fun _ => 0) = some (true, w1) ∧
      w1.dest = some d1 ∧ d1.bufsize = 2 * 4 ∧ d1.buffer = 2000 ∧
      d1.newbuffer = 2000 ∧ w1.heap 2000 = some nb ∧ nb.size = 2 * 4 ∧
      (∀ i, i < 4 → nb.data i = i + 1) ∧
      d1.next_output_byte = 2000 + 4 ∧ d1.free_in_buffer = 4 ∧
      ∀ k, k ≤ 4 →
        ∃ w2, term_mem_destination 64
            { w1 with dest := some { d1 with free_in_buffer := 4 - k } } = some w2 ∧
          w2.outbuffer = 2000 ∧ w2.outsize = 4 + k :=
  ⟨⟨rfl, by decide, rfl, rfl, by decide, Or.inl rfl, by decide, by decide⟩,
    (mem_destination_growth 64 demoWorld ⟨1004, 0, 0, 0, 1000, 4, true⟩ rfl).1 rfl 2000
      (fun _ => 0) ⟨4, fun i => i + 1⟩ (by decide) rfl rfl (by decide) (Or.inl rfl)
      (by decide) (by decide)⟩

/-- C29 (code defect): a full buffer of at least half the range of `size_t` is not
replaced by one of twice the capacity. On a build with a 32-bit `size_t` the buffer of
`0x80000800` bytes at `0x10000` is full and allocation is allowed. The product
`nextsize = dest->bufsize * 2` wraps to `0x1000`, so the block that `malloc(nextsize)`
returns at `0x90000000` has 4096 bytes, and `memcpy(nextbuffer, dest->buffer,
dest->bufsize)` copies `0x80000800` bytes into it, past its end: the call has no defined
result. Whatever `malloc` returns, the call returns `false` (for `NULL`, leaving the
buffer as it was) or has no defined result; it never returns `true`. -/
theorem doubling_wraps_size_t :
    demoLargeWorld.dest = some ⟨2147551232, 0, 0, 0, 65536, 2147485696, true⟩ ∧
    demoLargeWorld.heap 65536 = some ⟨2147485696, fun _ => 0⟩ ∧
    (65536 : Nat) + 2147485696 < 2 ^ 32 ∧ (4096 : Nat) < 2 * 2147485696 ∧
    (∀ fresh, heap_malloc demoLargeWorld.heap 2415919104 ((2147485696 * 2) % 2 ^ 32) fresh
      2415919104 = some ⟨4096, fresh⟩) ∧
    (∀ fresh, heap_memcpy (heap_malloc demoLargeWorld.heap 2415919104 4096 fresh)
      2415919104 65536 2147485696 = none) ∧
    (∀ fresh, empty_mem_output_buffer 32 demoLargeWorld 2415919104 fresh = none) ∧
    (∀ p fresh, empty_mem_output_buffer 32 demoLargeWorld p fresh
      = if p = 0 then
          some (false, { demoLargeWorld with msg_code := some .JERR_OUT_OF_MEMORY })
        else none) :=
  ⟨rfl, rfl, by decide, by decide, fun _ => rfl, fun _ => rfl, fun _ => rfl, by
    intro p fresh
    by_cases h : p = 0
    · subst h; rfl
    · rw [if_neg h]
      by_cases h2 : (65536 : Nat) = p
      · subst h2
        simp [empty_mem_output_buffer, demoLargeWorld, heap_memcpy, heap_malloc]
      · simp [empty_mem_output_buffer, demoLargeWorld, heap_memcpy, heap_malloc, h, h2]⟩

end MemRegionList
